import Mathlib

/-!
# OMS-Auditd-Plugin: record parser, record builder feed, raw event reader

A shallow embedding of `RawEventRecord.cpp` (the field iterator, `Parse`,
`AddRecord`) and of `RawEventReader.h` (`ReadEvent`, `WriteAck`), with the
properties of the specification stated over it.

Conventions of the embedding:

* a `std::string_view` is a `List Char`, one `Char` per byte of the view;
* `size_t` values are `Nat`; `std::string_view::npos` is `2^64 - 1`, and the
  two subtractions of the source that can wrap (`val.size()-12` in `Parse`,
  `event_size-sizeof(uint32_t)` in `ReadEvent`) are taken modulo `2^64`;
* a C++ exception leaving a function, and a read outside the viewed bytes,
  are the two values of `Fault`; a function that can do either returns
  `Except Fault _`.
-/

namespace Auoms

/-! ## `std::string_view` primitives -/

/-- The two ways a call can fail to return: a `std::out_of_range` exception
that is not caught, or a read outside the bytes of the view. -/
inductive Fault where
  | out_of_range
  | oob_read
  deriving DecidableEq, Repr

/-- The value of `std::string_view::npos` for a 64-bit `size_t`. -/
def npos : Nat := 2 ^ 64 - 1

/-- Subtraction of two `size_t` values, wrapping modulo `2^64`. -/
def size_sub (a b : Nat) : Nat := (a + 2 ^ 64 - b) % 2 ^ 64

/-- `s.find_first_of(chars, pos)`: the first index `>= pos` whose byte is one
of `chars`, or `npos`. -/
def find_first_of (s chars : List Char) (pos : Nat) : Nat :=
  let i := (s.drop pos).findIdx (fun c => chars.contains c)
  if pos + i < s.length then pos + i else npos

/-- `s.find_first_not_of(chars, pos)`: the first index `>= pos` whose byte is
none of `chars`, or `npos`. -/
def find_first_not_of (s chars : List Char) (pos : Nat) : Nat :=
  let i := (s.drop pos).findIdx (fun c => !chars.contains c)
  if pos + i < s.length then pos + i else npos

/-- `s.substr(pos, count)`: throws `std::out_of_range` when `pos > size()`,
otherwise the at most `count` bytes from `pos` on. -/
def substr (s : List Char) (pos count : Nat) : Except Fault (List Char) :=
  if pos > s.length then .error .out_of_range else .ok ((s.drop pos).take count)

/-- `s.back()`: the last byte; on an empty view the read is outside the view. -/
def back (s : List Char) : Except Fault Char :=
  match s.getLast? with
  | some c => .ok c
  | none => .error .oob_read

instance instDecidableEqExcept {ε α : Type} [DecidableEq ε] [DecidableEq α] :
    DecidableEq (Except ε α)
  | .ok a, .ok b => if h : a = b then isTrue (by rw [h]) else isFalse (by simpa using h)
  | .error a, .error b => if h : a = b then isTrue (by rw [h]) else isFalse (by simpa using h)
  | .ok _, .error _ => isFalse (by simp)
  | .error _, .ok _ => isFalse (by simp)

/-- The separator set `" \n"sv` of the tokeniser. -/
def SEP : List Char := [' ', '\n']

/-- The literal `"msg='"sv`. -/
def MSG_QUOTE : List Char := ['m', 's', 'g', '=', '\'']

/-! ## `RecordFieldIterator` -/

/-- The members of `RecordFieldIterator`. -/
structure RecordFieldIterator where
  _str : List Char
  _val : List Char
  _idx : Nat
  deriving DecidableEq, Repr

/-- The constructor `RecordFieldIterator(str)`. -/
def RecordFieldIterator.mk0 (str : List Char) : RecordFieldIterator :=
  { _str := str, _val := [], _idx := 0 }

/-- `RecordFieldIterator::next()`, the recursion `return next()` unrolled at
most `fuel` times. Every recursive call has `_idx` five larger, so
`_str.size() - _idx + 1` calls always suffice (`nextAux_fuel`). -/
def RecordFieldIterator.nextAux :
    Nat → RecordFieldIterator → Except Fault (Bool × RecordFieldIterator)
  | 0, it => .ok (false, it)
  | fuel + 1, it =>
    if it._idx = npos ∨ it._idx ≥ it._str.length then
      .ok (false, it)
    else
      let idx0 := find_first_of it._str SEP it._idx
      let idx := if idx0 = npos then it._str.length else idx0
      match substr it._str it._idx (idx - it._idx) with
      | .error e => .error e
      | .ok val =>
        match substr val 0 5 with
        | .error e => .error e
        | .ok pre =>
          if pre = MSG_QUOTE then
            RecordFieldIterator.nextAux fuel { it with _val := val, _idx := it._idx + 5 }
          else
            let idx1 := find_first_not_of it._str SEP idx
            match back val with
            | .error e => .error e
            | .ok b =>
              if b = '\'' then
                match substr val 0 (val.length - 1) with
                | .error e => .error e
                | .ok val1 => .ok (true, { it with _val := val1, _idx := idx1 })
              else
                .ok (true, { it with _val := val, _idx := idx1 })

/-- `RecordFieldIterator::next()`. -/
def RecordFieldIterator.next (it : RecordFieldIterator) :
    Except Fault (Bool × RecordFieldIterator) :=
  RecordFieldIterator.nextAux (it._str.length + 1) it

/-- `RecordFieldIterator::value()`. -/
def RecordFieldIterator.value (it : RecordFieldIterator) : List Char := it._val

/-- The free function `starts_with(str, prefix)`. -/
def starts_with (str pre : List Char) : Except Fault Bool :=
  if pre.length > str.length then .ok false
  else
    match substr str 0 pre.length with
    | .error e => .error e
    | .ok s => .ok (decide (s = pre))

/-- The free function `ends_with(str, suffix)`. -/
def ends_with (str suf : List Char) : Except Fault Bool :=
  if suf.length > str.length then .ok false
  else
    match substr str (str.length - suf.length) suf.length with
    | .error e => .error e
    | .ok s => .ok (decide (s = suf))

/-! ## `std::stoll` / `std::stoi` -/

/-- The two exceptions of `std::stoll` and `std::stoi`. -/
inductive StoError where
  | invalid_argument
  | out_of_range
  deriving DecidableEq, Repr

/-- `isspace` in the "C" locale. -/
def isspace (c : Char) : Bool :=
  c = ' ' || c = '\t' || c = '\n' || c = '\x0b' || c = '\x0c' || c = '\r'

/-- The value of a run of decimal digits. -/
def digitsValue (ds : List Char) : Nat :=
  ds.foldl (fun a c => 10 * a + (c.toNat - '0'.toNat)) 0

/-- The conversion that `std::stoll(s, 0)` and `std::stoi(s, 0)` share (base
10, through `strtoll` / `strtol`): leading white space is skipped, one sign
is accepted, the longest run of digits is converted and what follows it is
ignored; no digit gives `invalid_argument`, a value outside `[lo, hi]` gives
`out_of_range`. -/
def stoBase10 (lo hi : Int) (s : List Char) : Except StoError Int :=
  let s1 := s.dropWhile isspace
  let neg := s1.head? = some '-'
  let s2 := if s1.head? = some '-' ∨ s1.head? = some '+' then s1.tail else s1
  let ds := s2.takeWhile Char.isDigit
  if ds = [] then .error .invalid_argument
  else
    let v : Int := if neg then -(digitsValue ds : Int) else (digitsValue ds : Int)
    if v < lo ∨ hi < v then .error .out_of_range else .ok v

/-- `std::stoll(s, 0)` with a 64-bit `long long`. -/
def stoll (s : List Char) : Except StoError Int := stoBase10 (-(2 ^ 63)) (2 ^ 63 - 1) s

/-- `std::stoi(s, 0)` with a 32-bit `int`. -/
def stoi (s : List Char) : Except StoError Int := stoBase10 (-(2 ^ 31)) (2 ^ 31 - 1) s

/-- `static_cast<uint64_t>(v)`. -/
def to_uint64 (v : Int) : Nat := (v % (2 ^ 64 : Int)).toNat

/-- `static_cast<uint32_t>(v)`. -/
def to_uint32 (v : Int) : Nat := (v % (2 ^ 32 : Int)).toNat

/-! ## `RawEventRecord` -/

/-- `EventId`: seconds (`uint64_t`), milliseconds (`uint32_t`), serial
(`uint64_t`). The default constructor `EventId()` is all zero. -/
structure EventId where
  seconds : Nat
  milliseconds : Nat
  serial : Nat
  deriving DecidableEq, Repr

/-- The two functions of `LookupTables` that `Parse` calls; their tables are
not part of the parser and are taken as given. -/
structure LookupTables where
  RecordTypeCodeToString : Nat → List Char
  RecordTypeNameToCode : List Char → Nat

/-- `RecordType::UNKNOWN`, the type code 0. -/
def RecordType_UNKNOWN : Nat := 0

/-- The members of `RawEventRecord`. -/
structure RawEventRecord where
  _data : List Char
  _size : Nat
  _record_type : Nat
  _node : List Char
  _type_name : List Char
  _event_id : EventId
  _record_fields : List (List Char)
  deriving DecidableEq, Repr

/-- The loop `while(itr.next()) { _record_fields.push_back(itr.value()); }`,
run at most `fuel` times. Every successful `next()` moves `_idx` forward, so
`_str.size() + 1` rounds always suffice (`collectFields_fuel`). -/
def collectFields :
    Nat → RecordFieldIterator → List (List Char) → Except Fault (List (List Char))
  | 0, _, fields => .ok fields
  | fuel + 1, itr, fields =>
    match itr.next with
    | .error e => .error e
    | .ok (false, _) => .ok fields
    | .ok (true, itr1) => collectFields fuel itr1 (fields ++ [itr1.value])

/-- The literal `"node="sv`. -/
def NODE_EQ : List Char := ['n', 'o', 'd', 'e', '=']

/-- The literal `"type="sv`. -/
def TYPE_EQ : List Char := ['t', 'y', 'p', 'e', '=']

/-- The literal `"msg="sv`. -/
def MSG_EQ : List Char := ['m', 's', 'g', '=']

/-- The literal `"audit("sv`. -/
def AUDIT_OPEN : List Char := ['a', 'u', 'd', 'i', 't', '(']

/-- The literal `"):"sv`. -/
def AUDIT_CLOSE : List Char := [')', ':']

/-- Lines 127-154 of `RawEventRecord::Parse`: split `event_id_str` at the
first `'.'` and the first `':'` after it, convert the three parts, and on
success run the field loop. -/
def RawEventRecord.parseIdFields (self : RawEventRecord) (itr : RecordFieldIterator)
    (event_id_str : List Char) : Except Fault (Bool × RawEventRecord) :=
  let pidx := find_first_of event_id_str ['.'] 0
  if pidx = npos then .ok (false, self)
  else
    let cidx := find_first_of event_id_str [':'] pidx
    if cidx = npos then .ok (false, self)
    else
      match substr event_id_str 0 pidx, substr event_id_str (pidx + 1) 3,
          substr event_id_str (cidx + 1) npos with
      | .ok sec_str, .ok msec_str, .ok ser_str =>
        match stoll sec_str, stoi msec_str, stoll ser_str with
        | .ok sec, .ok msec, .ok ser =>
          match collectFields (itr._str.length + 1) itr self._record_fields with
          | .error e => .error e
          | .ok fields =>
            .ok (true, { self with
              _event_id := ⟨to_uint64 sec, to_uint32 msec, to_uint64 ser⟩,
              _record_fields := fields })
        | _, _, _ => .ok (false, { self with _event_id := ⟨0, 0, 0⟩ })
      | _, _, _ => .error .out_of_range

/-- Lines 120-126 and 157 of `RawEventRecord::Parse`: drop a leading `msg=`
from the current token, test it for `audit(` ... `):`, and cut
`event_id_str = val.substr(10, val.size()-12)` out of it. `self` is the
record as left by the prefix handling. -/
def RawEventRecord.parseEventId (self : RawEventRecord) (itr : RecordFieldIterator) :
    Except Fault (Bool × RawEventRecord) :=
  match starts_with itr.value MSG_EQ with
  | .error e => .error e
  | .ok hasMsg =>
    match (if hasMsg then substr itr.value 4 npos else .ok itr.value) with
    | .error e => .error e
    | .ok val =>
      match starts_with val AUDIT_OPEN, ends_with val AUDIT_CLOSE with
      | .error e, _ => .error e
      | .ok false, _ => .ok (false, self)
      | .ok true, .error e => .error e
      | .ok true, .ok false => .ok (false, self)
      | .ok true, .ok true =>
        match substr val 10 (size_sub val.length 12) with
        | .error e => .error e
        | .ok event_id_str => self.parseIdFields itr event_id_str

/-- The shape shared by lines 96-103 (`"node="`) and 105-112 (`"type="`) of
`RawEventRecord::Parse`: when the current token starts with `pre`, take what
follows the five bytes of `pre` and advance; otherwise take the empty view.
The `Bool` is `false` exactly when `itr.next()` returned `false` (the
`return false` of lines 99 and 108). -/
def takePrefixed (pre : List Char) (itr : RecordFieldIterator) :
    Except Fault (Bool × List Char × RecordFieldIterator) :=
  match starts_with itr.value pre with
  | .error e => .error e
  | .ok false => .ok (true, [], itr)
  | .ok true =>
    match substr itr.value 5 npos with
    | .error e => .error e
    | .ok v =>
      match itr.next with
      | .error e => .error e
      | .ok (b, itr1) => .ok (b, v, itr1)

/-- Lines 114-118 of `RawEventRecord::Parse`: fill in whichever of the type
name and the type code is missing from the other. -/
def RawEventRecord.lookupType (lt : LookupTables) (self : RawEventRecord) : RawEventRecord :=
  if self._type_name.isEmpty ∧ self._record_type ≠ RecordType_UNKNOWN then
    { self with _type_name := lt.RecordTypeCodeToString self._record_type }
  else if ¬ self._type_name.isEmpty ∧ self._record_type = RecordType_UNKNOWN then
    { self with _record_type := lt.RecordTypeNameToCode self._type_name }
  else self

/-- `RawEventRecord::Parse(record_type, size)`. The text parsed is the first
`size` bytes of `_data`. The result is the returned `bool` and the record as
the call leaves it. -/
def RawEventRecord.Parse (lt : LookupTables) (self : RawEventRecord)
    (record_type size : Nat) : Except Fault (Bool × RawEventRecord) :=
  let r0 : RawEventRecord :=
    { self with _size := size, _record_type := record_type, _record_fields := [] }
  let str := self._data.take size
  match (RecordFieldIterator.mk0 str).next with
  | .error e => .error e
  | .ok (false, _) => .ok (false, r0)
  | .ok (true, itr0) =>
    match takePrefixed NODE_EQ itr0 with
    | .error e => .error e
    | .ok (false, node, _) => .ok (false, { r0 with _node := node })
    | .ok (true, node, itr1) =>
      match takePrefixed TYPE_EQ itr1 with
      | .error e => .error e
      | .ok (false, type_name, _) =>
        .ok (false, { r0 with _node := node, _type_name := type_name })
      | .ok (true, type_name, itr2) =>
        RawEventRecord.parseEventId
          (RawEventRecord.lookupType lt { r0 with _node := node, _type_name := type_name }) itr2

/-- A freshly constructed record whose buffer holds `data`. -/
def RawEventRecord.ofData (data : List Char) : RawEventRecord :=
  { _data := data, _size := 0, _record_type := RecordType_UNKNOWN, _node := [],
    _type_name := [], _event_id := ⟨0, 0, 0⟩, _record_fields := [] }

/-- What the stdin collector does with a line: `Parse(RecordType::UNKNOWN, nr)`
on a fresh record holding the `nr` bytes read. -/
def parseLine (lt : LookupTables) (line : String) : Except Fault (Bool × RawEventRecord) :=
  (RawEventRecord.ofData line.toList).Parse lt RecordType_UNKNOWN line.length

/-! ## `RawEventRecord::AddRecord` -/

/-- The field name `"node"` of line 172. -/
def NODE_NAME : List Char := ['n', 'o', 'd', 'e']

/-- A call on the `EventBuilder`, with the arguments `AddRecord` chooses
(`AddField` is always given a null interpreted value and the field type
`UNCLASSIFIED`). -/
inductive BuilderCall where
  | BeginRecord (record_type : Nat) (type_name text : List Char) (num_fields : Nat)
  | AddField (name value : List Char)
  | EndRecord
  deriving DecidableEq, Repr

/-- The `EventBuilder` as `AddRecord` sees it: the calls made on it so far and
the value each call returns, which may depend on the earlier calls. -/
structure EventBuilder where
  reply : List BuilderCall → BuilderCall → Int
  calls : List BuilderCall

/-- Make one call on the builder: its return value and the builder after it. -/
def EventBuilder.call (b : EventBuilder) (c : BuilderCall) : Int × EventBuilder :=
  (b.reply b.calls c, { b with calls := b.calls ++ [c] })

/-- The loop of lines 178-188 of `RawEventRecord::AddRecord`. The result is
`some ret` when the loop is left by `return ret`, and `none` when it runs
to its end. -/
def addFieldsLoop :
    List (List Char) → EventBuilder → Except Fault (Option Int × EventBuilder)
  | [], b => .ok (none, b)
  | f :: fs, b =>
    let idx := find_first_of f ['='] 0
    if idx = npos then addFieldsLoop fs b
    else
      match substr f 0 idx, substr f (idx + 1) npos with
      | .ok name, .ok value =>
        let (ret, b1) := b.call (.AddField name value)
        if ret ≠ 1 then .ok (some ret, b1) else addFieldsLoop fs b1
      | _, _ => .error .out_of_range

/-- `static_cast<uint16_t>(n)`. -/
def to_uint16 (n : Nat) : Nat := n % 2 ^ 16

/-- Lines 161-164 of `RawEventRecord::AddRecord`: the `uint16_t` field count
handed to `BeginRecord`. -/
def RawEventRecord.num_fields (self : RawEventRecord) : Nat :=
  let num_fields := to_uint16 self._record_fields.length
  if ¬ self._node.isEmpty then to_uint16 (num_fields + 1) else num_fields

/-- The `BeginRecord` call of line 166. -/
def RawEventRecord.beginCall (self : RawEventRecord) : BuilderCall :=
  .BeginRecord self._record_type self._type_name (self._data.take self._size) self.num_fields

/-- `RawEventRecord::AddRecord(builder)`: the returned `int` and the builder
after the call. -/
def RawEventRecord.AddRecord (self : RawEventRecord) (builder : EventBuilder) :
    Except Fault (Int × EventBuilder) :=
  let (ret, b1) := builder.call self.beginCall
  if ret ≠ 1 then .ok (ret, b1)
  else
    let (ret2, b2) :=
      if ¬ self._node.isEmpty then b1.call (.AddField NODE_NAME self._node)
      else (1, b1)
    if ret2 ≠ 1 then .ok (ret2, b2)
    else
      match addFieldsLoop self._record_fields b2 with
      | .error e => .error e
      | .ok (some ret3, b3) => .ok (ret3, b3)
      | .ok (none, b3) => .ok (b3.call .EndRecord)

/-! ## `RawEventReader` -/

/-- The bytes a store of the `width`-byte unsigned integer `v` puts in
memory, lowest address first. The integer stores of `RawEventReader` are
`reinterpret_cast` stores in host byte order; the hosts of this program
(x86-64 and aarch64 Linux) are little-endian, and that is the order here. -/
def storeLE (width v : Nat) : List Nat :=
  (List.range width).map (fun i => v / 256 ^ i % 256)

/-- The unsigned integer a load reads from little-endian bytes. -/
def loadLE (bytes : List Nat) : Nat :=
  bytes.foldr (fun b acc => b + 256 * acc) 0

/-- Memory after `data` has been written at offset `off` of `buf`. -/
def writeAt (buf : List Nat) (off : Nat) (data : List Nat) : List Nat :=
  buf.take off ++ data ++ buf.drop (off + data.length)

/-- The status codes of `IO` that `ReadEvent` names. `IO.h` is not among
the sources; the two codes are taken as given. -/
structure IOCodes where
  OK : Int
  FAILED : Int

/-- An `IReader` with state `σ`: `ReadAll(ptr, size, fn)` gives its return
value, the bytes it stored at `ptr`, and the reader after the call. -/
structure IReader (σ : Type) where
  ReadAll : σ → Nat → Int × List Nat × σ

/-- What a call of `ReadEvent` leaves behind: the value returned, the
buffer, the size it asked of the second `ReadAll` (if it got that far), and
the reader. -/
structure ReadEventResult (σ : Type) where
  ret : Int
  buf : List Nat
  payload_request : Option Nat
  reader : σ

/-- `RawEventReader::ReadEvent(buf, buf_size, reader, fn)`. -/
def ReadEvent {σ : Type} (io : IOCodes) (rd : IReader σ) (buf : List Nat) (buf_size : Nat)
    (s : σ) : ReadEventResult σ :=
  if buf_size < 4 then ⟨io.FAILED, buf, none, s⟩
  else
    let (ret, header, s1) := rd.ReadAll s 4
    if ret ≠ io.OK then ⟨ret, buf, none, s1⟩
    else
      let event_size := loadLE header % 2 ^ 32
      if event_size > buf_size then ⟨io.FAILED, buf, none, s1⟩
      else
        let buf1 := writeAt buf 0 (storeLE 4 event_size)
        let request := size_sub event_size 4
        let (ret2, payload, s2) := rd.ReadAll s1 request
        let buf2 := writeAt buf1 4 payload
        if ret2 ≠ io.OK then ⟨ret2, buf2, some request, s2⟩
        else ⟨(event_size : Int), buf2, some request, s2⟩

/-- An `IWriter`: the byte blocks handed to `WriteAll` so far, and what
`WriteAll` returns for a block. -/
structure IWriter where
  reply : List Nat → Int
  written : List (List Nat)

/-- `writer->WriteAll(data, size)`. -/
def IWriter.WriteAll (w : IWriter) (data : List Nat) : Int × IWriter :=
  (w.reply data, { w with written := w.written ++ [data] })

/-- The three accessors of `Event` that `WriteAck` calls. -/
structure Event where
  Seconds : Nat
  Milliseconds : Nat
  Serial : Nat

/-- `RawEventReader::WriteAck(const Event&, IWriter*)`. `ack_data` is the
content of the uninitialised local array. -/
def WriteAck_Event (ack_data : List Nat) (event : Event) (writer : IWriter) : Int × IWriter :=
  let a1 := writeAt ack_data 0 (storeLE 8 event.Seconds)
  let a2 := writeAt a1 8 (storeLE 4 event.Milliseconds)
  let a3 := writeAt a2 12 (storeLE 8 event.Serial)
  writer.WriteAll (a3.take (8 + 4 + 8))

/-- `RawEventReader::WriteAck(const EventId&, IWriter*)`. `ack_data` is the
content of the uninitialised local array. -/
def WriteAck_EventId (ack_data : List Nat) (event_id : EventId) (writer : IWriter) :
    Int × IWriter :=
  let a1 := writeAt ack_data 0 (storeLE 8 event_id.seconds)
  let a2 := writeAt a1 8 (storeLE 4 event_id.milliseconds)
  let a3 := writeAt a2 12 (storeLE 8 event_id.serial)
  writer.WriteAll (a3.take (8 + 4 + 8))

/-! ## Shapes of record text, for the statements -/

/-- No byte of `t` is a separator (SP or LF). -/
def noSep (t : List Char) : Bool := t.all (fun c => !SEP.contains c)

/-- A non-empty run of separators. -/
def isSepRun (s : List Char) : Bool := !s.isEmpty && s.all (fun c => SEP.contains c)

/-- A token as the tokeniser sees one outside a `msg='...'` block: non-empty,
without separator, not opening with `msg='`. -/
def plainTok (t : List Char) : Bool := !t.isEmpty && noSep t && (t.take 5 != MSG_QUOTE)

/-- Text that may follow a token: nothing, or text that begins with a separator. -/
def startsSep (rest : List Char) : Bool :=
  match rest with
  | [] => true
  | c :: _ => SEP.contains c

/-- What `next()` leaves of a token: one trailing single quote is removed. -/
def stripQuote (tok : List Char) : List Char :=
  if tok.getLast? = some '\'' then tok.dropLast else tok

/-- The iterator right after `next()` has returned the token `tok` that sits
at offset `pre.length` of `text`. -/
def atTok (text pre tok : List Char) : RecordFieldIterator :=
  { _str := text, _val := stripQuote tok,
    _idx := find_first_not_of text SEP (pre.length + tok.length) }

/-- The text of an optional `key<v>` token with the separators after it. -/
def prefixText (key : List Char) : Option (List Char × List Char) → List Char
  | none => []
  | some (v, seps) => key ++ v ++ seps

/-- An optional prefix token is well formed: its value has no separator and
a non-empty run of separators follows it. -/
def prefixOK : Option (List Char × List Char) → Bool
  | none => true
  | some (v, seps) => noSep v && isSepRun seps

/-- The value `Parse` keeps of an optional prefix token. -/
def prefixVal : Option (List Char × List Char) → List Char
  | none => []
  | some (v, _) => stripQuote v

/-- The record as `Parse` has it on reaching the event id token (line 120):
members reset, prefix values stored, type name and code completed. -/
def atEventId (lt : LookupTables) (self : RawEventRecord) (record_type size : Nat)
    (np tp : Option (List Char × List Char)) : RawEventRecord :=
  RawEventRecord.lookupType lt
    { self with _size := size, _record_type := record_type, _record_fields := [],
                _node := prefixVal np, _type_name := prefixVal tp }

/-- Lookup tables that know no record type: every code has the empty name
and every name the code `UNKNOWN`. -/
def noTables : LookupTables :=
  { RecordTypeCodeToString := fun _ => [], RecordTypeNameToCode := fun _ => RecordType_UNKNOWN }

/-- The distance of the iterator from the end of its text. -/
def remaining (it : RecordFieldIterator) : Nat :=
  if it._idx = npos then 0 else it._str.length - it._idx

/-- The text of field tokens, each with the run of separators before it. -/
def fieldsText : List (List Char × List Char) → List Char
  | [] => []
  | (seps, f) :: rest => seps ++ f ++ fieldsText rest

/-- Every field token is a plain token and follows a non-empty run of
separators. -/
def fieldsOK (fs : List (List Char × List Char)) : Bool :=
  fs.all (fun p => isSepRun p.1 && plainTok p.2)

/-- Every byte of `s` is a separator. -/
def allSep (s : List Char) : Bool := s.all (fun c => SEP.contains c)

/-- The token ends with a single quote. -/
def endsQuote (t : List Char) : Bool := t.getLast? = some '\''

/-- The digits `std::stoll` / `std::stoi` convert: those right after the
leading white space and one optional sign. -/
def leadDigits (s : List Char) : List Char :=
  let s1 := s.dropWhile isspace
  let s2 := if s1.head? = some '-' ∨ s1.head? = some '+' then s1.tail else s1
  s2.takeWhile Char.isDigit

/-- A part of the event id block: no `'.'`, no `':'`, no separator. -/
def idPart (p : List Char) : Bool :=
  p.all (fun c => c != '.' && c != ':' && !SEP.contains c)

/-- The event id token `audit(<sec>.<msec>:<ser>):`, with `msg=` in front
when `msg` is set. -/
def eventIdToken (msg : Bool) (sec msec ser : List Char) : List Char :=
  (if msg then MSG_EQ else []) ++ AUDIT_OPEN ++ (sec ++ '.' :: (msec ++ ':' :: ser))
    ++ AUDIT_CLOSE

/-- The current token as lines 120-123 leave it: a leading `msg=` removed. -/
def dropMsg (v : List Char) : List Char :=
  if MSG_EQ.isPrefixOf v then v.drop 4 else v

/-- The test of line 125: the text starts with `audit(` and ends with `):`. -/
def isAuditBlock (val : List Char) : Bool :=
  AUDIT_OPEN.isPrefixOf val && AUDIT_CLOSE.isSuffixOf val

/-- Record text that lacks a required token, or whose event id token is not
an `audit(` ... `):` block. -/
inductive Incomplete where
  /-- the empty input -/
  | empty
  /-- the input ends right after its `node=` token (and separators) -/
  | afterNode (n trailing : List Char)
  /-- the input ends right after its `type=` token (and separators) -/
  | afterType (np : Option (List Char × List Char)) (t trailing : List Char)
  /-- the token after the optional `node=` and `type=` tokens is `tok` -/
  | badEventId (np tp : Option (List Char × List Char)) (tok rest : List Char)

/-- The text of an incomplete record. -/
def Incomplete.text : Incomplete → List Char
  | .empty => []
  | .afterNode n trailing => NODE_EQ ++ n ++ trailing
  | .afterType np t trailing => prefixText NODE_EQ np ++ (TYPE_EQ ++ t) ++ trailing
  | .badEventId np tp tok rest => prefixText NODE_EQ np ++ prefixText TYPE_EQ tp ++ tok ++ rest

/-- The parts of an incomplete record are well formed, and in the last case
`tok` is the event id token (not itself a `node=` or `type=` token where
that one is absent) and, one trailing quote and a leading `msg=` removed,
is not an audit block. -/
def Incomplete.wf : Incomplete → Bool
  | .empty => true
  | .afterNode n trailing => noSep n && allSep trailing
  | .afterType np t trailing => prefixOK np && noSep t && allSep trailing
  | .badEventId np tp tok rest =>
    prefixOK np && prefixOK tp && plainTok tok && startsSep rest
      && (np.isSome || tp.isSome || !NODE_EQ.isPrefixOf (stripQuote tok))
      && (tp.isSome || !TYPE_EQ.isPrefixOf (stripQuote tok))
      && !isAuditBlock (dropMsg (stripQuote tok))

/-! ## Field tokens, for the statements about `AddRecord` -/

/-- A field token as the specification describes it: either text without
`'='`, or a name without `'='`, a `'='`, and a value. -/
inductive FieldTok where
  | bare (t : List Char)
  | named (name value : List Char)
  deriving DecidableEq, Repr

/-- The bytes of a field token. -/
def FieldTok.render : FieldTok → List Char
  | .bare t => t
  | .named name value => name ++ '=' :: value

/-- The parts named by a field token description are what it says: the bare
text and the name have no `'='`; and the token is a `size_t`-sized view. -/
def FieldTok.wf : FieldTok → Bool
  | .bare t => !t.contains '=' && decide (t.length < npos)
  | .named name value => !name.contains '=' && decide ((name ++ '=' :: value).length < npos)

/-- The `AddField` calls the specification expects for a list of field
tokens: one per token with a `'='`, in order, none for the others. -/
def expectedFieldCalls (toks : List FieldTok) : List BuilderCall :=
  toks.filterMap fun
    | .bare _ => none
    | .named name value => some (.AddField name value)

/-- The call that adds the synthetic `node` field, when the node is not empty. -/
def syntheticNodeCalls (self : RawEventRecord) : List BuilderCall :=
  if self._node = [] then [] else [.AddField NODE_NAME self._node]

/-- A builder every call on which succeeds (returns 1). -/
def EventBuilder.allSucceed (b : EventBuilder) : Prop := ∀ cs c, b.reply cs c = 1

/-! ## Concrete inputs -/

/-- The record of the specification's parse scenario. -/
def specLine : String :=
  "node=host1 type=SYSCALL msg=audit(1700000001.123:42): arch=c000003e syscall=59 a0=7ffd"

/-- The record of the specification's embedded `msg` block scenario. -/
def specMsgLine : String :=
  "type=USER_CMD msg=audit(1.002:3): pid=10 msg='cmd=ls cwd=/tmp'"

/-- What `Parse` leaves of `specLine`. -/
def specLineParsed : RawEventRecord :=
  { _data := specLine.toList, _size := 86, _record_type := RecordType_UNKNOWN,
    _node := "host1".toList, _type_name := "SYSCALL".toList,
    _event_id := ⟨1, 123, 42⟩,
    _record_fields := ["arch=c000003e".toList, "syscall=59".toList, "a0=7ffd".toList] }

/-- A builder on which every call returns 1, with no call made yet. -/
def okBuilder : EventBuilder := { reply := fun _ _ => 1, calls := [] }

/-- A parsed record without node, with a token that has no `'='`, a token
with an empty value, and a token with a second `'='`. -/
def mixedRecord : RawEventRecord :=
  { _data := "audit(1700000001.123:42): bare a= k=v=w".toList, _size := 39,
    _record_type := RecordType_UNKNOWN, _node := [], _type_name := [],
    _event_id := ⟨1, 123, 42⟩,
    _record_fields := ["bare".toList, "a=".toList, "k=v=w".toList] }

/-- Sample status codes. -/
def sampleIO : IOCodes := { OK := 1, FAILED := -1 }

/-- A reader over a list of bytes still to come: `ReadAll` succeeds when
enough bytes are left and fails otherwise. -/
def listReader (io : IOCodes) : IReader (List Nat) :=
  { ReadAll := fun s size =>
      if size ≤ s.length then (io.OK, s.take size, s.drop size) else (io.FAILED, [], s) }

/-- A writer on which every `WriteAll` returns 1, with nothing written yet. -/
def okWriter : IWriter := { reply := fun _ => 1, written := [] }

/-! ## `DoNetlinkCollection` -/

/-- `ETIMEDOUT` of `errno.h` on Linux. -/
def ETIMEDOUT : Int := 110

/-- What `DoNetlinkCollection` meets outside itself, as the answers it gets
in the order it asks. `Netlink`, `NetlinkRetry`, `Gate`, `Signals` and the
accumulator are not among the sources; a call of `NetlinkRetry(f)` is one
question here, whatever number of times it sends the request of `f`. -/
structure AuditEnv where
  /-- `netlink.Open(handler)` -/
  open_ret : Int
  /-- `getpid()` -/
  our_pid : Nat
  /-- `NetlinkRetry(AuditGet(status))`: the return value -/
  status_ret : Int
  /-- the `status.pid` it delivers -/
  status_pid : Nat
  /-- the `status.enabled` it delivers -/
  status_enabled : Nat
  /-- `PathExists("/proc/" + std::to_string(pid))` -/
  pathExists : Nat → Bool
  /-- the return value of the `k`-th `netlink.AuditSetPid(our_pid)`, `k` from 0 -/
  setPid : Nat → Int
  /-- the return value and the pid of the `k`-th `NetlinkRetry(AuditGetPid(pid))` -/
  getPid : Nat → Int × Nat
  /-- the return value of the `k`-th `NetlinkRetry(AuditSetEnabled(..))` -/
  setEnabled : Nat → Int
  /-- `Signals::IsExit()` at the head of round `k` of the loop of line 237 -/
  isExit : Nat → Bool
  /-- `_stop_gate.Wait(Gate::OPEN, 100)` in round `k` -/
  gateOpen : Nat → Bool
  /-- `accumulator.Flush(200)` throws in round `k` -/
  flushThrows : Nat → Bool
  /-- ten seconds have passed since `_last_pid_check` in round `k` -/
  pidCheckDue : Nat → Bool

/-- What the collector sends to the kernel, with the answer, and the one
error it logs without returning. `periodic` tells the query of line 257 from
the query of line 203. -/
inductive NetlinkEvent where
  | AuditGet (ret : Int) (pid enabled : Nat)
  | AuditSetPid (pid : Nat) (ret : Int)
  | AuditGetPid (periodic : Bool) (ret : Int) (pid : Nat)
  | AuditSetEnabled (enabled : Nat) (ret : Int)
  | MaxRetriesLogged
  deriving DecidableEq, Repr

/-- How a call ends: `return b`, or `exit(code)`. -/
inductive Outcome where
  | returned (b : Bool)
  | exited (code : Nat)
  deriving DecidableEq, Repr

/-- A run of `DoNetlinkCollection`: how it ended (`none` while it is still
running when the fuel is used up) and what it sent. -/
structure CollectionRun where
  outcome : Option Outcome
  events : List NetlinkEvent
  deriving DecidableEq, Repr

/-- How the loop of lines 196-215 is left. -/
inductive ClaimStatus where
  /-- the loop is left by `break` or by its condition: on to line 216 -/
  | proceed
  /-- `return false` at line 206 or 210 -/
  | failed
  /-- still in the loop when the fuel is used up -/
  | running
  deriving DecidableEq, Repr

/-- The result of the pid claim loop. `gets` counts the `AuditGetPid`
questions asked so far. -/
structure ClaimResult where
  status : ClaimStatus
  events : List NetlinkEvent
  gets : Nat
  deriving DecidableEq, Repr

/-- The `do { ... } while (pid != our_pid)` of lines 196-215, at most `fuel`
rounds of it. `retry_count` is also the number of `AuditSetPid` sent before. -/
def claimLoop (env : AuditEnv) :
    Nat → Nat → Nat → List NetlinkEvent → ClaimResult
  | 0, _, gets, events => ⟨.running, events, gets⟩
  | fuel + 1, retry_count, gets, events =>
    let events0 := if retry_count > 5 then events ++ [.MaxRetriesLogged] else events
    let ret := env.setPid retry_count
    let events1 := events0 ++ [.AuditSetPid env.our_pid ret]
    if ret = -ETIMEDOUT then
      let events2 := events1 ++ [.AuditGetPid false (env.getPid gets).1 (env.getPid gets).2]
      if (env.getPid gets).1 ≠ 0 then ⟨.failed, events2, gets + 1⟩
      else if (env.getPid gets).2 ≠ env.our_pid then
        claimLoop env fuel (retry_count + 1) (gets + 1) events2
      else ⟨.proceed, events2, gets + 1⟩
    else if ret ≠ 0 then ⟨.failed, events1, gets⟩
    else ⟨.proceed, events1, gets⟩

/-- The deferred `_revert_enabled` of lines 224-232, run on every `return`
after line 232. `enables` counts the `AuditSetEnabled` questions asked
before. -/
def revertEnabled (env : AuditEnv) (enabled enables : Nat) (events : List NetlinkEvent) :
    List NetlinkEvent :=
  if enabled = 0 then events ++ [.AuditSetEnabled 1 (env.setEnabled enables)] else events

/-- The loop of lines 237-279 and the `return false` of line 280, at most
`fuel` rounds of the loop. -/
def runLoop (env : AuditEnv) (enabled enables : Nat) :
    Nat → Nat → Nat → List NetlinkEvent → CollectionRun
  | 0, _, _, events => ⟨none, events⟩
  | fuel + 1, round, gets, events =>
    if env.isExit round then
      ⟨some (.returned false), revertEnabled env enabled enables events⟩
    else if env.gateOpen round then
      ⟨some (.returned false), revertEnabled env enabled enables events⟩
    else if env.flushThrows round then ⟨some (.exited 1), events⟩
    else if env.pidCheckDue round then
      let events1 := events ++ [.AuditGetPid true (env.getPid gets).1 (env.getPid gets).2]
      if (env.getPid gets).1 ≠ 0 then
        ⟨some (.returned false), revertEnabled env enabled enables events1⟩
      else if (env.getPid gets).2 ≠ env.our_pid then
        if (env.getPid gets).2 ≠ 0 then
          ⟨some (.returned false), revertEnabled env enabled enables events1⟩
        else ⟨some (.returned true), revertEnabled env enabled enables events1⟩
      else runLoop env enabled enables fuel (round + 1) (gets + 1) events1
    else runLoop env enabled enables fuel (round + 1) gets events

/-- `DoNetlinkCollection(accumulator)`, each of its two loops run for at
most `fuel` rounds. The `prctl` call, the file watcher and the closing of
the netlink connection send nothing to the kernel's audit status and are
left out. -/
def DoNetlinkCollection (env : AuditEnv) (fuel : Nat) : CollectionRun :=
  if env.open_ret ≠ 0 then ⟨some (.returned false), []⟩
  else
    let events := [NetlinkEvent.AuditGet env.status_ret env.status_pid env.status_enabled]
    if env.status_ret ≠ 0 then ⟨some (.returned false), events⟩
    else if env.status_pid ≠ 0 ∧ env.pathExists env.status_pid then
      ⟨some (.returned false), events⟩
    else
      match claimLoop env fuel 0 0 events with
      | ⟨.running, events1, _⟩ => ⟨none, events1⟩
      | ⟨.failed, events1, _⟩ => ⟨some (.returned false), events1⟩
      | ⟨.proceed, events1, gets⟩ =>
        if env.status_enabled = 0 then
          let events2 := events1 ++ [.AuditSetEnabled 1 (env.setEnabled 0)]
          if env.setEnabled 0 ≠ 0 then ⟨some (.returned false), events2⟩
          else runLoop env env.status_enabled 1 fuel 0 gets events2
        else runLoop env env.status_enabled 0 fuel 0 gets events1

/-- The values of `enabled` sent to the kernel, in order. -/
def enabledSent (events : List NetlinkEvent) : List Nat :=
  events.filterMap fun
    | .AuditSetEnabled v _ => some v
    | _ => none

/-- The number of `AuditSetPid` requests sent. -/
def setPidCount (events : List NetlinkEvent) : Nat :=
  (events.filter fun
    | .AuditSetPid _ _ => true
    | _ => false).length

/-- A kernel and a process in which everything succeeds at once: audit
disabled, no collector registered, and the exit signal seen at the first
look. -/
def calmEnv : AuditEnv :=
  { open_ret := 0, our_pid := 4711, status_ret := 0, status_pid := 0, status_enabled := 0,
    pathExists := fun _ => false, setPid := fun _ => 0, getPid := fun _ => (0, 4711),
    setEnabled := fun _ => 0, isExit := fun _ => true, gateOpen := fun _ => false,
    flushThrows := fun _ => false, pidCheckDue := fun _ => false }

/-- A kernel whose `AuditSetPid` reply is always lost and which always
reports the pid 4242 of another process. -/
def stuckEnv : AuditEnv :=
  { calmEnv with setPid := fun _ => -ETIMEDOUT, getPid := fun _ => (0, 4242) }

/-- The first `AuditSetPid` times out and the query reports the pid 4242 of
another process; the second `AuditSetPid` succeeds, and the first periodic
query reports pid 0. -/
def contendedEnv : AuditEnv :=
  { calmEnv with
    setPid := fun k => if k = 0 then -ETIMEDOUT else 0,
    getPid := fun k => if k = 0 then (0, 4242) else (0, 0),
    isExit := fun _ => false, pidCheckDue := fun _ => true }

/-! ## `Parse` as the program runs it past the read of `back()`

`Parse` above stops, with `Fault.oob_read`, where `next()` evaluates
`_val.back()` on an empty token. The program does not stop there: it reads
the byte in front of the token, whatever it is, and goes on. The definitions
below follow the same source lines with that read made. -/

/-- `RecordFieldIterator::next()` with the read of `_val.back()` made also on
an empty token, where it finds the byte `stray`; the recursion is unrolled at
most `fuel` times, as in `nextAux`. -/
def RecordFieldIterator.nextAuxRun (stray : Char) :
    Nat → RecordFieldIterator → Except Fault (Bool × RecordFieldIterator)
  | 0, it => .ok (false, it)
  | fuel + 1, it =>
    if it._idx = npos ∨ it._idx ≥ it._str.length then
      .ok (false, it)
    else
      let idx0 := find_first_of it._str SEP it._idx
      let idx := if idx0 = npos then it._str.length else idx0
      match substr it._str it._idx (idx - it._idx) with
      | .error e => .error e
      | .ok val =>
        match substr val 0 5 with
        | .error e => .error e
        | .ok pre =>
          if pre = MSG_QUOTE then
            RecordFieldIterator.nextAuxRun stray fuel { it with _val := val, _idx := it._idx + 5 }
          else
            let idx1 := find_first_not_of it._str SEP idx
            match back val with
            | .ok b =>
              if b = '\'' then
                match substr val 0 (val.length - 1) with
                | .error e => .error e
                | .ok val1 => .ok (true, { it with _val := val1, _idx := idx1 })
              else
                .ok (true, { it with _val := val, _idx := idx1 })
            | .error _ =>
              if stray = '\'' then
                match substr val 0 (size_sub val.length 1) with
                | .error e => .error e
                | .ok val1 => .ok (true, { it with _val := val1, _idx := idx1 })
              else
                .ok (true, { it with _val := val, _idx := idx1 })

/-- `RecordFieldIterator::next()` with the read of `_val.back()` made. -/
def RecordFieldIterator.nextRun (stray : Char) (it : RecordFieldIterator) :
    Except Fault (Bool × RecordFieldIterator) :=
  RecordFieldIterator.nextAuxRun stray (it._str.length + 1) it

/-- The field loop of `collectFields`, with `nx` for `itr.next()`. -/
def collectFieldsWith (nx : RecordFieldIterator → Except Fault (Bool × RecordFieldIterator)) :
    Nat → RecordFieldIterator → List (List Char) → Except Fault (List (List Char))
  | 0, _, fields => .ok fields
  | fuel + 1, itr, fields =>
    match nx itr with
    | .error e => .error e
    | .ok (false, _) => .ok fields
    | .ok (true, itr1) => collectFieldsWith nx fuel itr1 (fields ++ [itr1.value])

/-- Lines 127-154 of `RawEventRecord::Parse` as in `parseIdFields`, with `nx`
for `itr.next()`. -/
def RawEventRecord.parseIdFieldsWith
    (nx : RecordFieldIterator → Except Fault (Bool × RecordFieldIterator))
    (self : RawEventRecord) (itr : RecordFieldIterator)
    (event_id_str : List Char) : Except Fault (Bool × RawEventRecord) :=
  let pidx := find_first_of event_id_str ['.'] 0
  if pidx = npos then .ok (false, self)
  else
    let cidx := find_first_of event_id_str [':'] pidx
    if cidx = npos then .ok (false, self)
    else
      match substr event_id_str 0 pidx, substr event_id_str (pidx + 1) 3,
          substr event_id_str (cidx + 1) npos with
      | .ok sec_str, .ok msec_str, .ok ser_str =>
        match stoll sec_str, stoi msec_str, stoll ser_str with
        | .ok sec, .ok msec, .ok ser =>
          match collectFieldsWith nx (itr._str.length + 1) itr self._record_fields with
          | .error e => .error e
          | .ok fields =>
            .ok (true, { self with
              _event_id := ⟨to_uint64 sec, to_uint32 msec, to_uint64 ser⟩,
              _record_fields := fields })
        | _, _, _ => .ok (false, { self with _event_id := ⟨0, 0, 0⟩ })
      | _, _, _ => .error .out_of_range

/-- Lines 120-126 and 157 of `RawEventRecord::Parse` as in `parseEventId`,
with `nx` for `itr.next()`. -/
def RawEventRecord.parseEventIdWith
    (nx : RecordFieldIterator → Except Fault (Bool × RecordFieldIterator))
    (self : RawEventRecord) (itr : RecordFieldIterator) :
    Except Fault (Bool × RawEventRecord) :=
  match starts_with itr.value MSG_EQ with
  | .error e => .error e
  | .ok hasMsg =>
    match (if hasMsg then substr itr.value 4 npos else .ok itr.value) with
    | .error e => .error e
    | .ok val =>
      match starts_with val AUDIT_OPEN, ends_with val AUDIT_CLOSE with
      | .error e, _ => .error e
      | .ok false, _ => .ok (false, self)
      | .ok true, .error e => .error e
      | .ok true, .ok false => .ok (false, self)
      | .ok true, .ok true =>
        match substr val 10 (size_sub val.length 12) with
        | .error e => .error e
        | .ok event_id_str => self.parseIdFieldsWith nx itr event_id_str

/-- Lines 96-103 and 105-112 of `RawEventRecord::Parse` as in `takePrefixed`,
with `nx` for `itr.next()`. -/
def takePrefixedWith (nx : RecordFieldIterator → Except Fault (Bool × RecordFieldIterator))
    (pre : List Char) (itr : RecordFieldIterator) :
    Except Fault (Bool × List Char × RecordFieldIterator) :=
  match starts_with itr.value pre with
  | .error e => .error e
  | .ok false => .ok (true, [], itr)
  | .ok true =>
    match substr itr.value 5 npos with
    | .error e => .error e
    | .ok v =>
      match nx itr with
      | .error e => .error e
      | .ok (b, itr1) => .ok (b, v, itr1)

/-- `RawEventRecord::Parse(record_type, size)` as in `Parse`, with `nx` for
`itr.next()`: with `RecordFieldIterator.next` it is `Parse` (`ParseWith_next`),
with `RecordFieldIterator.nextRun stray` it is the call as the program runs
it. -/
def RawEventRecord.ParseWith
    (nx : RecordFieldIterator → Except Fault (Bool × RecordFieldIterator))
    (lt : LookupTables) (self : RawEventRecord)
    (record_type size : Nat) : Except Fault (Bool × RawEventRecord) :=
  let r0 : RawEventRecord :=
    { self with _size := size, _record_type := record_type, _record_fields := [] }
  let str := self._data.take size
  match nx (RecordFieldIterator.mk0 str) with
  | .error e => .error e
  | .ok (false, _) => .ok (false, r0)
  | .ok (true, itr0) =>
    match takePrefixedWith nx NODE_EQ itr0 with
    | .error e => .error e
    | .ok (false, node, _) => .ok (false, { r0 with _node := node })
    | .ok (true, node, itr1) =>
      match takePrefixedWith nx TYPE_EQ itr1 with
      | .error e => .error e
      | .ok (false, type_name, _) =>
        .ok (false, { r0 with _node := node, _type_name := type_name })
      | .ok (true, type_name, itr2) =>
        RawEventRecord.parseEventIdWith nx
          (RawEventRecord.lookupType lt { r0 with _node := node, _type_name := type_name }) itr2

/-! ## The netlink handler of `DoNetlinkCollection` -/

/-- The two record type codes the handler names: `AUDIT_FIRST_USER_MSG`
(`linux/audit.h`) and `RecordType::REPLACE` (`RecordType.h`). Neither header
is among the sources; the codes are taken as given. -/
structure AuditConsts where
  AUDIT_FIRST_USER_MSG : Nat
  REPLACE : Nat

/-- What a call of the handler does: the value it returns, what `Parse`
returned if it was called, and the records the accumulator has been given. -/
structure HandlerResult where
  ret : Bool
  parsed : Option Bool
  accumulator : List RawEventRecord
  deriving DecidableEq, Repr

/-- The handler of lines 149-164, `[&accumulator](uint16_t type, uint16_t
flags, const void* data, size_t len) -> bool`. `accumulator` is the list of
records passed to `accumulator.AddRecord` so far. `Parse` is taken as the
program runs it: a read of `back()` in front of an empty token finds the
byte `stray` and the call goes on, while a `std::out_of_range` thrown in
`Parse` leaves the handler. -/
def netlinkHandler (lt : LookupTables) (k : AuditConsts) (stray : Char)
    (accumulator : List RawEventRecord)
    (type _flags : Nat) (data : List Char) (len : Nat) : Except Fault HandlerResult :=
  if type ≥ k.AUDIT_FIRST_USER_MSG ∧ type ≠ to_uint16 k.REPLACE then
    match (RawEventRecord.ofData (data.take len)).ParseWith
        (RecordFieldIterator.nextRun stray) lt type len with
    | .error e => .error e
    | .ok (true, record) => .ok ⟨false, some true, accumulator ++ [record]⟩
    | .ok (false, _) => .ok ⟨false, some false, accumulator⟩
  else .ok ⟨false, none, accumulator⟩

/-- The two codes on Linux: `AUDIT_FIRST_USER_MSG` is 1100 and
`AUDIT_REPLACE` is 1329. -/
def linuxConsts : AuditConsts := { AUDIT_FIRST_USER_MSG := 1100, REPLACE := 1329 }

/-! ## `parsePath` -/

/-- One round of the loop of `parsePath` splits `str` at its first `':'`:
lines 65-73 of `auomscollect.cpp`. -/
def splitDir (str : List Char) : Except Fault (List Char × List Char) :=
  let idx := find_first_of str [':'] 0
  if idx = npos then .ok (str, [])
  else
    match substr str 0 idx, substr str (idx + 1) npos with
    | .ok dir, .ok rest => .ok (dir, rest)
    | _, _ => .error .out_of_range

/-- The loop of `parsePath`, at most `fuel` rounds of it; the result is the
returned `bool` and `dirs` as the call leaves it. Every round shortens
`str`, so `str.size() + 1` rounds always suffice (`parsePathAux_fuel`). -/
def parsePathAux :
    Nat → List (List Char) → List Char → Except Fault (Bool × List (List Char))
  | 0, dirs, _ => .ok (true, dirs)
  | fuel + 1, dirs, str =>
    if str.isEmpty then .ok (true, dirs)
    else
      match splitDir str with
      | .error e => .error e
      | .ok (dir, str1) =>
        if dir.length < 2 ∨ dir.head? ≠ some '/' then .ok (false, dirs)
        else
          let dir1 := if dir.getLast? ≠ some '/' then dir ++ ['/'] else dir
          parsePathAux fuel (dirs ++ [dir1]) str1

/-- `parsePath(dirs, path_str)`, the same function in `auomscollect.cpp`
(lines 62-84) and `auomsforward.cpp` (lines 52-74). -/
def parsePath (dirs : List (List Char)) (path_str : List Char) :
    Except Fault (Bool × List (List Char)) :=
  parsePathAux (path_str.length + 1) dirs path_str

/-- The text of a path list: the entries `es`, each followed by a `':'`,
and then an optional last entry without `':'` after it. -/
def pathText : List (List Char) → Option (List Char) → List Char
  | [], last => last.getD []
  | e :: es, last => e ++ ':' :: pathText es last

/-- The `':'`-separated entries of `pathText es last`. -/
def pathEntries (es : List (List Char)) (last : Option (List Char)) : List (List Char) :=
  es ++ last.toList

/-- The description of a path list is proper: no entry contains `':'`, and
an entry without `':'` after it is not empty. -/
def pathWf (es : List (List Char)) (last : Option (List Char)) : Bool :=
  es.all (fun e => !e.contains ':') &&
    (match last with
     | none => true
     | some l => !l.contains ':' && !l.isEmpty)

/-- An entry is at least two characters long and begins with `'/'`. -/
def entryOK (e : List Char) : Bool := decide (2 ≤ e.length) && (e.head? == some '/')

/-- An entry, with one `'/'` appended unless it ends with `'/'`. -/
def normalizeDir (e : List Char) : List Char :=
  if e.getLast? = some '/' then e else e ++ ['/']

/-! ## The queue settings of the collector -/

/-- The three accessors of `Config` that `main` calls for the queue
settings. `Config.h` is not among the sources: what the accessors answer is
taken as given, `none` standing for an accessor that throws. `D` stands for
`double`. -/
structure Config (D : Type) where
  HasKey : String → Bool
  GetUint64 : String → Option Nat
  GetDouble : String → Option D

/-- The arguments of `PriorityQueue::Open` after `queue_dir`, and the
argument of `queue->Saver`. -/
structure QueueSettings (D : Type) where
  num_priorities : Int
  max_file_data_size : Nat
  max_unsaved_files : Nat
  max_fs_bytes : Nat
  max_fs_pct : D
  min_fs_free_pct : D
  save_delay : Int

/-- A `uint64_t` stored in an `int`. -/
def to_int (v : Nat) : Int :=
  if v % 2 ^ 32 < 2 ^ 31 then (v % 2 ^ 32 : Nat) else (v % 2 ^ 32 : Nat) - 2 ^ 32

/-- A `uint64_t` stored in a `long`. -/
def to_long (v : Nat) : Int :=
  if v % 2 ^ 64 < 2 ^ 63 then (v % 2 ^ 64 : Nat) else (v % 2 ^ 64 : Nat) - 2 ^ 64

/-- A `uint64_t` stored in a `size_t`. -/
def to_size_t (v : Nat) : Nat := v % 2 ^ 64

/-- The initial values of the seven locals, lines 362-368 of
`auomscollect.cpp`. -/
def queueDefaults (D : Type) [NatCast D] : QueueSettings D :=
  { num_priorities := 8
    max_file_data_size := 1024 * 1024
    max_unsaved_files := 128
    max_fs_bytes := 128 * 1024 * 1024
    max_fs_pct := ((10 : Nat) : D)
    min_fs_free_pct := ((5 : Nat) : D)
    save_delay := 250 }

/-- Lines 362-396 of `main` in `auomscollect.cpp`: the seven locals as they
stand when `PriorityQueue::Open` and `queue->Saver` are called, or `none`
when an accessor has thrown before. -/
def queueSettings {D : Type} [NatCast D] (config : Config D) : Option (QueueSettings D) :=
  let s0 := queueDefaults D
  (if config.HasKey "queue_num_priorities" then
    (config.GetUint64 "queue_num_priorities").map
      (fun v => { s0 with num_priorities := to_int v })
   else some s0).bind fun s1 =>
  (if config.HasKey "queue_max_file_data_size" then
    (config.GetUint64 "queue_max_file_data_size").map
      (fun v => { s1 with max_file_data_size := to_size_t v })
   else some s1).bind fun s2 =>
  (if config.HasKey "queue_max_unsaved_files" then
    (config.GetUint64 "queue_max_unsaved_files").map
      (fun v => { s2 with max_unsaved_files := to_size_t v })
   else some s2).bind fun s3 =>
  (if config.HasKey "queue_max_fs_bytes" then
    (config.GetUint64 "queue_max_fs_bytes").map
      (fun v => { s3 with max_fs_bytes := to_size_t v })
   else some s3).bind fun s4 =>
  (if config.HasKey "queue_max_fs_pct" then
    (config.GetDouble "queue_max_fs_pct").map
      (fun v => { s4 with max_fs_pct := v })
   else some s4).bind fun s5 =>
  (if config.HasKey "queue_min_fs_free_pct" then
    (config.GetDouble "queue_min_fs_free_pct").map
      (fun v => { s5 with min_fs_free_pct := v })
   else some s5).bind fun s6 =>
  (if config.HasKey "queue_save_delay" then
    (config.GetUint64 "queue_save_delay").map
      (fun v => { s6 with save_delay := to_long v })
   else some s6)

/-- The seven keys of the queue settings. -/
def queueKeys : List String :=
  ["queue_num_priorities", "queue_max_file_data_size",
   "queue_max_unsaved_files", "queue_max_fs_bytes",
   "queue_max_fs_pct", "queue_min_fs_free_pct", "queue_save_delay"]

/-! ## `OMSEventTransformer::process_field` -/

/-- The values of `field_type_t` that `process_field` names, and the others. -/
inductive FieldType
  | ESCAPED
  | PROCTITLE
  | SESSION
  | other (code : Nat)
  deriving DecidableEq, Repr

/-- What `process_field` reads of an `EventRecordField`. -/
structure EventRecordField where
  FieldName : List Char
  RawValue : List Char
  InterpValue : List Char
  FieldType : FieldType

/-- What `process_field` reads of `_config`. -/
structure TransformerConfig where
  FieldNameOverrideMap : List (List Char × List Char)
  InterpFieldNameMap : List (List Char × List Char)
  FieldSuffix : List Char

/-- Lines 101-127 of `process_field`: `_raw_name` and `_interp_name`. -/
def fieldNames (config : TransformerConfig) (field : EventRecordField) :
    List Char × List Char :=
  let _field_name := field.FieldName
  let _raw_name :=
    if !config.FieldNameOverrideMap.isEmpty then
      match config.FieldNameOverrideMap.lookup _field_name with
      | some v => v
      | none => _field_name
    else _field_name
  let _interp_name :=
    if !config.InterpFieldNameMap.isEmpty then
      match config.InterpFieldNameMap.lookup _field_name with
      | some v => v
      | none => _raw_name
    else _raw_name
  let _raw_name1 := if _raw_name = _interp_name then _raw_name ++ config.FieldSuffix else _raw_name
  (_raw_name1, _interp_name)

/-- `OMSEventTransformer::process_field(field)`. `_json_buffer` is the list
of the `AddStringField(name, value)` calls made on it so far; `unescape`
is declared elsewhere and gives `_interp_value` for a raw value. The `case
FIELD_TYPE_SESSION` has no `break`, so the `default` statement runs after
it. -/
def process_field (config : TransformerConfig) (unescape : List Char → List Char)
    (_json_buffer : List (List Char × List Char)) (field : EventRecordField) :
    List (List Char × List Char) :=
  let (_raw_name, _interp_name) := fieldNames config field
  let _raw_value := field.RawValue
  let buf1 :=
    if field.FieldType = .ESCAPED ∨ field.FieldType = .PROCTITLE then
      _json_buffer ++ [(_interp_name, unescape _raw_value)]
    else
      if field.InterpValue.length > 0 then
        let _interp_value := field.InterpValue
        match field.FieldType with
        | .SESSION =>
          let b :=
            if _interp_value = "unset".toList ∧ _interp_value = "4294967295".toList then
              _json_buffer ++ [(_interp_name, "-1".toList)]
            else
              _json_buffer ++ [(_interp_name, _interp_value)]
          b ++ [(_interp_name, _interp_value)]
        | _ => _json_buffer ++ [(_interp_name, _interp_value)]
      else _json_buffer
  buf1 ++ [(_raw_name, _raw_value)]

/-- A transformer configuration without overrides. -/
def plainConfig : TransformerConfig :=
  { FieldNameOverrideMap := [], InterpFieldNameMap := [], FieldSuffix := "_r".toList }

/-- The field `ses=4294967295`, interpreted as `unset`. -/
def unsetSession : EventRecordField :=
  { FieldName := "ses".toList, RawValue := "4294967295".toList,
    InterpValue := "unset".toList, FieldType := .SESSION }

/-! ## The text of a `msg='...'` block -/

/-- A token inside a `msg='...'` block: non-empty, without SP, LF or single
quote. -/
def blockTok (t : List Char) : Bool :=
  !t.isEmpty && t.all (fun c => c != ' ' && c != '\n' && c != '\'')

/-- The text `msg='t1 t2 ... tn'`. -/
def msgBlock (ts : List (List Char)) : List Char :=
  MSG_QUOTE ++ List.intercalate [' '] ts ++ ['\'']

/-- The tokens as they stand in the text of a block: the last one has the
closing quote after it. -/
def closeLast : List (List Char) → List (List Char)
  | [] => []
  | [t] => [t ++ ['\'']]
  | t :: t2 :: ts => t :: closeLast (t2 :: ts)

/-! ## Counting the calls of `AddRecord` -/

/-- The field counts declared by the `BeginRecord` calls of a call log. -/
def declaredFields (calls : List BuilderCall) : List Nat :=
  calls.filterMap fun
    | .BeginRecord _ _ _ n => some n
    | _ => none

/-- The number of `AddField` calls of a call log. -/
def addFieldCount (calls : List BuilderCall) : Nat :=
  (calls.filter fun
    | .AddField _ _ => true
    | _ => false).length

/-- The number of field tokens without `'='`. -/
def bareCount (toks : List FieldTok) : Nat :=
  (toks.filter fun
    | .bare _ => true
    | .named _ _ => false).length

/-! ## The text of tokens with and without `msg='` in front -/

/-- The bytes in front of a token: `msg='` when the token opens a block. -/
def opener (opened : Bool) : List Char := if opened then MSG_QUOTE else []

/-- The text of tokens, each with the run of separators before it, and with
`msg='` in front of it when it opens a block. -/
def tokensText : List (List Char × Bool × List Char) → List Char
  | [] => []
  | (seps, o, t) :: rest => seps ++ opener o ++ t ++ tokensText rest

/-- Every token follows a non-empty run of separators and is, after its
opening `msg='` if it has one, a plain token. -/
def tokensOK (ts : List (List Char × Bool × List Char)) : Bool :=
  ts.all (fun p => isSepRun p.1 && plainTok p.2.2)

/-! ## The queue size of the forwarder -/

/-- A line `main` of `auomsforward.cpp` logs while it settles `queue_size`. -/
inductive ForwardLog where
  | ErrorInvalidQueueSize
  | WarnUsingMinimum (queue_size minimum : Nat)
  deriving DecidableEq, Repr

/-- How lines 141-168 of `main` of `auomsforward.cpp` end: with `exit(code)`,
or by going on to the rest of the start-up with `queue_size` as it stands. -/
inductive QueueSizeStep where
  | exited (code : Nat) (log : List ForwardLog)
  | proceeds (queue_size : Nat) (log : List ForwardLog)
  deriving DecidableEq, Repr

/-- Lines 141 and 156-168 of `main` of `auomsforward.cpp`. `MIN_QUEUE_SIZE`
is `Queue::MIN_QUEUE_SIZE`; `Queue.h` is not among the sources and the value
is taken as given. An accessor that throws is caught at line 159. -/
def forwardQueueSize {D : Type} (config : Config D) (MIN_QUEUE_SIZE : Nat) : QueueSizeStep :=
  let queue_size0 : Nat := 10 * 1024 * 1024
  let read : Option Nat :=
    if config.HasKey "queue_size" then
      (config.GetUint64 "queue_size").map to_size_t
    else some queue_size0
  match read with
  | none => .exited 1 [.ErrorInvalidQueueSize]
  | some queue_size =>
    if queue_size < MIN_QUEUE_SIZE then
      .exited 1 [.WarnUsingMinimum queue_size MIN_QUEUE_SIZE]
    else .proceeds queue_size []

/-- A configuration whose only key is `queue_size`, set to 1024. -/
def smallQueueConfig : Config Int :=
  { HasKey := fun k => k == "queue_size"
    GetUint64 := fun k => if k = "queue_size" then some 1024 else none
    GetDouble := fun _ => none }

/-- The field `uid=0`, interpreted as `root`. -/
def rootUid : EventRecordField :=
  { FieldName := "uid".toList, RawValue := "0".toList,
    InterpValue := "root".toList, FieldType := .other 0 }

/-- A transformer configuration that names the raw value of `uid` `user`
and names its interpreted value `user` as well. -/
def clashConfig : TransformerConfig :=
  { FieldNameOverrideMap := [("uid".toList, "user".toList)],
    InterpFieldNameMap := [("uid".toList, "user".toList)], FieldSuffix := "_r".toList }

/-- The field `ses=3`, interpreted as `3`. -/
def sessionThree : EventRecordField :=
  { FieldName := "ses".toList, RawValue := "3".toList,
    InterpValue := "3".toList, FieldType := .SESSION }

/-! ## Rounds and exits of `DoNetlinkCollection` -/

/-- What the claim loop sends in `n` rounds in each of which `AuditSetPid`
timed out and the query that followed succeeded, the first of them being
round `k`. -/
def timedOutRounds (env : AuditEnv) : Nat → Nat → List NetlinkEvent
  | 0, _ => []
  | n + 1, k =>
    .AuditSetPid env.our_pid (-ETIMEDOUT) :: .AuditGetPid false 0 (env.getPid k).2
      :: timedOutRounds env n (k + 1)

/-- A netlink answer on which the collector gives up: a failed `AuditGet`,
an `AuditSetPid` that failed otherwise than by timing out, a failed
`AuditGetPid`. -/
def NetlinkEvent.isFailure : NetlinkEvent → Bool
  | .AuditGet ret _ _ => ret != 0
  | .AuditSetPid _ ret => ret != 0 && ret != -ETIMEDOUT
  | .AuditGetPid _ ret _ => ret != 0
  | _ => false

/-- A periodic query that succeeded and reported the pid of another
process. -/
def NetlinkEvent.isTakeover (our_pid : Nat) : NetlinkEvent → Bool
  | .AuditGetPid true ret pid => ret == 0 && pid != 0 && pid != our_pid
  | _ => false

/-- The start-up gets as far as the loop of line 237: the connection opens,
the status query succeeds, no live process holds the audit pid, the claim
loop is left towards line 216 and enabling, if needed, succeeds. The value
is the number of `AuditGetPid` questions asked by then. -/
def runEntry (env : AuditEnv) (fuel : Nat) : Option Nat :=
  if env.open_ret ≠ 0 ∨ env.status_ret ≠ 0
      ∨ (env.status_pid ≠ 0 ∧ env.pathExists env.status_pid = true) then none
  else
    let c := claimLoop env fuel 0 0
      [.AuditGet env.status_ret env.status_pid env.status_enabled]
    if c.status = .proceed ∧ (env.status_enabled = 0 → env.setEnabled 0 = 0) then some c.gets
    else none

/-- The loop of line 237 gets through `n` rounds, from round `round` on,
without leaving: no exit signal, the stop gate shut, no failed flush, and
every periodic query that is due succeeds and reports the collector's own
pid. The value is the number of `AuditGetPid` questions asked by then. -/
def passRounds (env : AuditEnv) : Nat → Nat → Nat → Option Nat
  | 0, _, gets => some gets
  | n + 1, round, gets =>
    if env.isExit round = true ∨ env.gateOpen round = true ∨ env.flushThrows round = true then
      none
    else if env.pidCheckDue round = true then
      if (env.getPid gets).1 = 0 ∧ (env.getPid gets).2 = env.our_pid then
        passRounds env n (round + 1) (gets + 1)
      else none
    else passRounds env n (round + 1) gets

/-- The exit signal comes in the third round; the first two are quiet, with
a periodic query in the second. -/
def lateExitEnv : AuditEnv :=
  { calmEnv with
    isExit := fun k => decide (2 ≤ k), pidCheckDue := fun k => decide (k = 1) }

/-- The first three `AuditSetPid` time out, the first two queries report the
pid 4242 of another process and the third the collector's own. -/
def thirdTimeEnv : AuditEnv :=
  { calmEnv with
    setPid := fun k => if k < 3 then -ETIMEDOUT else 0,
    getPid := fun k => if k < 2 then (0, 4242) else (0, 4711) }

/-! ## Lemmas on the string primitives and the iterator -/

theorem substr_ok {s : List Char} {pos : Nat} (n : Nat) (h : pos ≤ s.length) :
    substr s pos n = .ok ((s.drop pos).take n) := by
  simp [substr, Nat.not_lt.mpr h]

theorem starts_with_eq (s p : List Char) :
    starts_with s p = .ok (decide (s.take p.length = p)) := by
  unfold starts_with
  split
  · rename_i h
    have : s.take p.length ≠ p := by
      intro e
      have := congrArg List.length e
      simp at this
      omega
    simp [this]
  · simp [substr]

theorem ends_with_eq (s p : List Char) :
    ends_with s p = .ok (decide (p.length ≤ s.length ∧ s.drop (s.length - p.length) = p)) := by
  unfold ends_with
  split
  · rename_i h
    simp [Nat.not_le.mpr h]
  · rename_i h
    have h1 : p.length ≤ s.length := by omega
    have h2 : (s.drop (s.length - p.length)).take p.length = s.drop (s.length - p.length) := by
      apply List.take_of_length_le
      simp
      omega
    rw [substr_ok _ (by omega)]
    simp [h1, h2]

theorem findIdx_drop_append (p : Char → Bool) (pre tok rest : List Char)
    (h : ∀ c ∈ tok, p c = false) :
    ((pre ++ tok ++ rest).drop pre.length).findIdx p = tok.length + rest.findIdx p := by
  rw [List.append_assoc, List.drop_left, List.findIdx_append,
    List.findIdx_eq_length_of_false h]
  simp [Nat.add_comm]

/-- End of the token at `pre.length`: the `idx` of `next()` after the `npos` fix. -/
theorem token_end (pre tok rest : List Char) (hsep : ∀ c ∈ tok, c ∉ SEP)
    (hrest : ∀ c ∈ rest.head?, c ∈ SEP) (hlen : (pre ++ tok ++ rest).length < npos) :
    (if find_first_of (pre ++ tok ++ rest) SEP pre.length = npos
      then (pre ++ tok ++ rest).length
      else find_first_of (pre ++ tok ++ rest) SEP pre.length) = pre.length + tok.length := by
  have h1 : ∀ c ∈ tok, SEP.contains c = false := by
    intro c hc
    simpa using hsep c hc
  unfold find_first_of
  simp only [findIdx_drop_append _ pre tok rest h1]
  cases rest with
  | nil => simp
  | cons c r =>
    have hc : c ∈ SEP := hrest c (by simp)
    have : (c :: r).findIdx (fun c => SEP.contains c) = 0 := by
      simp [List.findIdx_cons, hc]
    simp only [this] at *
    simp only [List.length_append, List.length_cons] at hlen ⊢
    have h2 : pre.length + (tok.length + 0) < pre.length + tok.length + (r.length + 1) := by omega
    rw [if_pos h2, if_neg (by omega)]
    omega

theorem back_eq {tok : List Char} (hne : tok ≠ []) : back tok = .ok (tok.getLast hne) := by
  unfold back
  rw [List.getLast?_eq_getLast _ hne]

theorem next_plain (pre tok rest v : List Char)
    (hne : tok ≠ []) (hsep : ∀ c ∈ tok, c ∉ SEP) (hmsg : tok.take 5 ≠ MSG_QUOTE)
    (hrest : ∀ c ∈ rest.head?, c ∈ SEP) (hlen : (pre ++ tok ++ rest).length < npos) :
    RecordFieldIterator.next ⟨pre ++ tok ++ rest, v, pre.length⟩ =
      .ok (true, ⟨pre ++ tok ++ rest, stripQuote tok,
            find_first_not_of (pre ++ tok ++ rest) SEP (pre.length + tok.length)⟩) := by
  have hpos : 0 < tok.length := List.length_pos.mpr hne
  have hl : (pre ++ tok ++ rest).length = pre.length + tok.length + rest.length := by
    simp [Nat.add_assoc]
  have hc : ¬ (pre.length = npos ∨ pre.length ≥ (pre ++ tok ++ rest).length) := by
    rw [hl] at hlen ⊢
    omega
  have hval : substr (pre ++ tok ++ rest) pre.length (pre.length + tok.length - pre.length)
      = .ok tok := by
    rw [substr_ok _ (by rw [hl]; omega)]
    simp
  unfold RecordFieldIterator.next RecordFieldIterator.nextAux
  simp only [hc, if_false, token_end pre tok rest hsep hrest hlen, hval]
  rw [substr_ok 5 (Nat.zero_le _)]
  simp only [List.drop_zero, hmsg, if_false, back_eq hne]
  unfold stripQuote
  rw [List.getLast?_eq_getLast _ hne]
  by_cases hq : tok.getLast hne = '\''
  · simp only [hq, if_true]
    rw [substr_ok _ (Nat.zero_le _)]
    simp [List.dropLast_eq_take]
  · simp [hq]

/-- After a run of separators: the index of the next token, or `npos` at the end. -/
theorem find_first_not_of_run (pre seps rest : List Char)
    (hseps : ∀ c ∈ seps, c ∈ SEP) (hrest : ∀ c ∈ rest.head?, c ∉ SEP) :
    find_first_not_of (pre ++ seps ++ rest) SEP pre.length =
      if rest = [] then npos else pre.length + seps.length := by
  have h1 : ∀ c ∈ seps, (fun c => !SEP.contains c) c = false := by
    intro c hc
    simpa using hseps c hc
  unfold find_first_not_of
  simp only [findIdx_drop_append _ pre seps rest h1]
  cases rest with
  | nil => simp
  | cons c r =>
    have hc : c ∉ SEP := hrest c (by simp)
    have : (c :: r).findIdx (fun c => !SEP.contains c) = 0 := by
      simp [List.findIdx_cons, hc]
    simp only [this]
    simp only [List.length_append, List.length_cons]
    have h2 : pre.length + (seps.length + 0) < pre.length + seps.length + (r.length + 1) := by omega
    rw [if_pos h2]
    simp

theorem next_at_npos (str v : List Char) :
    RecordFieldIterator.next ⟨str, v, npos⟩ = .ok (false, ⟨str, v, npos⟩) := by
  simp [RecordFieldIterator.next, RecordFieldIterator.nextAux]

/-- One `next()` over a token and the separators after it. -/
theorem next_token (it : RecordFieldIterator) (pre tok seps rest : List Char)
    (hstr : it._str = pre ++ tok ++ seps ++ rest) (hidx : it._idx = pre.length)
    (hne : tok ≠ []) (hsep : ∀ c ∈ tok, c ∉ SEP) (hmsg : tok.take 5 ≠ MSG_QUOTE)
    (hseps : ∀ c ∈ seps, c ∈ SEP) (hrest : ∀ c ∈ rest.head?, c ∉ SEP)
    (hnil : seps = [] → rest = []) (hlen : it._str.length < npos) :
    it.next = .ok (true, ⟨it._str, stripQuote tok,
      if rest = [] then npos else (pre ++ tok ++ seps).length⟩) := by
  obtain ⟨str, v, idx⟩ := it
  simp only at hstr hidx hlen ⊢
  subst hidx
  have hstr2 : str = pre ++ tok ++ (seps ++ rest) := by simp [hstr]
  have hhead : ∀ c ∈ (seps ++ rest).head?, c ∈ SEP := by
    intro c hc
    cases seps with
    | nil => simp [hnil rfl] at hc
    | cons a l =>
      simp at hc
      subst hc
      exact hseps _ (by simp)
  have h := next_plain pre tok (seps ++ rest) v hne hsep hmsg hhead (by rw [← hstr2]; exact hlen)
  rw [← hstr2] at h
  rw [h]
  have h3 := find_first_not_of_run (pre ++ tok) seps rest hseps hrest
  rw [← hstr] at h3
  simp only [List.length_append] at h3 ⊢
  rw [h3]

theorem noSep_iff {t : List Char} : noSep t = true ↔ ∀ c ∈ t, c ∉ SEP := by
  simp [noSep]

theorem isSepRun_iff {s : List Char} : isSepRun s = true ↔ s ≠ [] ∧ ∀ c ∈ s, c ∈ SEP := by
  simp [isSepRun]

theorem plainTok_iff {t : List Char} :
    plainTok t = true ↔ t ≠ [] ∧ (∀ c ∈ t, c ∉ SEP) ∧ t.take 5 ≠ MSG_QUOTE := by
  simp [plainTok, noSep, and_assoc]

theorem startsSep_iff {rest : List Char} : startsSep rest = true ↔ ∀ c ∈ rest.head?, c ∈ SEP := by
  cases rest <;> simp [startsSep]

theorem plainTok_head {t rest : List Char} (h : plainTok t = true) :
    ∀ c ∈ (t ++ rest).head?, c ∉ SEP := by
  obtain ⟨hne, hs, _⟩ := plainTok_iff.mp h
  cases t with
  | nil => exact absurd rfl hne
  | cons a l =>
    intro c hc
    simp at hc
    subst hc
    exact hs _ (by simp)

/-- The first `next()` on text that begins with a token. -/
theorem next_first (tok rest : List Char) (htok : plainTok tok = true)
    (hrest : startsSep rest = true) (hlen : (tok ++ rest).length < npos) :
    (RecordFieldIterator.mk0 (tok ++ rest)).next = .ok (true, atTok (tok ++ rest) [] tok) := by
  obtain ⟨hne, hs, hm⟩ := plainTok_iff.mp htok
  have := next_plain [] tok rest [] hne hs hm (startsSep_iff.mp hrest) (by simpa using hlen)
  simpa [RecordFieldIterator.mk0, atTok] using this

/-- From one token to the next. -/
theorem next_advance (text pre tok seps tok2 rest : List Char)
    (htext : text = pre ++ tok ++ seps ++ tok2 ++ rest)
    (hseps : isSepRun seps = true) (htok2 : plainTok tok2 = true)
    (hrest : startsSep rest = true) (hlen : text.length < npos) :
    (atTok text pre tok).next = .ok (true, atTok text (pre ++ tok ++ seps) tok2) := by
  obtain ⟨hne, hs, hm⟩ := plainTok_iff.mp htok2
  obtain ⟨_, hss⟩ := isSepRun_iff.mp hseps
  have hidx : find_first_not_of text SEP (pre.length + tok.length)
      = pre.length + tok.length + seps.length := by
    have := find_first_not_of_run (pre ++ tok) seps (tok2 ++ rest) hss (plainTok_head htok2)
    have hne2 : tok2 ++ rest ≠ [] := by simp [hne]
    simp only [hne2, if_false, List.length_append] at this
    rw [← this, htext]
    simp [List.append_assoc]
  have h := next_plain (pre ++ tok ++ seps) tok2 rest (stripQuote tok) hne hs hm
    (startsSep_iff.mp hrest) (by rw [← htext]; exact hlen)
  rw [← htext] at h
  simp only [List.length_append] at h
  simp only [atTok, hidx, List.length_append]
  exact h

/-- After the last token `next()` returns `false`. -/
theorem next_last (text pre tok seps : List Char)
    (htext : text = pre ++ tok ++ seps) (hseps : ∀ c ∈ seps, c ∈ SEP) :
    (atTok text pre tok).next = .ok (false, atTok text pre tok) := by
  have hidx : find_first_not_of text SEP (pre.length + tok.length) = npos := by
    have := find_first_not_of_run (pre ++ tok) seps [] hseps (by simp)
    simp only [if_true, List.length_append, List.append_nil] at this
    rw [htext]
    exact this
  simp only [atTok, hidx]
  exact next_at_npos _ _

theorem takePrefixed_miss (key : List Char) (itr : RecordFieldIterator)
    (h : itr._val.take key.length ≠ key) : takePrefixed key itr = .ok (true, [], itr) := by
  simp [takePrefixed, starts_with_eq, RecordFieldIterator.value, h]

theorem takePrefixed_hit (key v : List Char) (itr : RecordFieldIterator)
    (hk : key.length = 5) (h : itr._val = key ++ v) (hv : v.length ≤ npos) :
    takePrefixed key itr =
      match itr.next with
      | .error e => .error e
      | .ok (b, itr1) => .ok (b, v, itr1) := by
  have h1 : itr._val.take key.length = key := by simp [h]
  have h2 : substr itr._val 5 npos = .ok v := by
    rw [substr_ok _ (by simp [h, hk])]
    rw [h, ← hk, List.drop_left, List.take_of_length_le hv]
  simp [takePrefixed, starts_with_eq, RecordFieldIterator.value, h1, h2]

theorem stripQuote_append (key v : List Char) (hk : key.getLast? ≠ some '\'') :
    stripQuote (key ++ v) = key ++ stripQuote v := by
  unfold stripQuote
  cases v with
  | nil => simp [hk]
  | cons a l =>
    have : (key ++ a :: l).getLast? = (a :: l).getLast? := by
      rw [List.getLast?_append, List.getLast?_eq_getLast (a :: l) (by simp)]
      rfl
    rw [this]
    split
    · rw [List.dropLast_append_of_ne_nil _ (by simp)]
    · rfl

theorem stripQuote_length_le (v : List Char) : (stripQuote v).length ≤ v.length := by
  unfold stripQuote
  split <;> simp

theorem stripQuote_of_not_quote {v : List Char} (h : v.getLast? ≠ some '\'') :
    stripQuote v = v := by
  simp [stripQuote, h]

theorem prefix_tok_plain (key v : List Char) (hk : key.length = 5) (hks : noSep key = true)
    (hkm : key ≠ MSG_QUOTE) (hv : noSep v = true) : plainTok (key ++ v) = true := by
  rw [plainTok_iff]
  refine ⟨?_, ?_, ?_⟩
  · intro h
    have := congrArg List.length h
    simp [hk] at this
  · intro c hc
    rcases List.mem_append.mp hc with h | h
    · exact noSep_iff.mp hks c h
    · exact noSep_iff.mp hv c h
  · rw [← hk, List.take_left]
    exact hkm

theorem node_tok_plain (v : List Char) (hv : noSep v = true) : plainTok (NODE_EQ ++ v) = true :=
  prefix_tok_plain NODE_EQ v rfl (by decide) (by decide) hv

theorem type_tok_plain (v : List Char) (hv : noSep v = true) : plainTok (TYPE_EQ ++ v) = true :=
  prefix_tok_plain TYPE_EQ v rfl (by decide) (by decide) hv

theorem isSepRun_startsSep {seps : List Char} (rest : List Char) (h : isSepRun seps = true) :
    startsSep (seps ++ rest) = true := by
  obtain ⟨hne, hs⟩ := isSepRun_iff.mp h
  cases seps with
  | nil => exact absurd rfl hne
  | cons a l =>
    have := hs a (by simp)
    simpa [startsSep] using this

/-! ## The fuel of `nextAux` and `collectFields` is never used up -/

theorem nextAux_fuel : ∀ (f g : Nat) (it : RecordFieldIterator),
    it._str.length - it._idx < f → it._str.length - it._idx < g →
    RecordFieldIterator.nextAux f it = RecordFieldIterator.nextAux g it
  | 0, _, _, hf, _ => absurd hf (Nat.not_lt_zero _)
  | _ + 1, 0, _, _, hg => absurd hg (Nat.not_lt_zero _)
  | f + 1, g + 1, it, hf, hg => by
    unfold RecordFieldIterator.nextAux
    by_cases hc : it._idx = npos ∨ it._idx ≥ it._str.length
    · simp only [hc, if_true]
    · simp only [hc, if_false]
      split
      · rfl
      · split
        · rfl
        · split
          · have hlt : it._idx < it._str.length := by omega
            exact nextAux_fuel f g _ (by simp only; omega) (by simp only; omega)
          · rfl

theorem find_first_not_of_range (s chars : List Char) (pos : Nat) :
    find_first_not_of s chars pos = npos ∨
      (pos ≤ find_first_not_of s chars pos ∧ find_first_not_of s chars pos < s.length) := by
  unfold find_first_not_of
  simp only
  split
  · right
    constructor
    · omega
    · assumption
  · left; rfl

theorem find_first_of_range (s chars : List Char) (pos : Nat) :
    find_first_of s chars pos = npos ∨
      (pos ≤ find_first_of s chars pos ∧ find_first_of s chars pos < s.length) := by
  unfold find_first_of
  simp only
  split
  · right
    constructor
    · omega
    · assumption
  · left; rfl

theorem nextAux_progress : ∀ (f : Nat) (it it1 : RecordFieldIterator),
    RecordFieldIterator.nextAux f it = .ok (true, it1) →
    it1._str = it._str ∧ remaining it1 < remaining it
  | 0, it, it1, h => by simp [RecordFieldIterator.nextAux] at h
  | f + 1, it, it1, h => by
    unfold RecordFieldIterator.nextAux at h
    by_cases hc : it._idx = npos ∨ it._idx ≥ it._str.length
    · simp [hc] at h
    · simp only [hc, if_false] at h
      have hn : it._idx ≠ npos := fun e => hc (Or.inl e)
      have hlt : it._idx < it._str.length := by omega
      have hrem : remaining it = it._str.length - it._idx := by simp [remaining, hn]
      generalize (if find_first_of it._str SEP it._idx = npos then it._str.length
        else find_first_of it._str SEP it._idx) = e at h
      split at h
      · simp at h
      · rename_i val hval
        split at h
        · simp at h
        · split at h
          · obtain ⟨h1, h2⟩ := nextAux_progress f _ it1 h
            refine ⟨h1, Nat.lt_of_lt_of_le h2 ?_⟩
            rw [hrem]
            unfold remaining
            simp only
            split <;> omega
          · -- the token is not empty, so its end is beyond `_idx`
            have hvne : val ≠ [] := by
              intro e
              subst e
              simp [back] at h
            have hend : it._idx < e := by
              unfold substr at hval
              split at hval
              · simp at hval
              · simp only [Except.ok.injEq] at hval
                by_contra hle
                have : e - it._idx = 0 := by omega
                rw [this] at hval
                simp at hval
                exact hvne hval
            have hkey : ∀ v, it1 = ⟨it._str, v, find_first_not_of it._str SEP e⟩ →
                it1._str = it._str ∧ remaining it1 < remaining it := by
              intro v e1
              subst e1
              refine ⟨rfl, ?_⟩
              rw [hrem]
              unfold remaining
              simp only
              rcases find_first_not_of_range it._str SEP e with h0 | ⟨h1, h2⟩
              · rw [if_pos h0]; omega
              · split <;> omega
            split at h
            · simp at h
            · split at h
              · split at h
                · simp at h
                · simp only [Except.ok.injEq, Prod.mk.injEq, true_and] at h
                  exact hkey _ h.symm
              · simp only [Except.ok.injEq, Prod.mk.injEq, true_and] at h
                exact hkey _ h.symm

theorem next_progress (it it1 : RecordFieldIterator) (h : it.next = .ok (true, it1)) :
    it1._str = it._str ∧ remaining it1 < remaining it :=
  nextAux_progress _ it it1 h

theorem collectFields_fuel : ∀ (f g : Nat) (it : RecordFieldIterator) (acc : List (List Char)),
    remaining it < f → remaining it < g → collectFields f it acc = collectFields g it acc
  | 0, _, _, _, hf, _ => absurd hf (Nat.not_lt_zero _)
  | _ + 1, 0, _, _, _, hg => absurd hg (Nat.not_lt_zero _)
  | f + 1, g + 1, it, acc, hf, hg => by
    unfold collectFields
    split
    · rfl
    · rfl
    · rename_i it1 h1
      obtain ⟨_, h3⟩ := next_progress it it1 h1
      exact collectFields_fuel f g it1 _ (by omega) (by omega)

theorem remaining_le (it : RecordFieldIterator) : remaining it ≤ it._str.length := by
  unfold remaining
  split <;> omega

theorem next_enough_fuel (it : RecordFieldIterator) (f : Nat) (hf : it._str.length < f) :
    RecordFieldIterator.nextAux f it = it.next :=
  nextAux_fuel f (it._str.length + 1) it (by omega) (by omega)

theorem collectFields_enough_fuel (it : RecordFieldIterator) (acc : List (List Char)) (f : Nat)
    (hf : it._str.length < f) :
    collectFields f it acc = collectFields (it._str.length + 1) it acc :=
  collectFields_fuel f (it._str.length + 1) it acc
    (Nat.lt_of_le_of_lt (remaining_le it) hf)
    (Nat.lt_of_le_of_lt (remaining_le it) (Nat.lt_succ_self _))

/-! ## Lemmas on `Parse` -/

theorem Parse_unfold (lt : LookupTables) (self : RawEventRecord) (rt size : Nat)
    (text : List Char) (hdata : self._data.take size = text) :
    self.Parse lt rt size =
      match (RecordFieldIterator.mk0 text).next with
      | .error e => .error e
      | .ok (false, _) =>
        .ok (false, { self with _size := size, _record_type := rt, _record_fields := [] })
      | .ok (true, itr0) =>
        match takePrefixed NODE_EQ itr0 with
        | .error e => .error e
        | .ok (false, node, _) =>
          .ok (false, { self with _size := size, _record_type := rt, _record_fields := [],
                                  _node := node })
        | .ok (true, node, itr1) =>
          match takePrefixed TYPE_EQ itr1 with
          | .error e => .error e
          | .ok (false, type_name, _) =>
            .ok (false, { self with _size := size, _record_type := rt, _record_fields := [],
                                    _node := node, _type_name := type_name })
          | .ok (true, type_name, itr2) =>
            RawEventRecord.parseEventId
              (RawEventRecord.lookupType lt
                { self with _size := size, _record_type := rt, _record_fields := [],
                            _node := node, _type_name := type_name }) itr2 := by
  subst hdata
  rfl

theorem Parse_to_event_id (lt : LookupTables) (self : RawEventRecord) (rt size : Nat)
    (np tp : Option (List Char × List Char)) (E rest : List Char)
    (hdata : self._data.take size = prefixText NODE_EQ np ++ prefixText TYPE_EQ tp ++ E ++ rest)
    (hnp : prefixOK np = true) (htp : prefixOK tp = true)
    (hE : plainTok E = true) (hrest : startsSep rest = true)
    (hEn : np = none → tp = none → (stripQuote E).take 5 ≠ NODE_EQ)
    (hEt : tp = none → (stripQuote E).take 5 ≠ TYPE_EQ)
    (hlen : size < npos) :
    self.Parse lt rt size =
      (atEventId lt self rt size np tp).parseEventId
        (atTok (prefixText NODE_EQ np ++ prefixText TYPE_EQ tp ++ E ++ rest)
          (prefixText NODE_EQ np ++ prefixText TYPE_EQ tp) E) := by
  have hl : (prefixText NODE_EQ np ++ prefixText TYPE_EQ tp ++ E ++ rest).length < npos := by
    rw [← hdata]
    exact Nat.lt_of_le_of_lt (List.length_take_le _ _) hlen
  rw [Parse_unfold lt self rt size _ hdata]
  cases np with
  | some p =>
    obtain ⟨n, s1⟩ := p
    simp only [prefixOK, Bool.and_eq_true] at hnp
    obtain ⟨hn, hs1⟩ := hnp
    have hnq : stripQuote (NODE_EQ ++ n) = NODE_EQ ++ stripQuote n :=
      stripQuote_append _ _ (by decide)
    have hnl : (stripQuote n).length ≤ npos := by
      have := stripQuote_length_le n
      simp only [prefixText, List.length_append] at hl
      omega
    cases tp with
    | some q =>
      obtain ⟨t, s2⟩ := q
      simp only [prefixOK, Bool.and_eq_true] at htp
      obtain ⟨ht, hs2⟩ := htp
      have htq : stripQuote (TYPE_EQ ++ t) = TYPE_EQ ++ stripQuote t :=
        stripQuote_append _ _ (by decide)
      have htl : (stripQuote t).length ≤ npos := by
        have := stripQuote_length_le t
        simp only [prefixText, List.length_append] at hl
        omega
      simp only [prefixText] at hl ⊢
      have e1 : NODE_EQ ++ n ++ s1 ++ (TYPE_EQ ++ t ++ s2) ++ E ++ rest
          = (NODE_EQ ++ n) ++ (s1 ++ (TYPE_EQ ++ t) ++ s2 ++ E ++ rest) := by
        simp [List.append_assoc]
      have h1 := next_first (NODE_EQ ++ n) (s1 ++ (TYPE_EQ ++ t) ++ s2 ++ E ++ rest)
        (node_tok_plain n hn) (by simp only [List.append_assoc]; exact isSepRun_startsSep _ hs1)
        (by rw [← e1]; exact hl)
      rw [← e1] at h1
      have h2 := next_advance _ [] (NODE_EQ ++ n) s1 (TYPE_EQ ++ t) (s2 ++ E ++ rest)
        (by simp [List.append_assoc]) hs1 (type_tok_plain t ht)
        (by simp only [List.append_assoc]; exact isSepRun_startsSep _ hs2) hl
      have h3 := next_advance _ ([] ++ (NODE_EQ ++ n) ++ s1) (TYPE_EQ ++ t) s2 E rest
        (by simp [List.append_assoc]) hs2 hE hrest hl
      rw [h1]
      simp only
      rw [takePrefixed_hit NODE_EQ (stripQuote n) _ rfl (by simp [atTok, hnq]) hnl, h2]
      simp only
      rw [takePrefixed_hit TYPE_EQ (stripQuote t) _ rfl (by simp [atTok, htq]) htl, h3]
      simp only [atEventId, prefixVal, List.nil_append, List.append_assoc]
    | none =>
      have hEt2 := hEt rfl
      simp only [prefixText, List.append_nil] at hl ⊢
      have e1 : NODE_EQ ++ n ++ s1 ++ E ++ rest = (NODE_EQ ++ n) ++ (s1 ++ E ++ rest) := by
        simp [List.append_assoc]
      have h1 := next_first (NODE_EQ ++ n) (s1 ++ E ++ rest)
        (node_tok_plain n hn) (by simp only [List.append_assoc]; exact isSepRun_startsSep _ hs1)
        (by rw [← e1]; exact hl)
      rw [← e1] at h1
      have h2 := next_advance _ [] (NODE_EQ ++ n) s1 E rest
        (by simp [List.append_assoc]) hs1 hE hrest hl
      rw [h1]
      simp only
      rw [takePrefixed_hit NODE_EQ (stripQuote n) _ rfl (by simp [atTok, hnq]) hnl, h2]
      simp only
      rw [takePrefixed_miss TYPE_EQ _ (by simpa [atTok] using hEt2)]
      simp only [atEventId, prefixVal, List.nil_append, List.append_assoc]
  | none =>
    cases tp with
    | some q =>
      obtain ⟨t, s2⟩ := q
      simp only [prefixOK, Bool.and_eq_true] at htp
      obtain ⟨ht, hs2⟩ := htp
      have htq : stripQuote (TYPE_EQ ++ t) = TYPE_EQ ++ stripQuote t :=
        stripQuote_append _ _ (by decide)
      have htl : (stripQuote t).length ≤ npos := by
        have := stripQuote_length_le t
        simp only [prefixText, List.length_append] at hl
        omega
      simp only [prefixText, List.nil_append] at hl ⊢
      have e1 : TYPE_EQ ++ t ++ s2 ++ E ++ rest = (TYPE_EQ ++ t) ++ (s2 ++ E ++ rest) := by
        simp [List.append_assoc]
      have h1 := next_first (TYPE_EQ ++ t) (s2 ++ E ++ rest)
        (type_tok_plain t ht) (by simp only [List.append_assoc]; exact isSepRun_startsSep _ hs2)
        (by rw [← e1]; exact hl)
      rw [← e1] at h1
      have h2 := next_advance _ [] (TYPE_EQ ++ t) s2 E rest
        (by simp [List.append_assoc]) hs2 hE hrest hl
      rw [h1]
      simp only
      rw [takePrefixed_miss NODE_EQ _ (by
        simp only [atTok, htq]
        simp [NODE_EQ, TYPE_EQ])]
      simp only
      rw [takePrefixed_hit TYPE_EQ (stripQuote t) _ rfl (by simp [atTok, htq]) htl, h2]
      simp only [atEventId, prefixVal, List.nil_append, List.append_assoc]
    | none =>
      have hEn2 := hEn rfl rfl
      have hEt2 := hEt rfl
      simp only [prefixText, List.nil_append] at hl ⊢
      have h1 := next_first E rest hE hrest hl
      rw [h1]
      simp only
      rw [takePrefixed_miss NODE_EQ _ (by simpa [atTok] using hEn2)]
      simp only
      rw [takePrefixed_miss TYPE_EQ _ (by simpa [atTok] using hEt2)]
      simp only [atEventId, prefixVal, List.nil_append, List.append_assoc]

theorem parseIdFields_true (self : RawEventRecord) (itr : RecordFieldIterator)
    (s : List Char) (r : RawEventRecord) (h : self.parseIdFields itr s = .ok (true, r)) :
    r._node = self._node ∧ r._type_name = self._type_name ∧
      collectFields (itr._str.length + 1) itr self._record_fields = .ok r._record_fields := by
  unfold RawEventRecord.parseIdFields at h
  simp only at h
  split at h
  · simp at h
  split at h
  · simp at h
  split at h
  · split at h
    · split at h
      · simp at h
      · rename_i fields hf
        simp only [Except.ok.injEq, Prod.mk.injEq, true_and] at h
        subst h
        exact ⟨rfl, rfl, hf⟩
    · simp at h
  · simp at h

theorem parseEventId_true (self : RawEventRecord) (itr : RecordFieldIterator)
    (r : RawEventRecord) (h : self.parseEventId itr = .ok (true, r)) :
    r._node = self._node ∧ r._type_name = self._type_name ∧
      collectFields (itr._str.length + 1) itr self._record_fields = .ok r._record_fields := by
  unfold RawEventRecord.parseEventId at h
  split at h
  · simp at h
  split at h
  · simp at h
  split at h
  · simp at h
  · simp at h
  · simp at h
  · simp at h
  split at h
  · simp at h
  exact parseIdFields_true self itr _ r h

/-! ## C1 - C3: the event id offsets, and tokens the parser cannot handle -/

/-- C1 (defect in the code). On the specification's line, in each of the
three accepted prefix shapes, `Parse` returns true with the EventId
`(1, 123, 42)` and not `(1700000001, 123, 42)`: `val.substr(10, val.size()-12)`
cuts the first four bytes off the seconds, the offsets being those of a token
that still has its `msg=`. -/
theorem Parse_specLine_event_id :
    (parseLine noTables specLine).map (fun p => (p.1, p.2._event_id))
        = .ok (true, ⟨1, 123, 42⟩)
      ∧ (parseLine noTables
          "type=SYSCALL msg=audit(1700000001.123:42): arch=c000003e syscall=59 a0=7ffd").map
            (fun p => (p.1, p.2._event_id)) = .ok (true, ⟨1, 123, 42⟩)
      ∧ (parseLine noTables
          "audit(1700000001.123:42): arch=c000003e syscall=59 a0=7ffd").map
            (fun p => (p.1, p.2._event_id)) = .ok (true, ⟨1, 123, 42⟩) := by
  decide

/-- C2 (defect in the code). `Parse` does not always return: on `audit():`
and `audit(1):` the `substr(10, ...)` of line 126 throws `std::out_of_range`
outside the `try` block, and on text that begins with a space `next()` takes
`back()` of the empty token. -/
theorem Parse_faults :
    parseLine noTables "audit():" = .error .out_of_range
      ∧ parseLine noTables "audit(1):" = .error .out_of_range
      ∧ parseLine noTables " audit(1700000001.123:42): a=b" = .error .oob_read := by
  decide

/-- Every input that begins with a separator makes `next()` take `back()` of
an empty token. -/
theorem Parse_leading_separator (lt : LookupTables) (self : RawEventRecord) (rt size : Nat)
    (c : Char) (rest : List Char) (hc : c ∈ SEP) (hdata : self._data.take size = c :: rest) :
    self.Parse lt rt size = .error .oob_read := by
  rw [Parse_unfold lt self rt size _ hdata]
  have h0 : find_first_of (c :: rest) SEP 0 = 0 := by
    simp [find_first_of, List.findIdx_cons, hc]
  have hn : (0 : Nat) ≠ npos := by decide
  have : (RecordFieldIterator.mk0 (c :: rest)).next = .error .oob_read := by
    simp [RecordFieldIterator.next, RecordFieldIterator.nextAux, RecordFieldIterator.mk0, h0, hn,
      substr, back, MSG_QUOTE]
  rw [this]

/-- C3 (defect in the code). On the specification's embedded `msg` block
record `Parse` returns false and collects no field: the event id text left
by `val.substr(10, val.size()-12)` is `2:3`, which has no `'.'`. The same
record with the seconds written `00001` is parsed, and its fields are
`pid=10`, `cmd=ls`, `cwd=/tmp`. -/
theorem Parse_specMsgLine_rejected :
    (parseLine noTables specMsgLine).map (fun p => (p.1, p.2._record_fields))
        = .ok (false, [])
      ∧ (parseLine noTables
          "type=USER_CMD msg=audit(00001.002:3): pid=10 msg='cmd=ls cwd=/tmp'").map
            (fun p => (p.1, p.2._record_fields))
        = .ok (true, ["pid=10".toList, "cmd=ls".toList, "cwd=/tmp".toList]) := by
  decide

theorem allSep_iff {s : List Char} : allSep s = true ↔ ∀ c ∈ s, c ∈ SEP := by
  simp [allSep]

theorem allSep_startsSep {s : List Char} (h : allSep s = true) : startsSep s = true := by
  cases s with
  | nil => rfl
  | cons a l =>
    have := allSep_iff.mp h a (by simp)
    simpa [startsSep] using this

theorem fieldsText_startsSep (fs : List (List Char × List Char)) (trailing : List Char)
    (hfs : fieldsOK fs = true) (htr : allSep trailing = true) :
    startsSep (fieldsText fs ++ trailing) = true := by
  cases fs with
  | nil => simpa [fieldsText] using allSep_startsSep htr
  | cons p rest =>
    obtain ⟨seps, f⟩ := p
    simp only [fieldsOK, List.all_cons, Bool.and_eq_true] at hfs
    simp only [fieldsText, List.append_assoc]
    exact isSepRun_startsSep _ hfs.1.1

/-- The field loop over well-formed field tokens collects every token, one
trailing quote removed. -/
theorem collectFields_fieldsText : ∀ (fs : List (List Char × List Char))
    (text pre tok trailing : List Char) (acc : List (List Char)) (fuel : Nat),
    text = pre ++ tok ++ fieldsText fs ++ trailing → fieldsOK fs = true →
    allSep trailing = true → text.length < npos → (fieldsText fs).length < fuel →
    collectFields fuel (atTok text pre tok) acc
      = .ok (acc ++ fs.map (fun p => stripQuote p.2))
  | [], text, pre, tok, trailing, acc, fuel, htext, _, htr, _, hfuel => by
    obtain ⟨f, rfl⟩ : ∃ f, fuel = f + 1 := ⟨fuel - 1, by omega⟩
    unfold collectFields
    rw [next_last text pre tok trailing (by simpa [fieldsText] using htext) (allSep_iff.mp htr)]
    simp
  | (seps, fld) :: fs, text, pre, tok, trailing, acc, fuel, htext, hfs, htr, hlen, hfuel => by
    obtain ⟨f, rfl⟩ : ∃ f, fuel = f + 1 := ⟨fuel - 1, by omega⟩
    have hfs2 := hfs
    simp only [fieldsOK, List.all_cons, Bool.and_eq_true] at hfs2
    obtain ⟨⟨hs, hf⟩, hrest⟩ := hfs2
    unfold collectFields
    rw [next_advance text pre tok seps fld (fieldsText fs ++ trailing)
      (by simp [htext, fieldsText, List.append_assoc]) hs hf
      (fieldsText_startsSep fs trailing hrest htr) hlen]
    simp only
    rw [collectFields_fieldsText fs text (pre ++ tok ++ seps) fld trailing _ f
      (by simp [htext, fieldsText, List.append_assoc]) hrest htr hlen
      (by
        have : 0 < seps.length := List.length_pos.mpr (isSepRun_iff.mp hs).1
        simp only [fieldsText, List.length_append] at hfuel
        omega)]
    simp [atTok, RecordFieldIterator.value]

theorem lookupType_node (lt : LookupTables) (x : RawEventRecord) :
    (x.lookupType lt)._node = x._node := by
  unfold RawEventRecord.lookupType
  split
  · rfl
  · split <;> rfl

theorem lookupType_fields (lt : LookupTables) (x : RawEventRecord) :
    (x.lookupType lt)._record_fields = x._record_fields := by
  unfold RawEventRecord.lookupType
  split
  · rfl
  · split <;> rfl

theorem lookupType_type_name (lt : LookupTables) (x : RawEventRecord)
    (h : x._type_name ≠ [] ∨ x._record_type = RecordType_UNKNOWN) :
    (x.lookupType lt)._type_name = x._type_name := by
  unfold RawEventRecord.lookupType
  split
  · rename_i hc
    rcases h with h | h
    · exact absurd (by simpa using hc.1) h
    · exact absurd h hc.2
  · split <;> rfl

theorem stripQuote_of_endsQuote {t : List Char} (h : endsQuote t = false) : stripQuote t = t := by
  apply stripQuote_of_not_quote
  simpa [endsQuote] using h

theorem event_tok_plain (m a : List Char) (hm : m = [] ∨ m = MSG_EQ) (ha : noSep a = true) :
    plainTok (m ++ AUDIT_OPEN ++ a ++ AUDIT_CLOSE) = true := by
  rw [plainTok_iff]
  have ha2 := noSep_iff.mp ha
  rcases hm with rfl | rfl
  · refine ⟨by simp [AUDIT_OPEN], ?_, by simp [AUDIT_OPEN, MSG_QUOTE]⟩
    intro c hc
    simp only [List.nil_append, List.mem_append] at hc
    rcases hc with (hc | hc) | hc
    · revert c; decide
    · exact ha2 c hc
    · revert c; decide
  · refine ⟨by simp [MSG_EQ], ?_, by simp [AUDIT_OPEN, MSG_EQ, MSG_QUOTE]⟩
    intro c hc
    simp only [List.mem_append] at hc
    rcases hc with ((hc | hc) | hc) | hc
    · revert c; decide
    · revert c; decide
    · exact ha2 c hc
    · revert c; decide

theorem event_tok_stripQuote (m a : List Char) :
    stripQuote (m ++ AUDIT_OPEN ++ a ++ AUDIT_CLOSE) = m ++ AUDIT_OPEN ++ a ++ AUDIT_CLOSE := by
  apply stripQuote_of_not_quote
  simp [AUDIT_CLOSE, List.getLast?_append]

/-! ## C4: node, type name and field list -/

/-- C4 (amended). Whenever `Parse` returns true on text of the shape
`node=<n> type=<t> msg=audit(...): f1 ... fk`, tokens separated by non-empty
runs of SP or LF, where none of `<n>`, `<t>`, `fi` ends with a single quote,
no `fi` begins with `msg='`, and `<t>` is non-empty or the record type passed
in is `UNKNOWN`: the record's node is `<n>`, its type name is `<t>`, and its
field list is `[f1, ..., fk]` in input order. -/
theorem Parse_node_type_fields (lt : LookupTables) (self : RawEventRecord) (rt size : Nat)
    (n s1 t s2 a : List Char) (fs : List (List Char × List Char)) (trailing : List Char)
    (r : RawEventRecord)
    (hdata : self._data.take size =
      NODE_EQ ++ n ++ s1 ++ (TYPE_EQ ++ t ++ s2) ++ (MSG_EQ ++ AUDIT_OPEN ++ a ++ AUDIT_CLOSE)
        ++ (fieldsText fs ++ trailing))
    (hn : noSep n = true) (hnq : endsQuote n = false) (hs1 : isSepRun s1 = true)
    (ht : noSep t = true) (htq : endsQuote t = false) (hs2 : isSepRun s2 = true)
    (htype : t ≠ [] ∨ rt = RecordType_UNKNOWN) (ha : noSep a = true)
    (hfs : fieldsOK fs = true) (hfq : ∀ p ∈ fs, endsQuote p.2 = false)
    (htr : allSep trailing = true) (hlen : size < npos)
    (hparse : self.Parse lt rt size = .ok (true, r)) :
    r._node = n ∧ r._type_name = t ∧ r._record_fields = fs.map (fun p => p.2) := by
  have hE := event_tok_plain MSG_EQ a (Or.inr rfl) ha
  have hp := Parse_to_event_id lt self rt size (some (n, s1)) (some (t, s2))
    (MSG_EQ ++ AUDIT_OPEN ++ a ++ AUDIT_CLOSE) (fieldsText fs ++ trailing) hdata
    (by simp [prefixOK, hn, hs1]) (by simp [prefixOK, ht, hs2]) hE
    (fieldsText_startsSep fs trailing hfs htr) (by simp) (by simp) hlen
  rw [hparse] at hp
  obtain ⟨h1, h2, h3⟩ := parseEventId_true _ _ r hp.symm
  have hl : (prefixText NODE_EQ (some (n, s1)) ++ prefixText TYPE_EQ (some (t, s2)) ++
      (MSG_EQ ++ AUDIT_OPEN ++ a ++ AUDIT_CLOSE) ++ (fieldsText fs ++ trailing)).length < npos := by
    simp only [prefixText]
    rw [← hdata]
    exact Nat.lt_of_le_of_lt (List.length_take_le _ _) hlen
  rw [collectFields_fieldsText fs _ _ _ trailing _ _ (by simp [List.append_assoc]) hfs htr hl
    (by simp only [atTok, List.length_append]; omega)] at h3
  refine ⟨?_, ?_, ?_⟩
  · rw [h1]
    simp [atEventId, lookupType_node, prefixVal, stripQuote_of_endsQuote hnq]
  · rw [h2, atEventId, lookupType_type_name]
    · simp [prefixVal, stripQuote_of_endsQuote htq]
    · simpa [prefixVal, stripQuote_of_endsQuote htq] using htype
  · simp only [atEventId, lookupType_fields, List.nil_append, Except.ok.injEq] at h3
    rw [← h3]
    apply List.map_congr_left
    intro p hp
    exact stripQuote_of_endsQuote (hfq p hp)

/-- C4, witness: the theorem at the specification's line, on which `Parse`
returns true. -/
theorem Parse_node_type_fields_witness :
    (RawEventRecord.ofData specLine.toList).Parse noTables RecordType_UNKNOWN 86
        = .ok (true, specLineParsed)
      ∧ specLineParsed._node = "host1".toList
      ∧ specLineParsed._type_name = "SYSCALL".toList
      ∧ specLineParsed._record_fields
          = ["arch=c000003e".toList, "syscall=59".toList, "a0=7ffd".toList] :=
  ⟨by decide,
   Parse_node_type_fields noTables (RawEventRecord.ofData specLine.toList) RecordType_UNKNOWN 86
     "host1".toList [' '] "SYSCALL".toList [' '] "1700000001.123:42".toList
     [([' '], "arch=c000003e".toList), ([' '], "syscall=59".toList), ([' '], "a0=7ffd".toList)]
     [] specLineParsed (by decide) (by decide) (by decide) (by decide) (by decide) (by decide)
     (by decide) (by decide) (by decide) (by decide) (by decide) (by decide) (by decide)
     (by decide)⟩

/-- C4, counterexample: on `node=a' type=b msg=audit(00001.002:3): c=d`, of
the claim's shape with `<n>` = `a'`, `Parse` returns true and the node is
`a`, not `a'`. -/
theorem Parse_node_quote_counterexample :
    (parseLine noTables "node=a' type=b msg=audit(00001.002:3): c=d").map
        (fun p => (p.1, p.2._node, p.2._type_name, p.2._record_fields))
      = .ok (true, "a".toList, "b".toList, ["c=d".toList]) := by
  decide

/-! ## C5: what the conversions reject -/

theorem range_check_ne_invalid (c : Prop) [Decidable c] (v : Int) :
    (if c then (Except.error StoError.out_of_range : Except StoError Int) else .ok v)
      ≠ .error .invalid_argument := by
  split <;> simp

theorem stoBase10_invalid_iff (lo hi : Int) (s : List Char) :
    stoBase10 lo hi s = .error .invalid_argument ↔ leadDigits s = [] := by
  unfold stoBase10 leadDigits
  simp only
  constructor
  · intro h
    by_contra hne
    rw [if_neg hne] at h
    exact range_check_ne_invalid _ _ h
  · intro h
    rw [if_pos h]

theorem leadDigits_nil : leadDigits [] = [] := by
  simp [leadDigits]

theorem leadDigits_cons_space (c : Char) (s : List Char) (h : isspace c = true) :
    leadDigits (c :: s) = leadDigits s := by
  simp [leadDigits, List.dropWhile_cons, h]

theorem leadDigits_cons_sign (c : Char) (s : List Char) (h : c = '-' ∨ c = '+') :
    leadDigits (c :: s) = s.takeWhile Char.isDigit := by
  have hs : isspace c = false := by
    rcases h with rfl | rfl <;> decide
  simp [leadDigits, List.dropWhile_cons, hs, h]

theorem leadDigits_cons_other (c : Char) (s : List Char) (hs : isspace c = false)
    (h1 : c ≠ '-') (h2 : c ≠ '+') :
    leadDigits (c :: s) = (c :: s).takeWhile Char.isDigit := by
  simp [leadDigits, List.dropWhile_cons, hs, h1, h2]

theorem takeWhile_nil_append (s z : List Char) (c : Char) (hc : c.isDigit = false)
    (h : s.takeWhile Char.isDigit = []) : (s ++ c :: z).takeWhile Char.isDigit = [] := by
  cases s with
  | nil => simp [List.takeWhile_cons, hc]
  | cons a l =>
    have ha : a.isDigit = false := by
      by_contra hd
      simp [List.takeWhile_cons, hd] at h
    simp [List.takeWhile_cons, ha]

theorem takeWhile_nil_take (s : List Char) (k : Nat)
    (h : s.takeWhile Char.isDigit = []) : (s.take k).takeWhile Char.isDigit = [] := by
  cases s with
  | nil => simp
  | cons a l =>
    have ha : a.isDigit = false := by
      by_contra hd
      simp [List.takeWhile_cons, hd] at h
    cases k with
    | zero => simp
    | succ k => simp [List.takeWhile_cons, ha]

theorem leadDigits_append_colon : ∀ (s z : List Char),
    leadDigits s = [] → leadDigits (s ++ ':' :: z) = []
  | [], z, _ => by
    rw [List.nil_append, leadDigits_cons_other _ _ (by decide) (by decide) (by decide)]
    simp [List.takeWhile_cons]
  | c :: s, z, h => by
    rw [List.cons_append]
    by_cases hs : isspace c = true
    · rw [leadDigits_cons_space _ _ hs] at h ⊢
      exact leadDigits_append_colon s z h
    · have hs2 : isspace c = false := by simpa using hs
      by_cases hsign : c = '-' ∨ c = '+'
      · rw [leadDigits_cons_sign _ _ hsign] at h ⊢
        exact takeWhile_nil_append s z ':' (by decide) h
      · have h1 : c ≠ '-' := fun e => hsign (Or.inl e)
        have h2 : c ≠ '+' := fun e => hsign (Or.inr e)
        rw [leadDigits_cons_other _ _ hs2 h1 h2] at h ⊢
        exact takeWhile_nil_append (c :: s) z ':' (by decide) h

theorem leadDigits_take : ∀ (s : List Char) (k : Nat),
    leadDigits s = [] → leadDigits (s.take k) = []
  | [], k, _ => by simp [leadDigits_nil]
  | _ :: _, 0, _ => by simp [leadDigits_nil]
  | c :: s, k + 1, h => by
    rw [List.take_succ_cons]
    by_cases hs : isspace c = true
    · rw [leadDigits_cons_space _ _ hs] at h ⊢
      exact leadDigits_take s k h
    · have hs2 : isspace c = false := by simpa using hs
      by_cases hsign : c = '-' ∨ c = '+'
      · rw [leadDigits_cons_sign _ _ hsign] at h ⊢
        exact takeWhile_nil_take s k h
      · have h1 : c ≠ '-' := fun e => hsign (Or.inl e)
        have h2 : c ≠ '+' := fun e => hsign (Or.inr e)
        rw [leadDigits_cons_other _ _ hs2 h1 h2] at h ⊢
        have := takeWhile_nil_take (c :: s) (k + 1) h
        simpa using this

/-- A millisecond part without a digit to convert stays so when it is read
through `substr(pidx+1, 3)` with the `':'` and the serial after it. -/
theorem stoi_msec_invalid (msec ser : List Char) (h : stoi msec = .error .invalid_argument) :
    stoi ((msec ++ ':' :: ser).take 3) = .error .invalid_argument := by
  unfold stoi at h ⊢
  rw [stoBase10_invalid_iff] at h ⊢
  exact leadDigits_take _ 3 (leadDigits_append_colon msec ser h)

theorem parseEventId_val (self : RawEventRecord) (itr : RecordFieldIterator) (val : List Char)
    (hpre : starts_with itr.value MSG_EQ = .ok true → substr itr.value 4 npos = .ok val)
    (hno : starts_with itr.value MSG_EQ = .ok false → itr.value = val)
    (hs : val.take 6 = AUDIT_OPEN) (he : 2 ≤ val.length ∧ val.drop (val.length - 2) = AUDIT_CLOSE) :
    self.parseEventId itr =
      match substr val 10 (size_sub val.length 12) with
      | .error e => .error e
      | .ok event_id_str => self.parseIdFields itr event_id_str := by
  unfold RawEventRecord.parseEventId
  have h1 : starts_with val AUDIT_OPEN = .ok true := by
    rw [starts_with_eq]
    simp [AUDIT_OPEN] at hs ⊢
    exact hs
  have h2 : ends_with val AUDIT_CLOSE = .ok true := by
    rw [ends_with_eq]
    simp [AUDIT_CLOSE] at he ⊢
    exact he
  rw [starts_with_eq] at hpre hno ⊢
  by_cases hm : List.take MSG_EQ.length itr.value = MSG_EQ
  · simp only [hm, decide_True, if_true] at hpre ⊢
    rw [hpre trivial]
    simp only [h1, h2]
  · simp only [hm, decide_False] at hno ⊢
    rw [hno trivial]
    simp only [Bool.false_eq_true, if_false, h1, h2]

theorem parseEventId_audit (self : RawEventRecord) (itr : RecordFieldIterator) (msg : Bool)
    (body : List Char)
    (hval : itr._val = (if msg then MSG_EQ else []) ++ AUDIT_OPEN ++ body ++ AUDIT_CLOSE)
    (hlen : itr._val.length < npos) (hb : 2 ≤ body.length) :
    self.parseEventId itr = self.parseIdFields itr
      (((body ++ AUDIT_CLOSE).drop 4).take (size_sub (body.length + 8) 12)) := by
  have hl : (AUDIT_OPEN ++ body ++ AUDIT_CLOSE).length = body.length + 8 := by
    simp [AUDIT_OPEN, AUDIT_CLOSE]
  have hlen2 : (AUDIT_OPEN ++ body ++ AUDIT_CLOSE).length ≤ npos := by
    rw [hval] at hlen
    simp only [List.length_append] at hlen ⊢
    omega
  rw [parseEventId_val self itr (AUDIT_OPEN ++ body ++ AUDIT_CLOSE)]
  · rw [substr_ok _ (by rw [hl]; omega), hl]
    simp [AUDIT_OPEN, List.append_assoc]
  · intro _
    cases msg with
    | true =>
      rw [substr_ok _ (by simp [RecordFieldIterator.value, hval, MSG_EQ])]
      simp only [RecordFieldIterator.value, hval, if_true, List.append_assoc]
      rw [show (4 : Nat) = MSG_EQ.length from rfl, List.drop_left]
      rw [List.take_of_length_le]
      simpa [List.append_assoc] using hlen2
    | false =>
      rename_i h
      rw [starts_with_eq] at h
      simp [RecordFieldIterator.value, hval, AUDIT_OPEN, MSG_EQ] at h
  · intro h
    cases msg with
    | true =>
      rw [starts_with_eq] at h
      simp [RecordFieldIterator.value, hval, MSG_EQ] at h
    | false => simp [RecordFieldIterator.value, hval]
  · simp [AUDIT_OPEN, List.append_assoc]
  · refine ⟨by rw [hl]; omega, ?_⟩
    rw [hl]
    have : body.length + 8 - 2 = (AUDIT_OPEN ++ body).length := by
      simp [AUDIT_OPEN]
    rw [this, List.drop_left]

theorem find_first_of_none (s : List Char) (c : Char) (pos : Nat) (h : c ∉ s) :
    find_first_of s [c] pos = npos := by
  unfold find_first_of
  have : (s.drop pos).findIdx (fun x => [c].contains x) = (s.drop pos).length := by
    apply List.findIdx_eq_length_of_false
    intro x hx
    have hx2 : x ∈ s := List.mem_of_mem_drop hx
    simp only [List.contains_cons, List.contains_nil, Bool.or_false, beq_eq_false_iff_ne, ne_eq]
    rintro rfl
    exact h hx2
  simp only [this, List.length_drop]
  rw [if_neg]
  omega

theorem find_first_of_hit (pre tok rest : List Char) (c : Char) (h : c ∉ tok) :
    find_first_of (pre ++ tok ++ c :: rest) [c] pre.length = pre.length + tok.length := by
  unfold find_first_of
  have h1 : ∀ x ∈ tok, (fun x => [c].contains x) x = false := by
    intro x hx
    simp only [List.contains_cons, List.contains_nil, Bool.or_false, beq_eq_false_iff_ne, ne_eq]
    rintro rfl
    exact h hx
  simp only [findIdx_drop_append _ pre tok (c :: rest) h1]
  have : (c :: rest).findIdx (fun x => [c].contains x) = 0 := by
    simp [List.findIdx_cons]
  rw [this]
  simp only [List.length_append, List.length_cons, Nat.add_zero]
  rw [if_pos (by omega)]

theorem parseIdFields_no_dot (self : RawEventRecord) (itr : RecordFieldIterator)
    (s : List Char) (h : '.' ∉ s) : self.parseIdFields itr s = .ok (false, self) := by
  unfold RawEventRecord.parseIdFields
  simp [find_first_of_none s '.' 0 h]

/-- The three conversions of lines 139-141, when any of them throws. -/
theorem parseIdFields_parts_reject (self : RawEventRecord) (itr : RecordFieldIterator)
    (a m z : List Char) (ha : '.' ∉ a) (hm : ':' ∉ m)
    (hlen : (a ++ '.' :: (m ++ ':' :: z)).length < npos)
    (hbad : (∀ v, stoll a ≠ .ok v) ∨ (∀ v, stoi ((m ++ ':' :: z).take 3) ≠ .ok v)
      ∨ (∀ v, stoll z ≠ .ok v)) :
    self.parseIdFields itr (a ++ '.' :: (m ++ ':' :: z))
      = .ok (false, { self with _event_id := ⟨0, 0, 0⟩ }) := by
  have hp : find_first_of (a ++ '.' :: (m ++ ':' :: z)) ['.'] 0 = a.length := by
    have := find_first_of_hit [] a (m ++ ':' :: z) '.' ha
    simpa using this
  have hc : find_first_of (a ++ '.' :: (m ++ ':' :: z)) [':'] a.length
      = a.length + (m.length + 1) := by
    have := find_first_of_hit a ('.' :: m) z ':' (by simp [hm])
    simpa [List.append_assoc] using this
  have hl : (a ++ '.' :: (m ++ ':' :: z)).length = a.length + (m.length + (z.length + 1) + 1) := by
    simp
  unfold RawEventRecord.parseIdFields
  simp only [hp, hc]
  rw [if_neg (by rw [hl] at hlen; omega), if_neg (by rw [hl] at hlen; omega)]
  rw [substr_ok _ (Nat.zero_le _), substr_ok _ (by rw [hl]; omega),
    substr_ok _ (by rw [hl]; omega)]
  have e1 : List.take a.length (List.drop 0 (a ++ '.' :: (m ++ ':' :: z))) = a := by simp
  have e2 : List.drop (a.length + 1) (a ++ '.' :: (m ++ ':' :: z)) = m ++ ':' :: z := by
    rw [show a ++ '.' :: (m ++ ':' :: z) = (a ++ ['.']) ++ (m ++ ':' :: z) by simp]
    rw [show a.length + 1 = (a ++ ['.']).length by simp, List.drop_left]
  have e3 : List.take npos (List.drop (a.length + (m.length + 1) + 1)
      (a ++ '.' :: (m ++ ':' :: z))) = z := by
    rw [show a ++ '.' :: (m ++ ':' :: z) = (a ++ '.' :: m ++ [':']) ++ z by simp]
    rw [show a.length + (m.length + 1) + 1 = (a ++ '.' :: m ++ [':']).length by simp; omega,
      List.drop_left]
    apply List.take_of_length_le
    rw [hl] at hlen
    omega
  simp only [e1, e2, e3]
  rcases hbad with h | h | h
  · cases h1 : stoll a with
    | ok v => exact absurd h1 (h v)
    | error e => rfl
  · cases h1 : stoi (List.take 3 (m ++ ':' :: z)) with
    | ok v => exact absurd h1 (h v)
    | error e =>
      cases stoll a <;> rfl
  · cases h1 : stoll z with
    | ok v => exact absurd h1 (h v)
    | error e =>
      cases stoll a <;> cases stoi (List.take 3 (m ++ ':' :: z)) <;> rfl

theorem size_sub_of_le {a b : Nat} (h1 : b ≤ a) (h2 : a < npos) : size_sub a b = a - b := by
  unfold size_sub
  unfold npos at h2
  omega

theorem idPart_iff {p : List Char} :
    idPart p = true ↔ ∀ c ∈ p, c ≠ '.' ∧ c ≠ ':' ∧ c ∉ SEP := by
  simp [idPart, and_assoc]

theorem idPart_noSep_body {sec msec ser : List Char} (h1 : idPart sec = true)
    (h2 : idPart msec = true) (h3 : idPart ser = true) :
    noSep (sec ++ '.' :: (msec ++ ':' :: ser)) = true := by
  rw [noSep_iff]
  intro c hc
  simp only [List.mem_append, List.mem_cons] at hc
  rcases hc with hc | rfl | hc | rfl | hc
  · exact (idPart_iff.mp h1 c hc).2.2
  · decide
  · exact (idPart_iff.mp h2 c hc).2.2
  · decide
  · exact (idPart_iff.mp h3 c hc).2.2

theorem Parse_rejects_unconvertible_aux (lt : LookupTables) (self : RawEventRecord) (rt size : Nat)
    (np tp : Option (List Char × List Char)) (msg : Bool) (sec msec ser rest : List Char)
    (hdata : self._data.take size =
      prefixText NODE_EQ np ++ prefixText TYPE_EQ tp ++ eventIdToken msg sec msec ser ++ rest)
    (hnp : prefixOK np = true) (htp : prefixOK tp = true)
    (hsec : idPart sec = true) (hmsec : idPart msec = true) (hser : idPart ser = true)
    (hrest : startsSep rest = true) (hlen : size < npos)
    (hbad : stoi msec = .error .invalid_argument ∨ ∀ v, stoll ser ≠ .ok v) :
    ∃ r, self.Parse lt rt size = .ok (false, r) := by
  have hm : (if msg then MSG_EQ else []) = [] ∨ (if msg then MSG_EQ else []) = MSG_EQ := by
    cases msg <;> simp
  have hE : plainTok (eventIdToken msg sec msec ser) = true :=
    event_tok_plain _ _ hm (idPart_noSep_body hsec hmsec hser)
  have hEq : stripQuote (eventIdToken msg sec msec ser) = eventIdToken msg sec msec ser :=
    event_tok_stripQuote _ _
  have hl : (prefixText NODE_EQ np ++ prefixText TYPE_EQ tp ++ eventIdToken msg sec msec ser
      ++ rest).length < npos := by
    rw [← hdata]
    exact Nat.lt_of_le_of_lt (List.length_take_le _ _) hlen
  rw [Parse_to_event_id lt self rt size np tp _ rest hdata hnp htp hE hrest
    (by intro _ _; rw [hEq]; cases msg <;> simp [eventIdToken, MSG_EQ, AUDIT_OPEN, NODE_EQ])
    (by intro _; rw [hEq]; cases msg <;> simp [eventIdToken, MSG_EQ, AUDIT_OPEN, TYPE_EQ])
    hlen]
  have hEl : (eventIdToken msg sec msec ser).length < npos := by
    simp only [List.length_append] at hl
    omega
  have hbl : (sec ++ '.' :: (msec ++ ':' :: ser)).length + 8 < npos := by
    have : (eventIdToken msg sec msec ser).length
        = (if msg then MSG_EQ else []).length + (sec ++ '.' :: (msec ++ ':' :: ser)).length + 8 := by
      simp [eventIdToken, AUDIT_OPEN, AUDIT_CLOSE]
      omega
    omega
  rw [parseEventId_audit _ _ msg (sec ++ '.' :: (msec ++ ':' :: ser))
    (by simp only [atTok, hEq]; rfl) (by simpa [atTok, hEq] using hEl) (by simp; omega)]
  have hR : '.' ∉ msec ++ ':' :: ser ++ AUDIT_CLOSE := by
    intro hc
    simp only [List.mem_append, List.mem_cons] at hc
    rcases hc with (hc | hc | hc) | hc
    · exact (idPart_iff.mp hmsec _ hc).1 rfl
    · exact absurd hc (by decide)
    · exact (idPart_iff.mp hser _ hc).1 rfl
    · revert hc; decide
  by_cases h4 : 4 ≤ sec.length
  · -- the seconds lose their first four bytes; the other two parts are read whole
    have hbody : 12 ≤ (sec ++ '.' :: (msec ++ ':' :: ser)).length + 8 := by
      simp; omega
    rw [size_sub_of_le hbody hbl]
    have e : List.take ((sec ++ '.' :: (msec ++ ':' :: ser)).length + 8 - 12)
        (List.drop 4 (sec ++ '.' :: (msec ++ ':' :: ser) ++ AUDIT_CLOSE))
        = sec.drop 4 ++ '.' :: (msec ++ ':' :: ser) := by
      have e1 : List.drop 4 (sec ++ '.' :: (msec ++ ':' :: ser) ++ AUDIT_CLOSE)
          = (sec.drop 4 ++ '.' :: (msec ++ ':' :: ser)) ++ AUDIT_CLOSE := by
        rw [List.append_assoc, List.drop_append_of_le_length h4, List.append_assoc]
      rw [e1]
      have e2 : (sec ++ '.' :: (msec ++ ':' :: ser)).length + 8 - 12
          = (sec.drop 4 ++ '.' :: (msec ++ ':' :: ser)).length := by
        simp; omega
      rw [e2, List.take_left]
    rw [e]
    refine ⟨_, parseIdFields_parts_reject _ _ (sec.drop 4) msec ser ?_ ?_ ?_ ?_⟩
    · intro hc
      exact (idPart_iff.mp hsec _ (List.mem_of_mem_drop hc)).1 rfl
    · intro hc
      exact (idPart_iff.mp hmsec _ hc).2.1 rfl
    · simp only [List.length_append, List.length_cons, List.length_drop] at hbl ⊢
      omega
    · rcases hbad with h | h
      · right; left
        intro v hv
        rw [stoi_msec_invalid msec ser h] at hv
        exact absurd hv (by simp)
      · right; right
        exact h
  · -- fewer than four bytes of seconds: the `'.'` is cut off as well
    refine ⟨_, parseIdFields_no_dot _ _ _ ?_⟩
    intro hc
    have hc2 := List.mem_of_mem_take hc
    rw [List.append_assoc, List.drop_append_eq_append_drop] at hc2
    have hs0 : List.drop 4 sec = [] := List.drop_eq_nil_of_le (by omega)
    rw [hs0, List.nil_append] at hc2
    obtain ⟨k, hk⟩ : ∃ k, 4 - sec.length = k + 1 := ⟨4 - sec.length - 1, by omega⟩
    rw [hk, List.cons_append, List.drop_succ_cons] at hc2
    exact hR (List.mem_of_mem_drop hc2)

/-- C5 (amended). `Parse` returns false for every record - with or without
the `node=` and `type=` tokens and the `msg=` - whose `audit(<sec>.<msec>:<ser>):`
block has a millisecond part in which `std::stoi` finds no digit to convert
(none after the leading white space and one optional sign), or a serial part
that `std::stoll` rejects (no digit to convert, or a value outside the signed
64-bit range). -/
theorem Parse_rejects_unconvertible (lt : LookupTables) (self : RawEventRecord) (rt size : Nat)
    (np tp : Option (List Char × List Char)) (msg : Bool) (sec msec ser rest : List Char)
    (hdata : self._data.take size =
      prefixText NODE_EQ np ++ prefixText TYPE_EQ tp ++ eventIdToken msg sec msec ser ++ rest)
    (hnp : prefixOK np = true) (htp : prefixOK tp = true)
    (hsec : idPart sec = true) (hmsec : idPart msec = true) (hser : idPart ser = true)
    (hrest : startsSep rest = true) (hlen : size < npos)
    (hbad : stoi msec = .error .invalid_argument ∨ ∀ v, stoll ser ≠ .ok v) :
    (self.Parse lt rt size).map Prod.fst = .ok false := by
  obtain ⟨r, hr⟩ := Parse_rejects_unconvertible_aux lt self rt size np tp msg sec msec ser rest
    hdata hnp htp hsec hmsec hser hrest hlen hbad
  rw [hr]
  rfl

/-- C5, counterexample: records whose millisecond or serial part is not a
plain decimal integer, or whose millisecond part does not have three digits,
and on which `Parse` returns true: a millisecond part `-12` (stored as
`4294967284`), a serial `+42`, a serial with a leading tab, a serial `42abc`,
and a millisecond part `1`. -/
theorem Parse_accepts_counterexample :
    (parseLine noTables "audit(1700000001.-12:42): a=b").map (fun p => (p.1, p.2._event_id))
        = .ok (true, ⟨1, 4294967284, 42⟩)
      ∧ (parseLine noTables "audit(1700000001.123:+42): a=b").map (fun p => (p.1, p.2._event_id))
        = .ok (true, ⟨1, 123, 42⟩)
      ∧ (parseLine noTables "audit(1700000001.123:\t42): a=b").map (fun p => (p.1, p.2._event_id))
        = .ok (true, ⟨1, 123, 42⟩)
      ∧ (parseLine noTables "audit(1700000001.123:42abc): a=b").map (fun p => (p.1, p.2._event_id))
        = .ok (true, ⟨1, 123, 42⟩)
      ∧ (parseLine noTables "audit(1700000001.1:42): a=b").map (fun p => (p.1, p.2._event_id))
        = .ok (true, ⟨1, 1, 42⟩) := by
  decide

/-- C5, witness: a record with the millisecond part `abc`. -/
theorem Parse_rejects_unconvertible_witness :
    stoi "abc".toList = .error .invalid_argument
      ∧ ((RawEventRecord.ofData
          "node=host1 type=SYSCALL msg=audit(1700000001.abc:42): a=b".toList).Parse
            noTables RecordType_UNKNOWN 57).map Prod.fst = .ok false :=
  ⟨by decide,
   Parse_rejects_unconvertible noTables _ RecordType_UNKNOWN 57
     (some ("host1".toList, [' '])) (some ("SYSCALL".toList, [' '])) true
     "1700000001".toList "abc".toList "42".toList " a=b".toList
     (by decide) (by decide) (by decide) (by decide) (by decide) (by decide) (by decide)
     (by decide) (Or.inl (by decide))⟩

/-! ## C6: missing tokens -/

theorem isPrefixOf_eq_take (p v : List Char) : p.isPrefixOf v = decide (v.take p.length = p) := by
  rw [Bool.eq_iff_iff]
  simp only [List.isPrefixOf_iff_prefix, decide_eq_true_eq, List.prefix_iff_eq_take]
  exact eq_comm

theorem isSuffixOf_eq_drop (p v : List Char) :
    p.isSuffixOf v = decide (p.length ≤ v.length ∧ v.drop (v.length - p.length) = p) := by
  rw [Bool.eq_iff_iff]
  simp only [List.isSuffixOf_iff_suffix, decide_eq_true_eq, List.suffix_iff_eq_drop]
  constructor
  · intro h
    refine ⟨?_, h.symm⟩
    have := congrArg List.length h
    simp only [List.length_drop] at this
    omega
  · intro h
    exact h.2.symm

theorem parseEventId_reject (self : RawEventRecord) (itr : RecordFieldIterator)
    (hlen : itr._val.length ≤ npos) (h : isAuditBlock (dropMsg itr._val) = false) :
    self.parseEventId itr = .ok (false, self) := by
  unfold RawEventRecord.parseEventId
  simp only [starts_with_eq, ends_with_eq, RecordFieldIterator.value]
  unfold isAuditBlock dropMsg at h
  rw [isPrefixOf_eq_take MSG_EQ] at h
  by_cases hm : List.take MSG_EQ.length itr._val = MSG_EQ
  · simp only [hm, decide_True, if_true] at h ⊢
    rw [substr_ok _ (by
      have := congrArg List.length hm
      simp [MSG_EQ] at this
      omega)]
    have e : List.take npos (List.drop 4 itr._val) = List.drop 4 itr._val := by
      apply List.take_of_length_le
      simp only [List.length_drop]
      omega
    simp only [e]
    rw [isPrefixOf_eq_take, isSuffixOf_eq_drop] at h
    simp only [Bool.and_eq_false_iff] at h
    rcases h with h | h
    · simp only [h]
    · simp only [h]
      split <;> simp_all
  · simp only [hm, decide_False] at h ⊢
    simp only [Bool.false_eq_true, if_false] at h ⊢
    rw [isPrefixOf_eq_take, isSuffixOf_eq_drop] at h
    simp only [Bool.and_eq_false_iff] at h
    rcases h with h | h
    · simp only [h]
    · simp only [h]
      split <;> simp_all

theorem next_empty : (RecordFieldIterator.mk0 []).next = .ok (false, RecordFieldIterator.mk0 []) := by
  decide

theorem takePrefixed_last (key v : List Char) (text pre : List Char) (trailing : List Char)
    (hk : key.length = 5) (hkq : key.getLast? ≠ some '\'')
    (htext : text = pre ++ (key ++ v) ++ trailing) (htr : allSep trailing = true)
    (hlen : text.length < npos) :
    takePrefixed key (atTok text pre (key ++ v))
      = .ok (false, stripQuote v, atTok text pre (key ++ v)) := by
  have hq : stripQuote (key ++ v) = key ++ stripQuote v := stripQuote_append _ _ hkq
  have hvl : (stripQuote v).length ≤ npos := by
    have := stripQuote_length_le v
    rw [htext] at hlen
    simp only [List.length_append] at hlen
    omega
  rw [takePrefixed_hit key (stripQuote v) _ hk (by simp [atTok, hq]) hvl,
    next_last text pre (key ++ v) trailing htext (allSep_iff.mp htr)]

/-- C6 (amended). `Parse` returns false when a required token is missing:
for the empty input, for an input that ends right after its `node=` token or
right after its `type=` token, and for every input whose event id token - as
the tokeniser yields it, one trailing single quote removed, and after an
optional leading `msg=` - does not both start with `audit(` and end with
`):`. -/
theorem Parse_incomplete (lt : LookupTables) (self : RawEventRecord) (rt size : Nat)
    (sh : Incomplete) (hwf : sh.wf = true) (hdata : self._data.take size = sh.text)
    (hlen : size < npos) :
    (self.Parse lt rt size).map Prod.fst = .ok false := by
  have hl : sh.text.length < npos := by
    rw [← hdata]
    exact Nat.lt_of_le_of_lt (List.length_take_le _ _) hlen
  cases sh with
  | empty =>
    rw [Parse_unfold lt self rt size _ hdata]
    simp only [Incomplete.text, next_empty]
    rfl
  | afterNode n trailing =>
    simp only [Incomplete.wf, Bool.and_eq_true] at hwf
    obtain ⟨hn, htr⟩ := hwf
    simp only [Incomplete.text] at hl hdata
    rw [Parse_unfold lt self rt size _ hdata]
    rw [next_first (NODE_EQ ++ n) trailing (node_tok_plain n hn) (allSep_startsSep htr) hl]
    simp only
    rw [takePrefixed_last NODE_EQ n _ [] trailing rfl (by decide) (by simp) htr hl]
    rfl
  | afterType np t trailing =>
    simp only [Incomplete.wf, Bool.and_eq_true] at hwf
    obtain ⟨⟨hnp, ht⟩, htr⟩ := hwf
    simp only [Incomplete.text] at hl hdata
    rw [Parse_unfold lt self rt size _ hdata]
    cases np with
    | none =>
      simp only [prefixText, List.nil_append] at hl ⊢
      rw [next_first (TYPE_EQ ++ t) trailing (type_tok_plain t ht) (allSep_startsSep htr) hl]
      simp only
      rw [takePrefixed_miss NODE_EQ _ (by
        simp only [atTok, stripQuote_append TYPE_EQ t (by decide)]
        simp [NODE_EQ, TYPE_EQ])]
      simp only
      rw [takePrefixed_last TYPE_EQ t _ [] trailing rfl (by decide) (by simp) htr hl]
      rfl
    | some p =>
      obtain ⟨n, s1⟩ := p
      simp only [prefixOK, Bool.and_eq_true] at hnp
      obtain ⟨hn, hs1⟩ := hnp
      simp only [prefixText] at hl ⊢
      have e1 : NODE_EQ ++ n ++ s1 ++ (TYPE_EQ ++ t) ++ trailing
          = (NODE_EQ ++ n) ++ (s1 ++ (TYPE_EQ ++ t) ++ trailing) := by
        simp [List.append_assoc]
      have h1 := next_first (NODE_EQ ++ n) (s1 ++ (TYPE_EQ ++ t) ++ trailing)
        (node_tok_plain n hn) (by simp only [List.append_assoc]; exact isSepRun_startsSep _ hs1)
        (by rw [← e1]; exact hl)
      rw [← e1] at h1
      have h2 := next_advance _ [] (NODE_EQ ++ n) s1 (TYPE_EQ ++ t) trailing
        (by simp [List.append_assoc]) hs1 (type_tok_plain t ht) (allSep_startsSep htr) hl
      have hnl : (stripQuote n).length ≤ npos := by
        have := stripQuote_length_le n
        simp only [List.length_append] at hl
        omega
      rw [h1]
      simp only
      rw [takePrefixed_hit NODE_EQ (stripQuote n) _ rfl
        (by simp [atTok, stripQuote_append NODE_EQ n (by decide)]) hnl, h2]
      simp only
      rw [takePrefixed_last TYPE_EQ t _ ([] ++ (NODE_EQ ++ n) ++ s1) trailing rfl (by decide)
        (by simp [List.append_assoc]) htr hl]
      rfl
  | badEventId np tp tok rest =>
    simp only [Incomplete.wf, Bool.and_eq_true, Bool.or_eq_true, Bool.not_eq_true',
      isPrefixOf_eq_take, decide_eq_false_iff_not] at hwf
    obtain ⟨⟨⟨⟨⟨⟨hnp, htp⟩, htok⟩, hrest⟩, hnode⟩, htype⟩, hbad⟩ := hwf
    simp only [Incomplete.text] at hl hdata
    rw [Parse_to_event_id lt self rt size np tp tok rest hdata hnp htp htok hrest
      (by
        intro h1 h2
        subst h1 h2
        simpa using hnode)
      (by
        intro h2
        subst h2
        simpa using htype)
      hlen]
    rw [parseEventId_reject _ _ (by
      have := stripQuote_length_le tok
      simp only [List.length_append] at hl
      simp only [atTok]
      omega) (by simpa [atTok] using hbad)]
    rfl

/-- C6, witness: a record whose event id token is `msg=avc(1.2:3)`. -/
theorem Parse_incomplete_witness :
    (Incomplete.badEventId (some ("host1".toList, [' '])) (some ("SYSCALL".toList, [' ']))
        "msg=avc(1.2:3)".toList " a=b".toList).wf = true
      ∧ ((RawEventRecord.ofData "node=host1 type=SYSCALL msg=avc(1.2:3) a=b".toList).Parse
            noTables RecordType_UNKNOWN 43).map Prod.fst = .ok false :=
  ⟨by decide,
   Parse_incomplete noTables _ RecordType_UNKNOWN 43
     (Incomplete.badEventId (some ("host1".toList, [' '])) (some ("SYSCALL".toList, [' ']))
        "msg=avc(1.2:3)".toList " a=b".toList) (by decide) (by decide) (by decide)⟩

/-- C6, counterexample: the event id tokens `audit(00001.002:3):'` (which
does not end with `):`) and `msg='audit(00001.002:3):` (which, its `msg=`
removed, does not start with `audit(`) are accepted: `next()` removes the
trailing quote of the one and the five bytes `msg='` of the other. -/
theorem Parse_quoted_event_id_counterexample :
    isAuditBlock (dropMsg "audit(00001.002:3):'".toList) = false
      ∧ (parseLine noTables "audit(00001.002:3):' a=b").map Prod.fst = .ok true
      ∧ isAuditBlock (dropMsg "msg='audit(00001.002:3):".toList) = false
      ∧ (parseLine noTables "msg='audit(00001.002:3): a=b").map Prod.fst = .ok true := by
  decide

/-! ## C7, C8: the calls of `AddRecord` -/

theorem split_named (name value : List Char) (hn : '=' ∉ name)
    (hlen : (name ++ '=' :: value).length < npos) :
    find_first_of (name ++ '=' :: value) ['='] 0 = name.length
      ∧ substr (name ++ '=' :: value) 0 name.length = .ok name
      ∧ substr (name ++ '=' :: value) (name.length + 1) npos = .ok value := by
  have h1 : find_first_of (name ++ '=' :: value) ['='] 0 = name.length := by
    have := find_first_of_hit [] name value '=' hn
    simpa using this
  refine ⟨h1, ?_, ?_⟩
  · rw [substr_ok _ (Nat.zero_le _)]
    simp
  · rw [substr_ok _ (by simp)]
    rw [show name ++ '=' :: value = (name ++ ['=']) ++ value by simp,
      show name.length + 1 = (name ++ ['=']).length by simp, List.drop_left]
    rw [List.take_of_length_le]
    simp only [List.length_append, List.length_cons] at hlen
    omega

theorem addFieldsLoop_cons_bare (t : List Char) (fs : List (List Char)) (b : EventBuilder)
    (h : (FieldTok.bare t).wf = true) :
    addFieldsLoop (t :: fs) b = addFieldsLoop fs b := by
  simp only [FieldTok.wf, Bool.and_eq_true, Bool.not_eq_true', decide_eq_true_eq] at h
  have hn : '=' ∉ t := by
    intro hc
    have := h.1
    simp [hc] at this
  simp [addFieldsLoop, find_first_of_none t '=' 0 hn]

theorem addFieldsLoop_cons_named (name value : List Char) (fs : List (List Char))
    (b : EventBuilder) (h : (FieldTok.named name value).wf = true) :
    addFieldsLoop ((name ++ '=' :: value) :: fs) b =
      if b.reply b.calls (.AddField name value) ≠ 1 then
        .ok (some (b.reply b.calls (.AddField name value)),
          { b with calls := b.calls ++ [.AddField name value] })
      else addFieldsLoop fs { b with calls := b.calls ++ [.AddField name value] } := by
  simp only [FieldTok.wf, Bool.and_eq_true, Bool.not_eq_true', decide_eq_true_eq] at h
  have hn : '=' ∉ name := by
    intro hc
    have := h.1
    simp [hc] at this
  obtain ⟨h1, h2, h3⟩ := split_named name value hn h.2
  have hne : name.length ≠ npos := by
    have := h.2
    simp only [List.length_append, List.length_cons] at this
    omega
  rw [addFieldsLoop]
  simp only [h1, hne, if_false, h2, h3, EventBuilder.call]

/-- The loop of `AddRecord`: the calls it makes are a prefix of the expected
ones, and all of them when it runs to its end, which it does when every call
succeeds. -/
theorem addFieldsLoop_calls : ∀ (toks : List FieldTok) (b : EventBuilder),
    (∀ t ∈ toks, t.wf = true) →
    ∃ res b1 rest, addFieldsLoop (toks.map FieldTok.render) b = .ok (res, b1)
      ∧ b1.reply = b.reply ∧ b1.calls = b.calls ++ rest
      ∧ rest <+: expectedFieldCalls toks ∧ (res = none → rest = expectedFieldCalls toks)
      ∧ ((∀ cs c, b.reply cs c = 1) → res = none)
  | [], b, _ => ⟨none, b, [], by simp [addFieldsLoop], rfl, by simp, by simp [expectedFieldCalls],
      by simp [expectedFieldCalls], fun _ => rfl⟩
  | .bare t :: toks, b, h => by
    obtain ⟨res, b1, rest, h1, h2, h3, h4, h5, h6⟩ :=
      addFieldsLoop_calls toks b (fun t ht => h t (List.mem_cons_of_mem _ ht))
    refine ⟨res, b1, rest, ?_, h2, h3, ?_, ?_, h6⟩
    · rw [List.map_cons, FieldTok.render, addFieldsLoop_cons_bare t _ b (h _ (by simp))]
      exact h1
    · simpa [expectedFieldCalls] using h4
    · simpa [expectedFieldCalls] using h5
  | .named name value :: toks, b, h => by
    rw [List.map_cons, FieldTok.render, addFieldsLoop_cons_named name value _ b (h _ (by simp))]
    by_cases hr : b.reply b.calls (.AddField name value) ≠ 1
    · rw [if_pos hr]
      refine ⟨_, _, [.AddField name value], rfl, rfl, rfl, ?_, by simp, ?_⟩
      · simp [expectedFieldCalls]
      · intro hall
        exact absurd (hall _ _) hr
    · rw [if_neg hr]
      obtain ⟨res, b1, rest, h1, h2, h3, h4, h5, h6⟩ :=
        addFieldsLoop_calls toks { b with calls := b.calls ++ [.AddField name value] }
          (fun t ht => h t (List.mem_cons_of_mem _ ht))
      refine ⟨res, b1, .AddField name value :: rest, h1, h2, ?_, ?_, ?_, h6⟩
      · rw [h3]; simp
      · simp only [expectedFieldCalls, List.filterMap_cons]
        exact List.prefix_cons_inj _ |>.mpr h4
      · intro hres
        simp only [expectedFieldCalls, List.filterMap_cons]
        rw [h5 hres]
        rfl

theorem split_at_first_eq : ∀ (f : List Char), '=' ∈ f →
    ∃ name value, f = name ++ '=' :: value ∧ '=' ∉ name
  | [], h => by simp at h
  | a :: l, h => by
    by_cases ha : a = '='
    · exact ⟨[], l, by simp [ha], by simp⟩
    · have hl : '=' ∈ l := by
        rcases List.mem_cons.mp h with e | e
        · exact absurd e.symm ha
        · exact e
      obtain ⟨s, t, hst, hs⟩ := split_at_first_eq l hl
      refine ⟨a :: s, t, by simp [hst], ?_⟩
      intro hm
      rcases List.mem_cons.mp hm with e | e
      · exact ha e.symm
      · exact hs e

/-- Every list of field tokens has a description by `FieldTok`s. -/
theorem fieldToks_exist : ∀ (fields : List (List Char)), (∀ f ∈ fields, f.length < npos) →
    ∃ toks : List FieldTok, (∀ t ∈ toks, t.wf = true) ∧ fields = toks.map FieldTok.render
  | [], _ => ⟨[], by simp, rfl⟩
  | f :: fs, h => by
    obtain ⟨toks, h1, h2⟩ := fieldToks_exist fs (fun g hg => h g (List.mem_cons_of_mem _ hg))
    have hfl := h f (by simp)
    by_cases hc : '=' ∈ f
    · obtain ⟨name, value, hsplit, hn⟩ := split_at_first_eq f hc
      refine ⟨.named name value :: toks, ?_, ?_⟩
      · intro t ht
        rcases List.mem_cons.mp ht with rfl | ht
        · simp only [FieldTok.wf, Bool.and_eq_true, Bool.not_eq_true', decide_eq_true_eq]
          refine ⟨?_, by rw [← hsplit]; exact hfl⟩
          simpa using hn
        · exact h1 t ht
      · simp [FieldTok.render, hsplit, h2]
    · refine ⟨.bare f :: toks, ?_, ?_⟩
      · intro t ht
        rcases List.mem_cons.mp ht with rfl | ht
        · simp only [FieldTok.wf, Bool.and_eq_true, Bool.not_eq_true', decide_eq_true_eq]
          exact ⟨by simpa using hc, hfl⟩
        · exact h1 t ht
      · simp [FieldTok.render, h2]

theorem isEmpty_eq_true_iff (l : List Char) : l.isEmpty = true ↔ l = [] := by
  cases l <;> simp

/-- `AddRecord` once `BeginRecord` and the `node` field have succeeded. -/
theorem AddRecord_after_node (toks : List FieldTok) (b2 : EventBuilder)
    (hwf : ∀ t ∈ toks, t.wf = true) :
    ∃ ret b3 rest,
      (match addFieldsLoop (toks.map FieldTok.render) b2 with
        | .error e => (.error e : Except Fault (Int × EventBuilder))
        | .ok (some ret3, b3) => .ok (ret3, b3)
        | .ok (none, b3) => .ok (b3.call .EndRecord)) = .ok (ret, b3)
      ∧ b3.calls = b2.calls ++ rest ∧ rest <+: expectedFieldCalls toks ++ [.EndRecord]
      ∧ ((∀ cs c, b2.reply cs c = 1) →
          ret = 1 ∧ rest = expectedFieldCalls toks ++ [.EndRecord]) := by
  obtain ⟨res, b1, rest, h1, h2, h3, h4, h5, h6⟩ := addFieldsLoop_calls toks b2 hwf
  rw [h1]
  cases res with
  | some r =>
    refine ⟨r, b1, rest, rfl, h3, List.IsPrefix.trans h4 (List.prefix_append _ _), ?_⟩
    intro hall
    exact absurd (h6 hall) (by simp)
  | none =>
    refine ⟨_, _, rest ++ [.EndRecord], rfl, ?_, ?_, ?_⟩
    · simp [EventBuilder.call, h3]
    · rw [h5 rfl]
    · intro hall
      refine ⟨?_, by rw [h5 rfl]⟩
      simp only [EventBuilder.call, h2]
      exact hall _ _

/-- C7. For every parsed record on which `BeginRecord` succeeds, the calls
`AddRecord` makes after `BeginRecord` are the synthetic `node` field - present
exactly when the node value is not empty - and only then calls for the
parsed fields (a prefix of the expected ones, then `EndRecord`). -/
theorem AddRecord_node_field (self : RawEventRecord) (b : EventBuilder) (toks : List FieldTok)
    (hf : self._record_fields = toks.map FieldTok.render) (hwf : ∀ t ∈ toks, t.wf = true)
    (hbegin : b.reply b.calls self.beginCall = 1) :
    ∃ ret b1 rest, self.AddRecord b = .ok (ret, b1)
      ∧ b1.calls = b.calls ++ self.beginCall :: (syntheticNodeCalls self ++ rest)
      ∧ rest <+: expectedFieldCalls toks ++ [.EndRecord] := by
  unfold RawEventRecord.AddRecord
  simp only [EventBuilder.call, hbegin, ne_eq, not_true_eq_false, if_false]
  by_cases hn : self._node = []
  · have he : self._node.isEmpty = true := (isEmpty_eq_true_iff _).mpr hn
    simp only [he, not_true_eq_false, if_false, syntheticNodeCalls, hn, if_true, List.nil_append]
    rw [hf]
    obtain ⟨ret, b3, rest, h1, h2, h3, _⟩ := AddRecord_after_node toks
      { b with calls := b.calls ++ [self.beginCall] } hwf
    refine ⟨ret, b3, rest, h1, ?_, h3⟩
    rw [h2]
    simp
  · have he : ¬ self._node.isEmpty = true := fun h => hn ((isEmpty_eq_true_iff _).mp h)
    simp only [he, Bool.false_eq_true, not_false_eq_true, if_true, syntheticNodeCalls, hn,
      if_false]
    by_cases hr : b.reply (b.calls ++ [self.beginCall]) (.AddField NODE_NAME self._node) = 1
    · simp only [hr, not_true_eq_false, if_false]
      rw [hf]
      obtain ⟨ret, b3, rest, h1, h2, h3, _⟩ := AddRecord_after_node toks
        { b with calls := b.calls ++ [self.beginCall] ++ [.AddField NODE_NAME self._node] } hwf
      refine ⟨ret, b3, rest, h1, ?_, h3⟩
      rw [h2]
      simp
    · simp only [hr, not_false_eq_true, if_true]
      exact ⟨_, _, [], rfl, by simp, List.nil_prefix⟩

/-- C8. For every parsed record whose builder calls all succeed, `AddRecord`
returns 1 and, between `BeginRecord` (with the `node` field, if any) and
`EndRecord`, adds one field per field token that contains `'='`, in token
order, with the bytes before the first `'='` as name and all bytes after it
as value, and nothing for a token without `'='`. -/
theorem AddRecord_fields (self : RawEventRecord) (b : EventBuilder) (toks : List FieldTok)
    (hf : self._record_fields = toks.map FieldTok.render) (hwf : ∀ t ∈ toks, t.wf = true)
    (hall : b.allSucceed) :
    ∃ b1, self.AddRecord b = .ok (1, b1)
      ∧ b1.calls = b.calls ++ self.beginCall ::
          (syntheticNodeCalls self ++ expectedFieldCalls toks ++ [.EndRecord]) := by
  unfold RawEventRecord.AddRecord
  simp only [EventBuilder.call, hall _ _, ne_eq, not_true_eq_false, if_false]
  by_cases hn : self._node = []
  · have he : self._node.isEmpty = true := (isEmpty_eq_true_iff _).mpr hn
    simp only [he, not_true_eq_false, if_false, syntheticNodeCalls, hn, if_true, List.nil_append]
    rw [hf]
    obtain ⟨ret, b3, rest, h1, h2, _, h4⟩ := AddRecord_after_node toks
      { b with calls := b.calls ++ [self.beginCall] } hwf
    obtain ⟨rfl, rfl⟩ := h4 hall
    refine ⟨b3, h1, ?_⟩
    rw [h2]
    simp
  · have he : ¬ self._node.isEmpty = true := fun h => hn ((isEmpty_eq_true_iff _).mp h)
    simp only [he, Bool.false_eq_true, not_false_eq_true, if_true, syntheticNodeCalls, hn,
      if_false, hall _ _, not_true_eq_false]
    rw [hf]
    obtain ⟨ret, b3, rest, h1, h2, _, h4⟩ := AddRecord_after_node toks
      { b with calls := b.calls ++ [self.beginCall] ++ [.AddField NODE_NAME self._node] } hwf
    obtain ⟨rfl, rfl⟩ := h4 hall
    refine ⟨b3, h1, ?_⟩
    rw [h2]
    simp

/-- C7, witness: the record of the specification's line, whose node is
`host1`. -/
theorem AddRecord_node_field_witness :
    okBuilder.reply okBuilder.calls specLineParsed.beginCall = 1
      ∧ ∃ ret b1 rest, specLineParsed.AddRecord okBuilder = .ok (ret, b1)
        ∧ b1.calls = okBuilder.calls ++ specLineParsed.beginCall ::
            (syntheticNodeCalls specLineParsed ++ rest)
        ∧ rest <+: expectedFieldCalls
            [.named "arch".toList "c000003e".toList, .named "syscall".toList "59".toList,
             .named "a0".toList "7ffd".toList] ++ [.EndRecord] :=
  ⟨rfl, AddRecord_node_field specLineParsed okBuilder
    [.named "arch".toList "c000003e".toList, .named "syscall".toList "59".toList,
     .named "a0".toList "7ffd".toList] (by decide) (by decide) rfl⟩

/-- C8, witness: a record with the tokens `bare`, `a=` and `k=v=w`. -/
theorem AddRecord_fields_witness :
    okBuilder.allSucceed
      ∧ ∃ b1, mixedRecord.AddRecord okBuilder = .ok (1, b1)
        ∧ b1.calls = okBuilder.calls ++ mixedRecord.beginCall ::
            (syntheticNodeCalls mixedRecord
              ++ expectedFieldCalls [.bare "bare".toList, .named "a".toList [],
                  .named "k".toList "v=w".toList]
              ++ [.EndRecord]) :=
  ⟨fun _ _ => rfl, AddRecord_fields mixedRecord okBuilder
    [.bare "bare".toList, .named "a".toList [], .named "k".toList "v=w".toList]
    (by decide) (by decide) (fun _ _ => rfl)⟩

/-! ## C9, C10: the wire frames of `RawEventReader` -/

theorem storeLE_succ (w v : Nat) : storeLE (w + 1) v = v % 256 :: storeLE w (v / 256) := by
  unfold storeLE
  rw [List.range_succ_eq_map, List.map_cons, List.map_map]
  congr 1
  · simp
  · apply List.map_congr_left
    intro i _
    simp only [Function.comp_apply, Nat.pow_succ, Nat.succ_eq_add_one]
    rw [Nat.mul_comm, Nat.div_div_eq_div_mul]

theorem storeLE_length (w v : Nat) : (storeLE w v).length = w := by
  simp [storeLE]

theorem loadLE_storeLE : ∀ (w v : Nat), loadLE (storeLE w v) = v % 256 ^ w
  | 0, v => by simp [storeLE, loadLE, Nat.mod_one]
  | w + 1, v => by
    rw [storeLE_succ]
    show v % 256 + 256 * loadLE (storeLE w (v / 256)) = v % 256 ^ (w + 1)
    rw [loadLE_storeLE w (v / 256), Nat.pow_succ, Nat.mul_comm (256 ^ w) 256, Nat.mod_mul]

theorem writeAt_left (A X D : List Nat) :
    writeAt (A ++ X) A.length D = A ++ D ++ (A ++ X).drop (A.length + D.length) := by
  simp [writeAt]

/-- The three stores of `WriteAck` fill the first 20 bytes of the array. -/
theorem ack_bytes (ack S M R : List Nat) (hS : S.length = 8) (hM : M.length = 4)
    (hR : R.length = 8) :
    (writeAt (writeAt (writeAt ack 0 S) 8 M) 12 R).take (8 + 4 + 8) = S ++ M ++ R := by
  obtain ⟨T1, e1⟩ : ∃ T1, writeAt ack 0 S = S ++ T1 := ⟨_, by
    have := writeAt_left [] ack S
    simpa using this⟩
  obtain ⟨T2, e2⟩ : ∃ T2, writeAt (S ++ T1) 8 M = S ++ M ++ T2 := ⟨_, by
    have := writeAt_left S T1 M
    rw [hS] at this
    exact this⟩
  obtain ⟨T3, e3⟩ : ∃ T3, writeAt (S ++ M ++ T2) 12 R = S ++ M ++ R ++ T3 := ⟨_, by
    have := writeAt_left (S ++ M) T2 R
    rw [List.length_append, hS, hM] at this
    exact this⟩
  rw [e1, e2, e3]
  have := List.take_left (S ++ M ++ R) T3
  simp only [List.length_append, hS, hM, hR] at this
  exact this

/-- C9. For every EventId (seconds and serial below `2^64`, milliseconds
below `2^32`), both `WriteAck` overloads hand the writer one block of exactly
20 bytes - the same for an `Event` and for its `EventId` - which decoded as a
little-endian u64 at offset 0, u32 at offset 8 and u64 at offset 12 give back
seconds, milliseconds and serial. -/
theorem WriteAck_roundtrip (ack_data : List Nat) (sec msec ser : Nat) (writer : IWriter)
    (hsec : sec < 2 ^ 64) (hmsec : msec < 2 ^ 32) (hser : ser < 2 ^ 64) :
    ∃ bytes,
      (WriteAck_EventId ack_data ⟨sec, msec, ser⟩ writer).2.written = writer.written ++ [bytes]
      ∧ (WriteAck_Event ack_data ⟨sec, msec, ser⟩ writer).2.written = writer.written ++ [bytes]
      ∧ bytes.length = 20
      ∧ loadLE (bytes.take 8) = sec
      ∧ loadLE ((bytes.drop 8).take 4) = msec
      ∧ loadLE ((bytes.drop 12).take 8) = ser := by
  have hb := ack_bytes ack_data (storeLE 8 sec) (storeLE 4 msec) (storeLE 8 ser)
    (storeLE_length _ _) (storeLE_length _ _) (storeLE_length _ _)
  refine ⟨storeLE 8 sec ++ storeLE 4 msec ++ storeLE 8 ser, ?_, ?_, ?_, ?_, ?_, ?_⟩
  · simp only [WriteAck_EventId, IWriter.WriteAll, hb]
  · simp only [WriteAck_Event, IWriter.WriteAll, hb]
  · simp [storeLE_length]
  · have : (storeLE 8 sec ++ storeLE 4 msec ++ storeLE 8 ser).take 8 = storeLE 8 sec := by
      have := List.take_left (storeLE 8 sec) (storeLE 4 msec ++ storeLE 8 ser)
      rw [storeLE_length] at this
      simpa [List.append_assoc] using this
    rw [this, loadLE_storeLE]
    exact Nat.mod_eq_of_lt (by simpa using hsec)
  · have : ((storeLE 8 sec ++ storeLE 4 msec ++ storeLE 8 ser).drop 8).take 4 = storeLE 4 msec := by
      have h1 := List.drop_left (storeLE 8 sec) (storeLE 4 msec ++ storeLE 8 ser)
      rw [storeLE_length] at h1
      rw [List.append_assoc, h1]
      have h2 := List.take_left (storeLE 4 msec) (storeLE 8 ser)
      rw [storeLE_length] at h2
      exact h2
    rw [this, loadLE_storeLE]
    exact Nat.mod_eq_of_lt (by simpa using hmsec)
  · have : ((storeLE 8 sec ++ storeLE 4 msec ++ storeLE 8 ser).drop 12).take 8 = storeLE 8 ser := by
      have h1 := List.drop_left (storeLE 8 sec ++ storeLE 4 msec) (storeLE 8 ser)
      rw [List.length_append, storeLE_length, storeLE_length] at h1
      rw [h1]
      apply List.take_of_length_le
      rw [storeLE_length]
    rw [this, loadLE_storeLE]
    exact Nat.mod_eq_of_lt (by simpa using hser)

/-- C10. For every buffer size `buf_size >= 4` and every header value `n`
with `4 <= n <= buf_size`: if the header read succeeds and delivers `n` as
four little-endian bytes, and the payload read (of `n - 4` bytes) succeeds,
then `ReadEvent` returns `n`, asked for `n - 4` payload bytes, and leaves in
the buffer the four little-endian bytes of `n` followed by the payload, `n`
bytes in all, the buffer keeping its size. -/
theorem ReadEvent_frame {σ : Type} (io : IOCodes) (rd : IReader σ) (buf : List Nat)
    (buf_size n : Nat) (s s1 s2 : σ) (payload : List Nat)
    (hbuf : buf.length = buf_size) (h4 : 4 ≤ n) (hnb : n ≤ buf_size) (hn32 : n < 2 ^ 32)
    (hhdr : rd.ReadAll s 4 = (io.OK, storeLE 4 n, s1))
    (hpay : rd.ReadAll s1 (n - 4) = (io.OK, payload, s2)) (hpl : payload.length = n - 4) :
    (ReadEvent io rd buf buf_size s).ret = n
      ∧ (ReadEvent io rd buf buf_size s).payload_request = some (n - 4)
      ∧ (ReadEvent io rd buf buf_size s).buf.take n = storeLE 4 n ++ payload
      ∧ (ReadEvent io rd buf buf_size s).buf.length = buf_size := by
  have hsz : loadLE (storeLE 4 n) % 2 ^ 32 = n := by
    rw [loadLE_storeLE]
    have : n % 256 ^ 4 = n := Nat.mod_eq_of_lt (by simpa using hn32)
    rw [this]
    exact Nat.mod_eq_of_lt hn32
  have hreq : size_sub n 4 = n - 4 := by
    unfold size_sub
    omega
  have hlt : ¬ buf_size < 4 := by omega
  have hle : ¬ n > buf_size := by omega
  unfold ReadEvent
  simp only [hlt, if_false, hhdr, ne_eq, not_true_eq_false, hsz, hle, hreq, hpay]
  obtain ⟨T1, e1⟩ : ∃ T1, writeAt buf 0 (storeLE 4 n) = storeLE 4 n ++ T1
      ∧ T1.length = buf_size - 4 := ⟨_, by
    have := writeAt_left [] buf (storeLE 4 n)
    simpa using this, by simp [storeLE_length, hbuf]⟩
  obtain ⟨e1, hT1⟩ := e1
  have e2 : writeAt (storeLE 4 n ++ T1) 4 payload
      = storeLE 4 n ++ payload ++ (storeLE 4 n ++ T1).drop (4 + payload.length) := by
    have := writeAt_left (storeLE 4 n) T1 payload
    rw [storeLE_length] at this
    exact this
  rw [e1, e2]
  have hn4 : 4 + (n - 4) = n := by omega
  refine ⟨trivial, trivial, ?_, ?_⟩
  · have := List.take_left (storeLE 4 n ++ payload)
      ((storeLE 4 n ++ T1).drop (4 + payload.length))
    rw [List.length_append, storeLE_length, hpl, hn4] at this
    rw [hpl, hn4]
    exact this
  · simp only [List.length_append, storeLE_length, List.length_drop, hpl, hT1]
    omega

/-- C9, witness: the EventId `(1700000001, 123, 42)`. -/
theorem WriteAck_roundtrip_witness :
    1700000001 < 2 ^ 64 ∧ 123 < 2 ^ 32 ∧ 42 < 2 ^ 64
      ∧ ∃ bytes,
        (WriteAck_EventId (List.replicate 20 0) ⟨1700000001, 123, 42⟩ okWriter).2.written
            = okWriter.written ++ [bytes]
        ∧ (WriteAck_Event (List.replicate 20 0) ⟨1700000001, 123, 42⟩ okWriter).2.written
            = okWriter.written ++ [bytes]
        ∧ bytes.length = 20
        ∧ loadLE (bytes.take 8) = 1700000001
        ∧ loadLE ((bytes.drop 8).take 4) = 123
        ∧ loadLE ((bytes.drop 12).take 8) = 42 :=
  ⟨by decide, by decide, by decide,
   WriteAck_roundtrip (List.replicate 20 0) 1700000001 123 42 okWriter
     (by decide) (by decide) (by decide)⟩

/-- C10, witness: a message of 6 bytes read into a buffer of 8. -/
theorem ReadEvent_frame_witness :
    (ReadEvent sampleIO (listReader sampleIO) (List.replicate 8 0) 8 [6, 0, 0, 0, 170, 187]).ret = 6
      ∧ (ReadEvent sampleIO (listReader sampleIO) (List.replicate 8 0) 8
          [6, 0, 0, 0, 170, 187]).payload_request = some (6 - 4)
      ∧ (ReadEvent sampleIO (listReader sampleIO) (List.replicate 8 0) 8
          [6, 0, 0, 0, 170, 187]).buf.take 6 = storeLE 4 6 ++ [170, 187]
      ∧ (ReadEvent sampleIO (listReader sampleIO) (List.replicate 8 0) 8
          [6, 0, 0, 0, 170, 187]).buf.length = 8 :=
  ReadEvent_frame sampleIO (listReader sampleIO) (List.replicate 8 0) 8 6
    [6, 0, 0, 0, 170, 187] [170, 187] [] [170, 187]
    (by decide) (by decide) (by decide) (by decide) (by decide) (by decide) (by decide)

/-! ## C11 - C13, C15: the netlink collector -/

theorem revertEnabled_extends (env : AuditEnv) (enabled enables : Nat)
    (events : List NetlinkEvent) : events <+: revertEnabled env enabled enables events := by
  unfold revertEnabled
  split
  · exact List.prefix_append _ _
  · exact List.prefix_refl _

theorem mem_revertEnabled (env : AuditEnv) (enabled enables : Nat)
    (events : List NetlinkEvent) (e : NetlinkEvent) :
    e ∈ revertEnabled env enabled enables events ↔
      e ∈ events ∨ (enabled = 0 ∧ e = .AuditSetEnabled 1 (env.setEnabled enables)) := by
  unfold revertEnabled
  split
  · rename_i h
    simp [h]
  · rename_i h
    simp [h]

/-- The claim loop only adds to what was sent. -/
theorem claimLoop_extends (env : AuditEnv) : ∀ (fuel rc gets : Nat) (events : List NetlinkEvent),
    events <+: (claimLoop env fuel rc gets events).events
  | 0, _, _, events => by simp [claimLoop]
  | fuel + 1, rc, gets, events => by
    have h0 : events <+: (if rc > 5 then events ++ [NetlinkEvent.MaxRetriesLogged] else events) := by
      split
      · exact List.prefix_append _ _
      · exact List.prefix_refl _
    unfold claimLoop
    simp only
    split
    · split
      · exact h0.trans (by simp [List.append_assoc])
      · split
        · exact List.IsPrefix.trans (h0.trans (by simp [List.append_assoc]))
            (claimLoop_extends env fuel (rc + 1) (gets + 1) _)
        · exact h0.trans (by simp [List.append_assoc])
    · split
      · exact h0.trans (List.prefix_append _ _)
      · exact h0.trans (List.prefix_append _ _)

/-- The running loop only adds to what was sent. -/
theorem runLoop_extends (env : AuditEnv) (enabled enables : Nat) :
    ∀ (fuel round gets : Nat) (events : List NetlinkEvent),
    events <+: (runLoop env enabled enables fuel round gets events).events
  | 0, _, _, events => by simp [runLoop]
  | fuel + 1, round, gets, events => by
    unfold runLoop
    simp only
    split
    · exact revertEnabled_extends _ _ _ _
    · split
      · exact revertEnabled_extends _ _ _ _
      · split
        · exact List.prefix_refl _
        · split
          · split
            · exact (List.prefix_append _ _).trans (revertEnabled_extends _ _ _ _)
            · split
              · split
                · exact (List.prefix_append _ _).trans (revertEnabled_extends _ _ _ _)
                · exact (List.prefix_append _ _).trans (revertEnabled_extends _ _ _ _)
              · exact (List.prefix_append _ _).trans (runLoop_extends env enabled enables fuel _ _ _)
          · exact runLoop_extends env enabled enables fuel _ _ _

/-- The claim loop asks no periodic query. -/
theorem claimLoop_no_periodic (env : AuditEnv) (r : Int) (p : Nat) :
    ∀ (fuel rc gets : Nat) (events : List NetlinkEvent),
    NetlinkEvent.AuditGetPid true r p ∉ events →
    NetlinkEvent.AuditGetPid true r p ∉ (claimLoop env fuel rc gets events).events
  | 0, _, _, events, h => by simpa [claimLoop] using h
  | fuel + 1, rc, gets, events, h => by
    have h0 : NetlinkEvent.AuditGetPid true r p ∉
        (if rc > 5 then events ++ [NetlinkEvent.MaxRetriesLogged] else events) := by
      split <;> simp [h]
    unfold claimLoop
    simp only
    split
    · split
      · simp [h0]
      · split
        · exact claimLoop_no_periodic env r p fuel _ _ _ (by simp [h0])
        · simp [h0]
    · split <;> simp [h0]

/-- In the running loop: it returns true exactly when a periodic query has
succeeded and reported pid 0. -/
theorem runLoop_true_iff (env : AuditEnv) (enabled enables : Nat) (hpid : env.our_pid ≠ 0) :
    ∀ (fuel round gets : Nat) (events : List NetlinkEvent),
    NetlinkEvent.AuditGetPid true 0 0 ∉ events →
    ((runLoop env enabled enables fuel round gets events).outcome = some (.returned true) ↔
      NetlinkEvent.AuditGetPid true 0 0 ∈
        (runLoop env enabled enables fuel round gets events).events)
  | 0, _, _, events, h => by simp [runLoop, h]
  | fuel + 1, round, gets, events, h => by
    unfold runLoop
    simp only
    split
    · simp [mem_revertEnabled, h]
    · split
      · simp [mem_revertEnabled, h]
      · split
        · simp [h]
        · split
          · split
            · rename_i hr
              simp only [mem_revertEnabled, List.mem_append, List.mem_singleton, h, false_or,
                NetlinkEvent.AuditGetPid.injEq, true_and, reduceCtorEq, and_false, or_false]
              constructor
              · intro hh; simp at hh
              · rintro ⟨h1, _⟩; exact absurd h1.symm hr
            · split
              · split
                · rename_i hp
                  simp only [mem_revertEnabled, List.mem_append, List.mem_singleton, h, false_or,
                    NetlinkEvent.AuditGetPid.injEq, true_and, reduceCtorEq, and_false, or_false]
                  constructor
                  · intro hh; simp at hh
                  · rintro ⟨_, h2⟩; exact absurd h2.symm hp
                · rename_i hr _ hp
                  have hr0 : (env.getPid gets).1 = 0 := by simpa using hr
                  have hp0 : (env.getPid gets).2 = 0 := by simpa using hp
                  simp [mem_revertEnabled, hr0, hp0]
              · rename_i hp
                have hp0 : (env.getPid gets).2 = env.our_pid := by simpa using hp
                exact runLoop_true_iff env enabled enables hpid fuel _ _ _
                  (by
                    simp only [List.mem_append, List.mem_singleton, h, false_or,
                      NetlinkEvent.AuditGetPid.injEq, true_and, hp0]
                    rintro ⟨_, h2⟩
                    exact hpid h2.symm)
          · exact runLoop_true_iff env enabled enables hpid fuel _ _ _ h

/-- `DoNetlinkCollection` returns true exactly when a periodic audit-pid
query has succeeded and reported pid 0. -/
theorem DoNetlinkCollection_true_iff (env : AuditEnv) (fuel : Nat) (hpid : env.our_pid ≠ 0) :
    (DoNetlinkCollection env fuel).outcome = some (.returned true) ↔
      NetlinkEvent.AuditGetPid true 0 0 ∈ (DoNetlinkCollection env fuel).events := by
  unfold DoNetlinkCollection
  split
  · simp
  · simp only
    split
    · simp
    · split
      · simp
      · have hc := claimLoop_no_periodic env 0 0 fuel 0 0
          [NetlinkEvent.AuditGet env.status_ret env.status_pid env.status_enabled] (by simp)
        split
        · rename_i ev1 g heq
          rw [heq] at hc
          simpa using hc
        · rename_i ev1 g heq
          rw [heq] at hc
          simpa using hc
        · rename_i ev1 g heq
          rw [heq] at hc
          simp only at hc
          split
          · split
            · simp [hc]
            · exact runLoop_true_iff env _ _ hpid fuel 0 g _ (by simp [hc])
          · exact runLoop_true_iff env _ _ hpid fuel 0 g _ hc

/-- More fuel does not change a claim loop that has been left. -/
theorem claimLoop_fuel (env : AuditEnv) : ∀ (fuel rc gets : Nat) (events : List NetlinkEvent),
    (claimLoop env fuel rc gets events).status ≠ .running →
    claimLoop env (fuel + 1) rc gets events = claimLoop env fuel rc gets events
  | 0, _, _, _, h => by simp [claimLoop] at h
  | fuel + 1, rc, gets, events, h => by
    by_cases ht : env.setPid rc = -ETIMEDOUT
    · by_cases hr : (env.getPid gets).1 = 0
      · by_cases hp : (env.getPid gets).2 = env.our_pid
        · simp [claimLoop, ht, hr, hp]
        · rw [claimLoop] at h
          simp only [ht, hr, hp, if_true, ne_eq, not_true_eq_false, not_false_eq_true,
            if_false] at h
          have ih := claimLoop_fuel env fuel (rc + 1) (gets + 1) _ h
          rw [claimLoop]
          simp only [ht, hr, hp, if_true, ne_eq, not_true_eq_false, not_false_eq_true, if_false]
          rw [ih]
          conv_rhs => rw [claimLoop]
          simp only [ht, hr, hp, if_true, ne_eq, not_true_eq_false, not_false_eq_true, if_false]
      · simp [claimLoop, ht, hr]
    · simp [claimLoop, ht]

/-- More fuel does not change a running loop that has been left. -/
theorem runLoop_fuel (env : AuditEnv) (enabled enables : Nat) :
    ∀ (fuel round gets : Nat) (events : List NetlinkEvent),
    (runLoop env enabled enables fuel round gets events).outcome ≠ none →
    runLoop env enabled enables (fuel + 1) round gets events
      = runLoop env enabled enables fuel round gets events
  | 0, _, _, _, h => by simp [runLoop] at h
  | fuel + 1, round, gets, events, h => by
    by_cases h1 : env.isExit round = true
    · simp [runLoop, h1]
    by_cases h2 : env.gateOpen round = true
    · simp [runLoop, h1, h2]
    by_cases h3 : env.flushThrows round = true
    · simp [runLoop, h1, h2, h3]
    by_cases h4 : env.pidCheckDue round = true
    · by_cases h5 : (env.getPid gets).1 = 0
      · by_cases h6 : (env.getPid gets).2 = env.our_pid
        · rw [runLoop] at h
          simp only [h1, h2, h3, h4, h5, h6, if_true, ne_eq, not_true_eq_false, if_false,
            Bool.false_eq_true] at h
          have ih := runLoop_fuel env enabled enables fuel (round + 1) (gets + 1) _ h
          rw [runLoop]
          simp only [h1, h2, h3, h4, h5, h6, if_true, ne_eq, not_true_eq_false, if_false,
            Bool.false_eq_true]
          rw [ih]
          conv_rhs => rw [runLoop]
          simp only [h1, h2, h3, h4, h5, h6, if_true, ne_eq, not_true_eq_false, if_false,
            Bool.false_eq_true]
        · simp [runLoop, h1, h2, h3, h4, h5, h6]
      · simp [runLoop, h1, h2, h3, h4, h5]
    · rw [runLoop] at h
      simp only [h1, h2, h3, h4, if_false, Bool.false_eq_true] at h
      have ih := runLoop_fuel env enabled enables fuel (round + 1) gets events h
      rw [runLoop]
      simp only [h1, h2, h3, h4, if_false, Bool.false_eq_true]
      rw [ih]
      conv_rhs => rw [runLoop]
      simp only [h1, h2, h3, h4, if_false, Bool.false_eq_true]

/-- A call of `DoNetlinkCollection` that has ended within `fuel` rounds is
the same with more fuel. -/
theorem DoNetlinkCollection_fuel (env : AuditEnv) (fuel : Nat)
    (h : (DoNetlinkCollection env fuel).outcome ≠ none) :
    DoNetlinkCollection env (fuel + 1) = DoNetlinkCollection env fuel := by
  unfold DoNetlinkCollection at h ⊢
  split
  · rfl
  · rename_i h1
    simp only [h1, if_false] at h ⊢
    split
    · rfl
    · rename_i h2
      simp only [h2, if_false] at h
      split
      · rfl
      · rename_i h3
        simp only [h3, if_false] at h
        have hc : (claimLoop env fuel 0 0
            [NetlinkEvent.AuditGet env.status_ret env.status_pid env.status_enabled]).status
              ≠ .running := by
          intro hs
          revert h
          generalize claimLoop env fuel 0 0 _ = c at hs
          obtain ⟨st, ev, g⟩ := c
          simp only at hs
          subst hs
          simp
        rw [claimLoop_fuel env fuel 0 0 _ hc]
        revert h
        generalize claimLoop env fuel 0 0 _ = c
        obtain ⟨st, ev, g⟩ := c
        cases st with
        | running => simp
        | failed => simp
        | proceed =>
          simp only
          split
          · split
            · simp
            · intro h
              exact runLoop_fuel env _ _ fuel _ _ _ h
          · intro h
            exact runLoop_fuel env _ _ fuel _ _ _ h

theorem setPidCount_append (a b : List NetlinkEvent) :
    setPidCount (a ++ b) = setPidCount a + setPidCount b := by
  simp [setPidCount]

/-- Everything the running loop adds is a periodic query or the revert. -/
theorem runLoop_added (env : AuditEnv) (enabled enables : Nat) :
    ∀ (fuel round gets : Nat) (events : List NetlinkEvent),
    ∃ t, (runLoop env enabled enables fuel round gets events).events = events ++ t
      ∧ ∀ e ∈ t, (∃ r p, e = .AuditGetPid true r p)
          ∨ e = .AuditSetEnabled 1 (env.setEnabled enables)
  | 0, _, _, events => ⟨[], by simp [runLoop], by simp⟩
  | fuel + 1, round, gets, events => by
    have hrev : ∀ ev : List NetlinkEvent, ∃ t, revertEnabled env enabled enables ev = ev ++ t
        ∧ ∀ e ∈ t, (∃ r p, e = NetlinkEvent.AuditGetPid true r p)
          ∨ e = .AuditSetEnabled 1 (env.setEnabled enables) := by
      intro ev
      unfold revertEnabled
      split
      · exact ⟨[_], rfl, by simp⟩
      · exact ⟨[], by simp, by simp⟩
    have hrev1 : ∀ (ev : List NetlinkEvent) (r : Int) (p : Nat),
        ∃ t, revertEnabled env enabled enables (ev ++ [.AuditGetPid true r p]) = ev ++ t
        ∧ ∀ e ∈ t, (∃ r p, e = NetlinkEvent.AuditGetPid true r p)
          ∨ e = .AuditSetEnabled 1 (env.setEnabled enables) := by
      intro ev r p
      obtain ⟨t, h1, h2⟩ := hrev (ev ++ [.AuditGetPid true r p])
      refine ⟨.AuditGetPid true r p :: t, by simp [h1], ?_⟩
      intro e he
      rcases List.mem_cons.mp he with rfl | he
      · exact Or.inl ⟨_, _, rfl⟩
      · exact h2 e he
    unfold runLoop
    simp only
    split
    · exact hrev _
    · split
      · exact hrev _
      · split
        · exact ⟨[], by simp, by simp⟩
        · split
          · split
            · exact hrev1 _ _ _
            · split
              · split
                · exact hrev1 _ _ _
                · exact hrev1 _ _ _
              · obtain ⟨t, h1, h2⟩ := runLoop_added env enabled enables fuel (round + 1)
                  (gets + 1) (events ++ [.AuditGetPid true (env.getPid gets).1 (env.getPid gets).2])
                refine ⟨.AuditGetPid true (env.getPid gets).1 (env.getPid gets).2 :: t,
                  by rw [h1]; simp, ?_⟩
                intro e he
                rcases List.mem_cons.mp he with rfl | he
                · exact Or.inl ⟨_, _, rfl⟩
                · exact h2 e he
          · exact runLoop_added env enabled enables fuel _ _ _

theorem setPidCount_runLoop (env : AuditEnv) (enabled enables fuel round gets : Nat)
    (events : List NetlinkEvent) :
    setPidCount (runLoop env enabled enables fuel round gets events).events
      = setPidCount events := by
  obtain ⟨t, h1, h2⟩ := runLoop_added env enabled enables fuel round gets events
  rw [h1, setPidCount_append]
  have : setPidCount t = 0 := by
    unfold setPidCount
    rw [List.length_eq_zero, List.filter_eq_nil_iff]
    intro e he
    rcases h2 e he with ⟨r, p, rfl⟩ | rfl <;> simp
  omega

/-- C15 (defect in the code). With a kernel whose `AuditSetPid` reply is
always lost and which always reports another pid, the pid claim loop never
ends: after `n` rounds, for every `n`, the call is still in the loop and has
sent `AuditSetPid` `n` times. The error "Max retried exceeded" is logged
from the seventh round on, and the loop goes on. -/
theorem claimLoop_unbounded (n : Nat) :
    (DoNetlinkCollection stuckEnv n).outcome = none
      ∧ setPidCount (DoNetlinkCollection stuckEnv n).events = n
      ∧ NetlinkEvent.MaxRetriesLogged ∈ (DoNetlinkCollection stuckEnv 7).events := by
  have key : ∀ (n rc gets : Nat) (events : List NetlinkEvent),
      (claimLoop stuckEnv n rc gets events).status = .running
        ∧ setPidCount (claimLoop stuckEnv n rc gets events).events = setPidCount events + n := by
    intro n
    induction n with
    | zero => intro rc gets events; simp [claimLoop]
    | succ n ih =>
      intro rc gets events
      have hs : stuckEnv.setPid rc = -ETIMEDOUT := rfl
      have hg : stuckEnv.getPid gets = (0, 4242) := rfl
      have ho : stuckEnv.our_pid = 4711 := rfl
      rw [claimLoop]
      simp only [hs, hg, ho, if_true, ne_eq, not_true_eq_false, if_false]
      have hne : ¬ (4242 : Nat) = 4711 := by decide
      simp only [hne, not_false_eq_true, if_true]
      obtain ⟨h1, h2⟩ := ih (rc + 1) (gets + 1)
        ((if rc > 5 then events ++ [NetlinkEvent.MaxRetriesLogged] else events) ++
          [NetlinkEvent.AuditSetPid 4711 (-ETIMEDOUT)] ++ [NetlinkEvent.AuditGetPid false 0 4242])
      refine ⟨h1, ?_⟩
      rw [h2]
      split <;> simp [setPidCount_append, setPidCount] <;> omega
  obtain ⟨h1, h2⟩ := key n 0 0 [NetlinkEvent.AuditGet 0 0 0]
  refine ⟨?_, ?_, by decide⟩
  · show (DoNetlinkCollection stuckEnv n).outcome = none
    unfold DoNetlinkCollection
    have e1 : stuckEnv.open_ret = 0 := rfl
    have e2 : stuckEnv.status_ret = 0 := rfl
    have e3 : stuckEnv.status_pid = 0 := rfl
    have e4 : stuckEnv.status_enabled = 0 := rfl
    simp only [e1, e2, e3, e4, ne_eq, not_true_eq_false, if_false, false_and]
    revert h1
    generalize claimLoop stuckEnv n 0 0 [NetlinkEvent.AuditGet 0 0 0] = c
    intro h1
    obtain ⟨st, ev, g⟩ := c
    simp only at h1
    subst h1
    rfl
  · unfold DoNetlinkCollection
    have e1 : stuckEnv.open_ret = 0 := rfl
    have e2 : stuckEnv.status_ret = 0 := rfl
    have e3 : stuckEnv.status_pid = 0 := rfl
    have e4 : stuckEnv.status_enabled = 0 := rfl
    simp only [e1, e2, e3, e4, ne_eq, not_true_eq_false, if_false, false_and]
    revert h1 h2
    generalize claimLoop stuckEnv n 0 0 [NetlinkEvent.AuditGet 0 0 0] = c
    intro h1 h2
    obtain ⟨st, ev, g⟩ := c
    simp only at h1 h2
    subst h1
    simp only [h2]
    simp [setPidCount]

/-- C11 (defect in the code). With auditing disabled at the start and the
exit signal seen at once, the collector enables auditing and, on leaving,
the deferred `_revert_enabled` sends `enabled = 1` again: the values sent
are `[1, 1]`, the previous value 0 is never sent. -/
theorem revert_sends_enabled_one :
    (DoNetlinkCollection calmEnv 1).outcome = some (.returned false)
      ∧ enabledSent (DoNetlinkCollection calmEnv 1).events = [1, 1] := by
  decide

/-- C12, counterexample: the first `AuditSetPid` times out and the query
reports the pid 4242 of another process; the collector sends `AuditSetPid`
again, enables auditing, and in the end returns true, not false. -/
theorem claimLoop_retry_counterexample :
    DoNetlinkCollection contendedEnv 5 =
      ⟨some (.returned true),
       [.AuditGet 0 0 0, .AuditSetPid 4711 (-ETIMEDOUT), .AuditGetPid false 0 4242,
        .AuditSetPid 4711 0, .AuditSetEnabled 1 0, .AuditGetPid true 0 0,
        .AuditSetEnabled 1 0]⟩ := by
  decide

theorem claimLoop_first (env : AuditEnv) (fuel rc gets : Nat) (events : List NetlinkEvent)
    (hrc : rc ≤ 5) :
    events ++ [.AuditSetPid env.our_pid (env.setPid rc)]
      <+: (claimLoop env (fuel + 1) rc gets events).events := by
  have h5 : ¬ rc > 5 := by omega
  rw [claimLoop]
  simp only [h5, if_false]
  split
  · split
    · exact List.prefix_append _ _
    · split
      · exact (List.prefix_append _ _).trans (claimLoop_extends env fuel _ _ _)
      · exact List.prefix_append _ _
  · split <;> exact List.prefix_refl _

/-- What the whole call sent begins with what the claim loop sent. -/
theorem DoNetlinkCollection_extends_claim (env : AuditEnv) (fuel : Nat)
    (h0 : env.open_ret = 0) (h1 : env.status_ret = 0)
    (h2 : ¬ (env.status_pid ≠ 0 ∧ env.pathExists env.status_pid = true)) :
    (claimLoop env fuel 0 0 [.AuditGet env.status_ret env.status_pid env.status_enabled]).events
      <+: (DoNetlinkCollection env fuel).events
    ∧ setPidCount (DoNetlinkCollection env fuel).events
      = setPidCount (claimLoop env fuel 0 0
          [.AuditGet env.status_ret env.status_pid env.status_enabled]).events := by
  unfold DoNetlinkCollection
  simp only [h0, h1, h2, ne_eq, not_true_eq_false, if_false]
  generalize claimLoop env fuel 0 0 [NetlinkEvent.AuditGet 0 env.status_pid env.status_enabled] = c
  obtain ⟨st, ev, g⟩ := c
  cases st with
  | running => exact ⟨List.prefix_refl _, rfl⟩
  | failed => exact ⟨List.prefix_refl _, rfl⟩
  | proceed =>
    simp only
    split
    · split
      · exact ⟨List.prefix_append _ _, by simp [setPidCount_append, setPidCount]⟩
      · exact ⟨(List.prefix_append _ _).trans (runLoop_extends _ _ _ _ _ _ _), by
          rw [setPidCount_runLoop]; simp [setPidCount_append, setPidCount]⟩
    · exact ⟨runLoop_extends _ _ _ _ _ _ _, setPidCount_runLoop _ _ _ _ _ _ _⟩

/-! ## C12: after a timed out `AuditSetPid` -/

theorem setPidCount_timedOutRounds (env : AuditEnv) : ∀ (n k : Nat),
    setPidCount (timedOutRounds env n k) = n
  | 0, _ => rfl
  | n + 1, k => by
    have ih := setPidCount_timedOutRounds env n (k + 1)
    simp only [timedOutRounds, setPidCount, List.filter_cons, if_true, List.length_cons,
      Bool.false_eq_true, if_false] at ih ⊢
    omega

/-- The claim loop through `n` rounds, none later than the sixth, in each of
which `AuditSetPid` timed out and the query reported another pid. -/
theorem claimLoop_timedOut (env : AuditEnv) : ∀ (n k f : Nat) (events : List NetlinkEvent),
    k + n ≤ 6 →
    (∀ j, k ≤ j → j < k + n →
      env.setPid j = -ETIMEDOUT ∧ (env.getPid j).1 = 0 ∧ (env.getPid j).2 ≠ env.our_pid) →
    claimLoop env (f + n) k k events
      = claimLoop env f (k + n) (k + n) (events ++ timedOutRounds env n k)
  | 0, k, f, events, _, _ => by simp [timedOutRounds]
  | n + 1, k, f, events, hk, h => by
    obtain ⟨h1, h2, h3⟩ := h k (Nat.le_refl _) (by omega)
    have h5 : ¬ k > 5 := by omega
    rw [show f + (n + 1) = (f + n) + 1 from rfl, claimLoop]
    simp only [h5, if_false, h1, h2, h3, if_true, ne_eq, not_true_eq_false, not_false_eq_true]
    rw [claimLoop_timedOut env n (k + 1) f _ (by omega)
      (fun j hj1 hj2 => h j (by omega) (by omega))]
    simp only [timedOutRounds, List.append_assoc, List.singleton_append, List.cons_append,
      List.nil_append]
    rw [show k + 1 + n = k + (n + 1) by omega]

/-- C12 (amended). When an `AuditSetPid(self)`, one of the first six, returns
`ETIMEDOUT` - every earlier one having timed out with the query after it
reporting another pid - and the query that follows succeeds: if the reply is
the collector's own pid, it proceeds to enabling (the next request, with
auditing disabled, is `AuditSetEnabled(1)`) and no further `AuditSetPid` is
sent; if the reply is any other pid and this was not the sixth
`AuditSetPid`, the collector does not stop: its next request is
`AuditSetPid(self)` again. -/
theorem claim_after_timeout (env : AuditEnv) (fuel r : Nat)
    (h0 : env.open_ret = 0) (h1 : env.status_ret = 0)
    (h2 : ¬ (env.status_pid ≠ 0 ∧ env.pathExists env.status_pid = true))
    (hr : r ≤ 5)
    (hprev : ∀ j < r,
      env.setPid j = -ETIMEDOUT ∧ (env.getPid j).1 = 0 ∧ (env.getPid j).2 ≠ env.our_pid)
    (h3 : env.setPid r = -ETIMEDOUT) (h4 : (env.getPid r).1 = 0) :
    ((env.getPid r).2 = env.our_pid →
      setPidCount (DoNetlinkCollection env (fuel + 1 + r)).events = r + 1
      ∧ (env.status_enabled = 0 →
          .AuditGet env.status_ret env.status_pid env.status_enabled
            :: (timedOutRounds env r 0
              ++ [.AuditSetPid env.our_pid (-ETIMEDOUT), .AuditGetPid false 0 env.our_pid,
                  .AuditSetEnabled 1 (env.setEnabled 0)])
            <+: (DoNetlinkCollection env (fuel + 1 + r)).events))
    ∧ ((env.getPid r).2 ≠ env.our_pid → r < 5 →
        .AuditGet env.status_ret env.status_pid env.status_enabled
          :: (timedOutRounds env r 0
            ++ [.AuditSetPid env.our_pid (-ETIMEDOUT), .AuditGetPid false 0 (env.getPid r).2,
                .AuditSetPid env.our_pid (env.setPid (r + 1))])
          <+: (DoNetlinkCollection env (fuel + 2 + r)).events) := by
  have h5 : ¬ r > 5 := by omega
  have hrounds : ∀ f, claimLoop env (f + r) 0 0
      [.AuditGet env.status_ret env.status_pid env.status_enabled]
      = claimLoop env f r r
        ([.AuditGet env.status_ret env.status_pid env.status_enabled]
          ++ timedOutRounds env r 0) := by
    intro f
    have := claimLoop_timedOut env r 0 f
      [.AuditGet env.status_ret env.status_pid env.status_enabled] (by omega)
      (fun j _ hj => hprev j (by omega))
    simpa using this
  constructor
  · intro hp
    have hc : claimLoop env (fuel + 1 + r) 0 0
        [.AuditGet env.status_ret env.status_pid env.status_enabled]
        = ⟨.proceed, .AuditGet env.status_ret env.status_pid env.status_enabled
            :: (timedOutRounds env r 0
              ++ [.AuditSetPid env.our_pid (-ETIMEDOUT), .AuditGetPid false 0 env.our_pid]),
            r + 1⟩ := by
      rw [hrounds, claimLoop]
      simp [h5, h3, h4, hp]
    constructor
    · rw [(DoNetlinkCollection_extends_claim env (fuel + 1 + r) h0 h1 h2).2, hc]
      simp only [setPidCount_append, setPidCount_timedOutRounds,
        show ∀ l, setPidCount (NetlinkEvent.AuditGet env.status_ret env.status_pid
          env.status_enabled :: l) = setPidCount l from fun l => rfl]
      simp [setPidCount]
    · intro he
      unfold DoNetlinkCollection
      simp only [h0, h1, h2, ne_eq, not_true_eq_false, if_false]
      rw [h1] at hc
      rw [hc]
      simp only [he, if_true]
      split
      · simp
      · refine List.IsPrefix.trans ?_ (runLoop_extends _ _ _ _ _ _ _)
        simp
  · intro hp hr4
    have hc : claimLoop env (fuel + 2 + r) 0 0
        [.AuditGet env.status_ret env.status_pid env.status_enabled]
        = claimLoop env (fuel + 1) (r + 1) (r + 1)
          (.AuditGet env.status_ret env.status_pid env.status_enabled
            :: (timedOutRounds env r 0
              ++ [.AuditSetPid env.our_pid (-ETIMEDOUT),
                  .AuditGetPid false 0 (env.getPid r).2])) := by
      rw [hrounds, claimLoop]
      simp [h5, h3, h4, hp]
    have hf := claimLoop_first env fuel (r + 1) (r + 1)
      (.AuditGet env.status_ret env.status_pid env.status_enabled
        :: (timedOutRounds env r 0
          ++ [.AuditSetPid env.our_pid (-ETIMEDOUT),
              .AuditGetPid false 0 (env.getPid r).2]))
      (by omega)
    rw [← hc] at hf
    refine List.IsPrefix.trans ?_
      (hf.trans (DoNetlinkCollection_extends_claim env (fuel + 2 + r) h0 h1 h2).1)
    simp

/-- C12, witness: the kernel of `thirdTimeEnv`. The second `AuditSetPid`
times out and the query reports another pid: a third one is sent. The third
times out and the query reports the collector's own pid: enabling follows
and three `AuditSetPid` have been sent in all. -/
theorem claim_after_timeout_witness :
    (setPidCount (DoNetlinkCollection thirdTimeEnv (0 + 1 + 2)).events = 2 + 1
      ∧ (thirdTimeEnv.status_enabled = 0 →
          .AuditGet thirdTimeEnv.status_ret thirdTimeEnv.status_pid thirdTimeEnv.status_enabled
            :: (timedOutRounds thirdTimeEnv 2 0
              ++ [.AuditSetPid thirdTimeEnv.our_pid (-ETIMEDOUT),
                  .AuditGetPid false 0 thirdTimeEnv.our_pid,
                  .AuditSetEnabled 1 (thirdTimeEnv.setEnabled 0)])
            <+: (DoNetlinkCollection thirdTimeEnv (0 + 1 + 2)).events))
    ∧ .AuditGet thirdTimeEnv.status_ret thirdTimeEnv.status_pid thirdTimeEnv.status_enabled
          :: (timedOutRounds thirdTimeEnv 1 0
            ++ [.AuditSetPid thirdTimeEnv.our_pid (-ETIMEDOUT),
                .AuditGetPid false 0 (thirdTimeEnv.getPid 1).2,
                .AuditSetPid thirdTimeEnv.our_pid (thirdTimeEnv.setPid (1 + 1))])
          <+: (DoNetlinkCollection thirdTimeEnv (0 + 2 + 1)).events :=
  ⟨(claim_after_timeout thirdTimeEnv 0 2 rfl rfl (by decide) (by decide) (by decide)
      rfl rfl).1 rfl,
   (claim_after_timeout thirdTimeEnv 0 1 rfl rfl (by decide) (by decide) (by decide)
      rfl rfl).2 (by decide) (by decide)⟩

/-! ## C13: the ways out of `DoNetlinkCollection` -/

/-- No netlink answer in the list is one on which the collector gives up. -/
theorem clean_append {our : Nat} {a b : List NetlinkEvent}
    (ha : ∀ e ∈ a, e.isFailure = false ∧ e.isTakeover our = false)
    (hb : ∀ e ∈ b, e.isFailure = false ∧ e.isTakeover our = false) :
    ∀ e ∈ a ++ b, e.isFailure = false ∧ e.isTakeover our = false := by
  intro e he
  rcases List.mem_append.mp he with h | h
  · exact ha e h
  · exact hb e h

theorem clean_revertEnabled (env : AuditEnv) (enabled enables : Nat)
    {events : List NetlinkEvent}
    (h : ∀ e ∈ events, e.isFailure = false ∧ e.isTakeover env.our_pid = false) :
    ∀ e ∈ revertEnabled env enabled enables events,
      e.isFailure = false ∧ e.isTakeover env.our_pid = false := by
  intro e he
  rcases (mem_revertEnabled env enabled enables events e).mp he with h1 | ⟨_, rfl⟩
  · exact h e h1
  · exact ⟨rfl, rfl⟩

/-- The claim loop either ends in `return false` or has met no answer on
which the collector gives up. -/
theorem claimLoop_clean (env : AuditEnv) : ∀ (fuel rc gets : Nat) (events : List NetlinkEvent),
    (∀ e ∈ events, e.isFailure = false ∧ e.isTakeover env.our_pid = false) →
    (claimLoop env fuel rc gets events).status = .failed
      ∨ ∀ e ∈ (claimLoop env fuel rc gets events).events,
          e.isFailure = false ∧ e.isTakeover env.our_pid = false
  | 0, _, _, events, h => Or.inr (by simpa [claimLoop] using h)
  | fuel + 1, rc, gets, events, h => by
    have h0 : ∀ e ∈ (if rc > 5 then events ++ [NetlinkEvent.MaxRetriesLogged] else events),
        e.isFailure = false ∧ e.isTakeover env.our_pid = false := by
      split
      · exact clean_append h (by simp [NetlinkEvent.isFailure, NetlinkEvent.isTakeover])
      · exact h
    unfold claimLoop
    simp only
    by_cases ht : env.setPid rc = -ETIMEDOUT
    · simp only [ht, if_true]
      by_cases hr : (env.getPid gets).1 = 0
      · have h1 : ∀ e ∈ (if rc > 5 then events ++ [NetlinkEvent.MaxRetriesLogged] else events)
            ++ [NetlinkEvent.AuditSetPid env.our_pid (-ETIMEDOUT)]
            ++ [NetlinkEvent.AuditGetPid false (env.getPid gets).1 (env.getPid gets).2],
            e.isFailure = false ∧ e.isTakeover env.our_pid = false := by
          apply clean_append (clean_append h0 _)
          · simp [NetlinkEvent.isFailure, NetlinkEvent.isTakeover, hr]
          · simp [NetlinkEvent.isFailure, NetlinkEvent.isTakeover]
        simp only [hr, ne_eq, not_true_eq_false, if_false]
        by_cases hp : (env.getPid gets).2 = env.our_pid
        · simp only [hp, not_true_eq_false, if_false]
          right
          simpa [hr, hp] using h1
        · simp only [hp, not_false_eq_true, if_true]
          have := claimLoop_clean env fuel (rc + 1) (gets + 1) _ h1
          simpa [hr] using this
      · simp only [hr, ne_eq, not_false_eq_true, if_true]
        left
        trivial
    · simp only [ht, if_false]
      by_cases hz : env.setPid rc = 0
      · simp only [hz, ne_eq, not_true_eq_false, if_false]
        right
        apply clean_append h0
        simp [NetlinkEvent.isFailure, NetlinkEvent.isTakeover]
      · simp only [hz, ne_eq, not_false_eq_true, if_true]
        left
        trivial

/-- In the running loop, an answer on which the collector gives up is
followed by `return false`. -/
theorem runLoop_bad (env : AuditEnv) (enabled enables : Nat) :
    ∀ (fuel round gets : Nat) (events : List NetlinkEvent),
    (∀ e ∈ events, e.isFailure = false ∧ e.isTakeover env.our_pid = false) →
    ∀ e ∈ (runLoop env enabled enables fuel round gets events).events,
      (e.isFailure = true ∨ e.isTakeover env.our_pid = true) →
      (runLoop env enabled enables fuel round gets events).outcome = some (.returned false)
  | 0, _, _, events, h => by
    intro e he hb
    have := h e (by simpa [runLoop] using he)
    rcases hb with hb | hb <;> simp [this] at hb
  | fuel + 1, round, gets, events, h => by
    unfold runLoop
    simp only
    by_cases h1 : env.isExit round = true
    · simp only [h1, if_true]
      intro _ _ _
      trivial
    · simp only [h1, Bool.false_eq_true, if_false]
      by_cases h2 : env.gateOpen round = true
      · simp only [h2, if_true]
        intro _ _ _
        trivial
      · simp only [h2, Bool.false_eq_true, if_false]
        by_cases h3 : env.flushThrows round = true
        · simp only [h3, if_true]
          intro e he hb
          have := h e he
          rcases hb with hb | hb <;> simp [this] at hb
        · simp only [h3, Bool.false_eq_true, if_false]
          by_cases h4 : env.pidCheckDue round = true
          · simp only [h4, if_true]
            by_cases hr : (env.getPid gets).1 = 0
            · simp only [hr, ne_eq, not_true_eq_false, if_false]
              by_cases hp : (env.getPid gets).2 = env.our_pid
              · simp only [hp, not_true_eq_false, if_false]
                have := runLoop_bad env enabled enables fuel (round + 1) (gets + 1)
                  (events ++ [NetlinkEvent.AuditGetPid true 0 env.our_pid])
                  (clean_append h (by simp [NetlinkEvent.isFailure, NetlinkEvent.isTakeover]))
                exact this
              · simp only [hp, not_false_eq_true, if_true]
                by_cases hz : (env.getPid gets).2 = 0
                · simp only [hz, not_true_eq_false, if_false]
                  intro e he hb
                  have hcl := clean_revertEnabled env enabled enables
                    (clean_append h (b := [NetlinkEvent.AuditGetPid true 0 0])
                      (by simp [NetlinkEvent.isFailure, NetlinkEvent.isTakeover])) e he
                  rcases hb with hb | hb <;> simp [hcl] at hb
                · simp only [hz, not_false_eq_true, if_true]
                  intro _ _ _
                  trivial
            · simp only [hr, ne_eq, not_false_eq_true, if_true]
              intro _ _ _
              trivial
          · simp only [h4, Bool.false_eq_true, if_false]
            exact runLoop_bad env enabled enables fuel (round + 1) gets events h

/-- How the running loop ends does not depend on what has been sent before. -/
theorem runLoop_outcome_events (env : AuditEnv) (enabled enables : Nat) :
    ∀ (fuel round gets : Nat) (ev1 ev2 : List NetlinkEvent),
    (runLoop env enabled enables fuel round gets ev1).outcome
      = (runLoop env enabled enables fuel round gets ev2).outcome
  | 0, _, _, _, _ => rfl
  | fuel + 1, round, gets, ev1, ev2 => by
    unfold runLoop
    simp only
    by_cases h1 : env.isExit round = true
    · simp only [h1, if_true]
    · simp only [h1, Bool.false_eq_true, if_false]
      by_cases h2 : env.gateOpen round = true
      · simp only [h2, if_true]
      · simp only [h2, Bool.false_eq_true, if_false]
        by_cases h3 : env.flushThrows round = true
        · simp only [h3, if_true]
        · simp only [h3, Bool.false_eq_true, if_false]
          by_cases h4 : env.pidCheckDue round = true
          · simp only [h4, if_true]
            by_cases hr : (env.getPid gets).1 = 0
            · simp only [hr, ne_eq, not_true_eq_false, if_false]
              by_cases hp : (env.getPid gets).2 = env.our_pid
              · simp only [hp, not_true_eq_false, if_false]
                exact runLoop_outcome_events env enabled enables fuel _ _ _ _
              · simp only [hp, not_false_eq_true, if_true]
                split <;> rfl
            · simp only [hr, ne_eq, not_false_eq_true, if_true]
          · simp only [h4, Bool.false_eq_true, if_false]
            exact runLoop_outcome_events env enabled enables fuel _ _ _ _

/-- The running loop through `n` rounds that it passes without leaving. -/
theorem runLoop_pass (env : AuditEnv) (enabled enables : Nat) :
    ∀ (n f round gets g : Nat) (events : List NetlinkEvent),
    passRounds env n round gets = some g →
    (runLoop env enabled enables (f + n) round gets events).outcome
      = (runLoop env enabled enables f (round + n) g events).outcome
  | 0, f, round, gets, g, events, h => by
    simp only [passRounds, Option.some.injEq] at h
    subst h
    rfl
  | n + 1, f, round, gets, g, events, h => by
    unfold passRounds at h
    by_cases hq : env.isExit round = true ∨ env.gateOpen round = true
        ∨ env.flushThrows round = true
    · simp [hq] at h
    · simp only [hq, if_false] at h
      have h1 : env.isExit round = false := by
        cases hx : env.isExit round <;> simp [hx] at hq ⊢
      have h2 : env.gateOpen round = false := by
        cases hx : env.gateOpen round <;> simp [hx] at hq ⊢
      have h3 : env.flushThrows round = false := by
        cases hx : env.flushThrows round <;> simp [hx] at hq ⊢
      rw [show f + (n + 1) = (f + n) + 1 from rfl, runLoop]
      simp only [h1, h2, h3, Bool.false_eq_true, if_false]
      by_cases h4 : env.pidCheckDue round = true
      · simp only [h4, if_true] at h ⊢
        by_cases hc : (env.getPid gets).1 = 0 ∧ (env.getPid gets).2 = env.our_pid
        · simp only [hc, and_self, if_true] at h
          simp only [hc.1, hc.2, ne_eq, not_true_eq_false, if_false]
          rw [runLoop_pass env enabled enables n f (round + 1) (gets + 1) g _ h]
          rw [show round + 1 + n = round + (n + 1) by omega]
          exact runLoop_outcome_events env enabled enables f _ _ _ _
        · simp [hc] at h
      · simp only [h4, Bool.false_eq_true, if_false] at h ⊢
        rw [runLoop_pass env enabled enables n f (round + 1) gets g _ h]
        rw [show round + 1 + n = round + (n + 1) by omega]

/-- In `DoNetlinkCollection`, an answer on which the collector gives up is
followed by `return false`. -/
theorem DoNetlinkCollection_bad (env : AuditEnv) (fuel : Nat) :
    ∀ e ∈ (DoNetlinkCollection env fuel).events,
      (e.isFailure = true ∨ e.isTakeover env.our_pid = true) →
      (DoNetlinkCollection env fuel).outcome = some (.returned false) := by
  unfold DoNetlinkCollection
  by_cases h0 : env.open_ret = 0
  · simp only [h0, ne_eq, not_true_eq_false, if_false]
    by_cases h1 : env.status_ret = 0
    · simp only [h1, not_true_eq_false, if_false]
      by_cases h2 : env.status_pid ≠ 0 ∧ env.pathExists env.status_pid = true
      · simp only [h2, and_self, if_true]
        intro _ _ _
        trivial
      · simp only [h2, if_false]
        have hinit : ∀ e ∈ [NetlinkEvent.AuditGet 0 env.status_pid env.status_enabled],
            e.isFailure = false ∧ e.isTakeover env.our_pid = false := by
          simp [NetlinkEvent.isFailure, NetlinkEvent.isTakeover]
        have hc := claimLoop_clean env fuel 0 0 _ hinit
        revert hc
        generalize claimLoop env fuel 0 0
          [NetlinkEvent.AuditGet 0 env.status_pid env.status_enabled] = c
        intro hc
        obtain ⟨st, ev, g⟩ := c
        cases st with
        | failed =>
          intro _ _ _
          trivial
        | running =>
          simp only [reduceCtorEq, false_or] at hc
          intro e he hb
          have := hc e he
          rcases hb with hb | hb <;> simp [this] at hb
        | proceed =>
          simp only [reduceCtorEq, false_or] at hc
          simp only
          by_cases he : env.status_enabled = 0
          · simp only [he, if_true]
            by_cases hs : env.setEnabled 0 = 0
            · simp only [hs, ne_eq, not_true_eq_false, if_false]
              exact runLoop_bad env 0 1 fuel 0 g _
                (clean_append hc (by simp [NetlinkEvent.isFailure, NetlinkEvent.isTakeover]))
            · simp only [hs, ne_eq, not_false_eq_true, if_true]
              intro _ _ _
              trivial
          · simp only [he, if_false]
            exact runLoop_bad env env.status_enabled 0 fuel 0 g _ hc
    · simp only [h1, not_false_eq_true, if_true]
      intro _ _ _
      trivial
  · simp only [h0, ne_eq, not_false_eq_true, if_true]
    intro _ _ _
    trivial

/-- Once the start-up is through, `DoNetlinkCollection` ends as the running
loop ends. -/
theorem DoNetlinkCollection_entered (env : AuditEnv) (fuel g0 : Nat)
    (h : runEntry env fuel = some g0) :
    ∃ enables events, (DoNetlinkCollection env fuel).outcome
      = (runLoop env env.status_enabled enables fuel 0 g0 events).outcome := by
  unfold runEntry at h
  by_cases hq : env.open_ret ≠ 0 ∨ env.status_ret ≠ 0
      ∨ (env.status_pid ≠ 0 ∧ env.pathExists env.status_pid = true)
  · simp [hq] at h
  · simp only [hq, if_false] at h
    have h0 : env.open_ret = 0 := by
      by_contra hx
      exact hq (Or.inl hx)
    have h1 : env.status_ret = 0 := by
      by_contra hx
      exact hq (Or.inr (Or.inl hx))
    have h2 : ¬ (env.status_pid ≠ 0 ∧ env.pathExists env.status_pid = true) :=
      fun hx => hq (Or.inr (Or.inr hx))
    unfold DoNetlinkCollection
    simp only [h0, h1, h2, ne_eq, not_true_eq_false, if_false]
    rw [h1] at h
    revert h
    generalize claimLoop env fuel 0 0
      [NetlinkEvent.AuditGet 0 env.status_pid env.status_enabled] = c
    intro h
    obtain ⟨st, ev, g⟩ := c
    simp only at h
    by_cases hc : st = ClaimStatus.proceed ∧ (env.status_enabled = 0 → env.setEnabled 0 = 0)
    · rw [if_pos hc] at h
      simp only [Option.some.injEq] at h
      obtain ⟨hst, hen⟩ := hc
      subst hst
      subst h
      simp only
      by_cases he : env.status_enabled = 0
      · simp only [he, if_true, hen he, ne_eq, not_true_eq_false, if_false]
        exact ⟨1, _, rfl⟩
      · simp only [he, if_false]
        exact ⟨0, _, rfl⟩
    · simp [hc] at h

/-- C13. `DoNetlinkCollection` returns true exactly when a periodic audit-pid
query has succeeded and reported pid 0, and each of the other ways out of it
is `return false`: a connection that does not open; a live pid holding the
audit pid at start-up; any failed netlink answer (a failed `AuditGet`, an
`AuditSetPid` that fails otherwise than by timing out, a failed `AuditGetPid`,
a failed enabling); a periodic query that reports the pid of another
process; and, in whatever round of the running loop it comes, the exit
signal or the open stop gate. A flush that throws ends in `exit(1)`, which
is no return. -/
theorem DoNetlinkCollection_exits (env : AuditEnv) (fuel : Nat) (hpid : env.our_pid ≠ 0) :
    ((DoNetlinkCollection env fuel).outcome = some (.returned true) ↔
      NetlinkEvent.AuditGetPid true 0 0 ∈ (DoNetlinkCollection env fuel).events)
    ∧ (env.open_ret ≠ 0 → (DoNetlinkCollection env fuel).outcome = some (.returned false))
    ∧ (env.open_ret = 0 → env.status_ret = 0 → env.status_pid ≠ 0 →
        env.pathExists env.status_pid = true →
        (DoNetlinkCollection env fuel).outcome = some (.returned false))
    ∧ (∀ e ∈ (DoNetlinkCollection env fuel).events, e.isFailure = true →
        (DoNetlinkCollection env fuel).outcome = some (.returned false))
    ∧ (env.open_ret = 0 → env.status_ret = 0 →
        ¬ (env.status_pid ≠ 0 ∧ env.pathExists env.status_pid = true) →
        (claimLoop env fuel 0 0
          [.AuditGet env.status_ret env.status_pid env.status_enabled]).status = .proceed →
        env.status_enabled = 0 → env.setEnabled 0 ≠ 0 →
        (DoNetlinkCollection env fuel).outcome = some (.returned false))
    ∧ (∀ e ∈ (DoNetlinkCollection env fuel).events, e.isTakeover env.our_pid = true →
        (DoNetlinkCollection env fuel).outcome = some (.returned false))
    ∧ (∀ n f g0 g, fuel = f + 1 + n → runEntry env fuel = some g0 →
        passRounds env n 0 g0 = some g →
        ((env.isExit n = true ∨ env.gateOpen n = true) →
          (DoNetlinkCollection env fuel).outcome = some (.returned false))
        ∧ (env.isExit n = false → env.gateOpen n = false → env.flushThrows n = true →
          (DoNetlinkCollection env fuel).outcome = some (.exited 1))) := by
  refine ⟨DoNetlinkCollection_true_iff env fuel hpid, ?_, ?_,
    fun e he hf => DoNetlinkCollection_bad env fuel e he (Or.inl hf), ?_,
    fun e he hf => DoNetlinkCollection_bad env fuel e he (Or.inr hf), ?_⟩
  · intro h
    simp [DoNetlinkCollection, h]
  · intro h0 h1 h2 h3
    simp [DoNetlinkCollection, h0, h1, h2, h3]
  · intro h0 h1 h2 hc he hs
    unfold DoNetlinkCollection
    simp only [h0, h1, h2, ne_eq, not_true_eq_false, if_false]
    rw [h1] at hc
    revert hc
    generalize claimLoop env fuel 0 0
      [NetlinkEvent.AuditGet 0 env.status_pid env.status_enabled] = c
    intro hc
    obtain ⟨st, ev, g⟩ := c
    simp only at hc
    subst hc
    simp [he, hs]
  · intro n f g0 g hfuel hentry hpass
    obtain ⟨enables, events, hout⟩ := DoNetlinkCollection_entered env fuel g0 hentry
    rw [hout, hfuel, runLoop_pass env _ _ n (f + 1) 0 g0 g events hpass, Nat.zero_add, runLoop]
    constructor
    · rintro (h | h)
      · simp [h]
      · by_cases hx : env.isExit n = true
        · simp [hx]
        · simp [hx, h]
    · intro h1 h2 h3
      simp [h1, h2, h3]

/-- C13, witness: the run of `contendedEnv`, whose first periodic query
reports pid 0, returns true; the run of `lateExitEnv`, which passes two
rounds and sees the exit signal in the third, returns false. -/
theorem DoNetlinkCollection_exits_witness :
    contendedEnv.our_pid ≠ 0
      ∧ ((DoNetlinkCollection contendedEnv 5).outcome = some (.returned true) ↔
          NetlinkEvent.AuditGetPid true 0 0 ∈ (DoNetlinkCollection contendedEnv 5).events)
      ∧ (DoNetlinkCollection lateExitEnv 3).outcome = some (.returned false) :=
  ⟨by decide, (DoNetlinkCollection_exits contendedEnv 5 (by decide)).1,
    ((DoNetlinkCollection_exits lateExitEnv 3 (by decide)).2.2.2.2.2.2
      2 0 0 1 rfl (by decide) (by decide)).1 (Or.inl rfl)⟩

/-! ## C14: the netlink handler -/

/-- The type filter of the handler. For a `REPLACE` message and for every
type below `AUDIT_FIRST_USER_MSG` the handler neither parses nor accumulates
and returns false; whenever it returns, it returns false, it has parsed
exactly when the type is at least `AUDIT_FIRST_USER_MSG` and not `REPLACE`,
and it has passed to the accumulator at most the record parsed; for such a
type it returns false whatever `Parse` returned, having passed the record on
exactly when `Parse` returned true. -/
theorem netlinkHandler_filter (lt : LookupTables) (k : AuditConsts) (stray : Char)
    (accumulator : List RawEventRecord) (type flags : Nat) (data : List Char) (len : Nat) :
    ((type < k.AUDIT_FIRST_USER_MSG ∨ type = to_uint16 k.REPLACE) →
      netlinkHandler lt k stray accumulator type flags data len
        = .ok ⟨false, none, accumulator⟩)
    ∧ (∀ res, netlinkHandler lt k stray accumulator type flags data len = .ok res →
        res.ret = false
        ∧ (res.parsed.isSome = true ↔
            (type ≥ k.AUDIT_FIRST_USER_MSG ∧ type ≠ to_uint16 k.REPLACE))
        ∧ (res.accumulator ≠ accumulator →
            (type ≥ k.AUDIT_FIRST_USER_MSG ∧ type ≠ to_uint16 k.REPLACE)))
    ∧ ((type ≥ k.AUDIT_FIRST_USER_MSG ∧ type ≠ to_uint16 k.REPLACE) →
        ∀ b record, (RawEventRecord.ofData (data.take len)).ParseWith
            (RecordFieldIterator.nextRun stray) lt type len = .ok (b, record) →
          netlinkHandler lt k stray accumulator type flags data len
            = .ok ⟨false, some b, if b then accumulator ++ [record] else accumulator⟩) := by
  refine ⟨?_, ?_, ?_⟩
  · intro h
    have : ¬ (type ≥ k.AUDIT_FIRST_USER_MSG ∧ type ≠ to_uint16 k.REPLACE) := by
      rintro ⟨h1, h2⟩
      rcases h with h | h
      · omega
      · exact h2 h
    simp [netlinkHandler, this]
  · intro res hres
    unfold netlinkHandler at hres
    split at hres
    · rename_i hc
      split at hres
      · simp at hres
      · simp only [Except.ok.injEq] at hres
        subst hres
        simp [hc]
      · simp only [Except.ok.injEq] at hres
        subst hres
        simp [hc]
    · rename_i hc
      simp only [Except.ok.injEq] at hres
      subst hres
      simp [hc]
  · intro hc b record hp
    unfold netlinkHandler
    rw [if_pos hc, hp]
    cases b <;> simp

/-! ## `Parse` with the read of `back()` made -/

theorem collectFieldsWith_next : ∀ (fuel : Nat) (itr : RecordFieldIterator)
    (fields : List (List Char)),
    collectFieldsWith RecordFieldIterator.next fuel itr fields = collectFields fuel itr fields
  | 0, _, _ => rfl
  | fuel + 1, itr, fields => by
    unfold collectFieldsWith collectFields
    cases h : itr.next with
    | error e => rfl
    | ok p =>
      obtain ⟨b, itr1⟩ := p
      cases b with
      | false => rfl
      | true => exact collectFieldsWith_next fuel itr1 _

/-- With `RecordFieldIterator.next` for `nx`, `ParseWith` is `Parse`. -/
theorem ParseWith_next (lt : LookupTables) (self : RawEventRecord) (record_type size : Nat) :
    self.ParseWith RecordFieldIterator.next lt record_type size
      = self.Parse lt record_type size := by
  have h1 : ∀ (r : RawEventRecord) itr s,
      r.parseIdFieldsWith RecordFieldIterator.next itr s = r.parseIdFields itr s := by
    intro r itr s
    unfold RawEventRecord.parseIdFieldsWith RawEventRecord.parseIdFields
    simp only [collectFieldsWith_next]
  have h2 : ∀ (r : RawEventRecord) itr,
      r.parseEventIdWith RecordFieldIterator.next itr = r.parseEventId itr := by
    intro r itr
    unfold RawEventRecord.parseEventIdWith RawEventRecord.parseEventId
    simp only [h1]
  have h3 : ∀ pre itr, takePrefixedWith RecordFieldIterator.next pre itr = takePrefixed pre itr :=
    fun _ _ => rfl
  unfold RawEventRecord.ParseWith RawEventRecord.Parse
  simp only [h2, h3]

theorem back_error_iff {v : List Char} {e : Fault} (h : back v = .error e) : v = [] := by
  unfold back at h
  cases hv : v.getLast? with
  | some c => simp [hv] at h
  | none => exact List.getLast?_eq_none_iff.mp hv

/-- The byte found in front of an empty token does not matter: the token
stays empty. -/
theorem nextAuxRun_stray (s1 s2 : Char) : ∀ (fuel : Nat) (it : RecordFieldIterator),
    RecordFieldIterator.nextAuxRun s1 fuel it = RecordFieldIterator.nextAuxRun s2 fuel it
  | 0, _ => rfl
  | fuel + 1, it => by
    unfold RecordFieldIterator.nextAuxRun
    by_cases hc : it._idx = npos ∨ it._idx ≥ it._str.length
    · simp only [hc, if_true]
    · simp only [hc, if_false]
      generalize substr it._str it._idx _ = sv
      cases sv with
      | error e => rfl
      | ok val =>
        simp only
        generalize substr val 0 5 = sp
        cases sp with
        | error e => rfl
        | ok pre =>
          simp only
          by_cases hm : pre = MSG_QUOTE
          · simp only [hm, if_true]
            exact nextAuxRun_stray s1 s2 fuel _
          · simp only [hm, if_false]
            cases hb : back val with
            | ok b => rfl
            | error e =>
              have hv : val = [] := back_error_iff hb
              subst hv
              have hs : substr [] 0 (size_sub ([] : List Char).length 1)
                  = (.ok [] : Except Fault (List Char)) := by
                simp [substr]
              simp only [hs, ite_self]

theorem nextRun_stray (s1 s2 : Char) :
    RecordFieldIterator.nextRun s1 = RecordFieldIterator.nextRun s2 := by
  funext it
  exact nextAuxRun_stray s1 s2 _ it

/-- Where `next()` makes no read in front of an empty token, the run of it
with that read is `next()`. -/
theorem nextAuxRun_eq (stray : Char) : ∀ (fuel : Nat) (it : RecordFieldIterator),
    RecordFieldIterator.nextAux fuel it ≠ .error .oob_read →
    RecordFieldIterator.nextAuxRun stray fuel it = RecordFieldIterator.nextAux fuel it
  | 0, _, _ => rfl
  | fuel + 1, it, h => by
    unfold RecordFieldIterator.nextAux at h ⊢
    unfold RecordFieldIterator.nextAuxRun
    by_cases hc : it._idx = npos ∨ it._idx ≥ it._str.length
    · simp only [hc, if_true]
    · simp only [hc, if_false] at h ⊢
      revert h
      generalize substr it._str it._idx _ = sv
      intro h
      cases sv with
      | error e => rfl
      | ok val =>
        simp only at h ⊢
        revert h
        generalize substr val 0 5 = sp
        intro h
        cases sp with
        | error e => rfl
        | ok pre =>
          simp only at h ⊢
          by_cases hm : pre = MSG_QUOTE
          · simp only [hm, if_true] at h ⊢
            exact nextAuxRun_eq stray fuel _ h
          · simp only [hm, if_false] at h ⊢
            cases hb : back val with
            | ok b => rfl
            | error e =>
              exfalso
              apply h
              rw [hb]
              unfold back at hb
              cases hv : val.getLast? with
              | some c => simp [hv] at hb
              | none =>
                simp only [hv, Except.error.injEq] at hb
                rw [hb]

theorem nextRun_eq (stray : Char) (it : RecordFieldIterator)
    (h : it.next ≠ .error .oob_read) : it.nextRun stray = it.next :=
  nextAuxRun_eq stray _ it h

theorem collectFieldsWith_eq (nx : RecordFieldIterator → Except Fault (Bool × RecordFieldIterator))
    (hnx : ∀ it : RecordFieldIterator, it.next ≠ .error .oob_read → nx it = it.next) :
    ∀ (fuel : Nat) (itr : RecordFieldIterator) (fields : List (List Char)),
    collectFields fuel itr fields ≠ .error .oob_read →
    collectFieldsWith nx fuel itr fields = collectFields fuel itr fields
  | 0, _, _, _ => rfl
  | fuel + 1, itr, fields, h => by
    unfold collectFields at h ⊢
    unfold collectFieldsWith
    have hn : itr.next ≠ .error .oob_read := by
      intro hc
      apply h
      rw [hc]
    rw [hnx itr hn]
    cases hi : itr.next with
    | error e => rfl
    | ok p =>
      obtain ⟨b, itr1⟩ := p
      cases b with
      | false => rfl
      | true =>
        simp only [hi] at h ⊢
        exact collectFieldsWith_eq nx hnx fuel itr1 _ h

theorem parseIdFieldsWith_eq (nx : RecordFieldIterator → Except Fault (Bool × RecordFieldIterator))
    (hnx : ∀ it : RecordFieldIterator, it.next ≠ .error .oob_read → nx it = it.next)
    (r : RawEventRecord) (itr : RecordFieldIterator) (s : List Char)
    (h : r.parseIdFields itr s ≠ .error .oob_read) :
    r.parseIdFieldsWith nx itr s = r.parseIdFields itr s := by
  unfold RawEventRecord.parseIdFields at h ⊢
  unfold RawEventRecord.parseIdFieldsWith
  simp only at h ⊢
  by_cases h1 : find_first_of s ['.'] 0 = npos
  · simp only [h1, if_true]
  · simp only [h1, if_false] at h ⊢
    by_cases h2 : find_first_of s [':'] (find_first_of s ['.'] 0) = npos
    · simp only [h2, if_true]
    · simp only [h2, if_false] at h ⊢
      revert h
      generalize substr s 0 (find_first_of s ['.'] 0) = a
      generalize substr s (find_first_of s ['.'] 0 + 1) 3 = b
      generalize substr s (find_first_of s [':'] (find_first_of s ['.'] 0) + 1) npos = c
      intro h
      cases a <;> cases b <;> cases c <;> try rfl
      rename_i sec msec ser
      simp only at h ⊢
      revert h
      generalize stoll sec = x
      generalize stoi msec = y
      generalize stoll ser = z
      intro h
      cases x <;> cases y <;> cases z <;> try rfl
      simp only at h ⊢
      have hcf : collectFields (itr._str.length + 1) itr r._record_fields ≠ .error .oob_read := by
        intro hc
        apply h
        rw [hc]
      rw [collectFieldsWith_eq nx hnx _ _ _ hcf]

theorem parseEventIdWith_eq (nx : RecordFieldIterator → Except Fault (Bool × RecordFieldIterator))
    (hnx : ∀ it : RecordFieldIterator, it.next ≠ .error .oob_read → nx it = it.next)
    (r : RawEventRecord) (itr : RecordFieldIterator)
    (h : r.parseEventId itr ≠ .error .oob_read) :
    r.parseEventIdWith nx itr = r.parseEventId itr := by
  unfold RawEventRecord.parseEventId at h ⊢
  unfold RawEventRecord.parseEventIdWith
  revert h
  generalize starts_with itr.value MSG_EQ = a
  intro h
  cases a with
  | error e => rfl
  | ok hasMsg =>
    simp only at h ⊢
    revert h
    generalize (if hasMsg = true then substr itr.value 4 npos else Except.ok itr.value) = v
    intro h
    cases v with
    | error e => rfl
    | ok val =>
      simp only at h ⊢
      revert h
      generalize starts_with val AUDIT_OPEN = x
      generalize ends_with val AUDIT_CLOSE = y
      generalize substr val 10 (size_sub val.length 12) = z
      intro h
      cases x with
      | error e => rfl
      | ok bx =>
        cases bx with
        | false => rfl
        | true =>
          cases y with
          | error e => rfl
          | ok bz =>
            cases bz with
            | false => rfl
            | true =>
              cases z with
              | error e => rfl
              | ok event_id_str =>
                simp only at h ⊢
                exact parseIdFieldsWith_eq nx hnx r itr event_id_str h

theorem takePrefixedWith_eq (nx : RecordFieldIterator → Except Fault (Bool × RecordFieldIterator))
    (hnx : ∀ it : RecordFieldIterator, it.next ≠ .error .oob_read → nx it = it.next)
    (pre : List Char) (itr : RecordFieldIterator)
    (h : takePrefixed pre itr ≠ .error .oob_read) :
    takePrefixedWith nx pre itr = takePrefixed pre itr := by
  unfold takePrefixed at h ⊢
  unfold takePrefixedWith
  revert h
  generalize starts_with itr.value pre = a
  generalize substr itr.value 5 npos = b
  intro h
  cases a with
  | error e => rfl
  | ok ba =>
    cases ba with
    | false => rfl
    | true =>
      cases b with
      | error e => rfl
      | ok v =>
        simp only at h ⊢
        have hn : itr.next ≠ .error .oob_read := by
          intro hc
          apply h
          rw [hc]
        rw [hnx itr hn]

/-- Where `Parse` makes no read in front of an empty token, the run of it
with that read is `Parse`. -/
theorem ParseWith_eq (nx : RecordFieldIterator → Except Fault (Bool × RecordFieldIterator))
    (hnx : ∀ it : RecordFieldIterator, it.next ≠ .error .oob_read → nx it = it.next)
    (lt : LookupTables) (self : RawEventRecord) (record_type size : Nat)
    (h : self.Parse lt record_type size ≠ .error .oob_read) :
    self.ParseWith nx lt record_type size = self.Parse lt record_type size := by
  unfold RawEventRecord.Parse at h ⊢
  unfold RawEventRecord.ParseWith
  simp only at h ⊢
  have hn : (RecordFieldIterator.mk0 (self._data.take size)).next ≠ .error .oob_read := by
    intro hc
    apply h
    rw [hc]
  rw [hnx _ hn]
  cases h0 : (RecordFieldIterator.mk0 (self._data.take size)).next with
  | error e => rfl
  | ok p =>
    obtain ⟨b, itr0⟩ := p
    cases b with
    | false => rfl
    | true =>
      simp only [h0] at h ⊢
      have hn1 : takePrefixed NODE_EQ itr0 ≠ .error .oob_read := by
        intro hc
        apply h
        rw [hc]
      rw [takePrefixedWith_eq nx hnx _ _ hn1]
      cases h1 : takePrefixed NODE_EQ itr0 with
      | error e => rfl
      | ok p1 =>
        obtain ⟨b1, node, itr1⟩ := p1
        cases b1 with
        | false => rfl
        | true =>
          simp only [h1] at h ⊢
          have hn2 : takePrefixed TYPE_EQ itr1 ≠ .error .oob_read := by
            intro hc
            apply h
            rw [hc]
          rw [takePrefixedWith_eq nx hnx _ _ hn2]
          cases h2 : takePrefixed TYPE_EQ itr1 with
          | error e => rfl
          | ok p2 =>
            obtain ⟨b2, type_name, itr2⟩ := p2
            cases b2 with
            | false => rfl
            | true =>
              simp only [h2] at h ⊢
              exact parseEventIdWith_eq nx hnx _ _ h

theorem ParseRun_eq (stray : Char) (lt : LookupTables) (self : RawEventRecord)
    (record_type size : Nat) (h : self.Parse lt record_type size ≠ .error .oob_read) :
    self.ParseWith (RecordFieldIterator.nextRun stray) lt record_type size
      = self.Parse lt record_type size :=
  ParseWith_eq _ (fun it hit => nextRun_eq stray it hit) lt self record_type size h

theorem netlinkHandler_stray (lt : LookupTables) (k : AuditConsts) (s1 s2 : Char)
    (accumulator : List RawEventRecord) (type flags : Nat) (data : List Char) (len : Nat) :
    netlinkHandler lt k s1 accumulator type flags data len
      = netlinkHandler lt k s2 accumulator type flags data len := by
  unfold netlinkHandler
  rw [nextRun_stray s1 s2]

/-- C14 (defect in the code, that of C2). The handler does not return false
in all cases: on a message of a type that passes the filter (1300, with the
Linux codes) whose text is `audit():` or `audit(1):`, `Parse` throws
`std::out_of_range` and the exception leaves the handler, nothing being
accumulated. For the types it filters out (1329 `REPLACE`, 1000 below
`AUDIT_FIRST_USER_MSG`) the same text is not parsed and the handler returns
false; and on a text that begins with a space, where `Parse` reads in front
of an empty token and returns false, the handler returns false as well. -/
theorem netlinkHandler_faults (stray : Char) :
    netlinkHandler noTables linuxConsts stray [] 1300 0 "audit():".toList 8
        = .error .out_of_range
    ∧ netlinkHandler noTables linuxConsts stray [] 1300 0 "audit(1):".toList 9
        = .error .out_of_range
    ∧ netlinkHandler noTables linuxConsts stray [] 1329 0 "audit():".toList 8
        = .ok ⟨false, none, []⟩
    ∧ netlinkHandler noTables linuxConsts stray [] 1000 0 "audit():".toList 8
        = .ok ⟨false, none, []⟩
    ∧ netlinkHandler noTables linuxConsts stray [] 1300 0
          " audit(1700000001.123:42): a=b".toList 30
        = .ok ⟨false, some false, []⟩ := by
  rw [netlinkHandler_stray noTables linuxConsts stray 'x' [] 1300 0 "audit():".toList 8,
    netlinkHandler_stray noTables linuxConsts stray 'x' [] 1300 0 "audit(1):".toList 9,
    netlinkHandler_stray noTables linuxConsts stray 'x' [] 1329 0 "audit():".toList 8,
    netlinkHandler_stray noTables linuxConsts stray 'x' [] 1000 0 "audit():".toList 8,
    netlinkHandler_stray noTables linuxConsts stray 'x' [] 1300 0
      " audit(1700000001.123:42): a=b".toList 30]
  decide

/-! ## C16: `parsePath` -/

theorem splitDir_last (l : List Char) (h : ':' ∉ l) : splitDir l = .ok (l, []) := by
  simp [splitDir, find_first_of_none l ':' 0 h]

theorem splitDir_entry (e rest : List Char) (he : ':' ∉ e)
    (hlen : (e ++ ':' :: rest).length < npos) :
    splitDir (e ++ ':' :: rest) = .ok (e, rest) := by
  have h1 : find_first_of (e ++ ':' :: rest) [':'] 0 = e.length := by
    have := find_first_of_hit [] e rest ':' he
    simpa using this
  have h2 : substr (e ++ ':' :: rest) 0 e.length = .ok e := by
    rw [substr_ok _ (Nat.zero_le _)]
    simp
  have h3 : substr (e ++ ':' :: rest) (e.length + 1) npos = .ok rest := by
    rw [substr_ok _ (by simp)]
    rw [show e ++ ':' :: rest = (e ++ [':']) ++ rest by simp,
      show e.length + 1 = (e ++ [':']).length by simp, List.drop_left]
    rw [List.take_of_length_le]
    simp only [List.length_append, List.length_cons] at hlen
    omega
  have h4 : e.length ≠ npos := by
    simp only [List.length_append, List.length_cons] at hlen
    omega
  simp only [splitDir, h1, h2, h3, h4, if_false]

theorem splitDir_shorter (str dir rest : List Char) (hne : str ≠ [])
    (h : splitDir str = .ok (dir, rest)) : rest.length < str.length := by
  unfold splitDir at h
  simp only at h
  split at h
  · simp only [Except.ok.injEq, Prod.mk.injEq] at h
    rw [← h.2]
    exact List.length_pos.mpr hne
  · split at h
    · rename_i d r hd hr
      simp only [Except.ok.injEq, Prod.mk.injEq] at h
      unfold substr at hr
      split at hr
      · simp at hr
      · rename_i hle
        simp only [Except.ok.injEq] at hr
        rw [← h.2, ← hr]
        have h1 := List.length_take npos (List.drop (find_first_of str [':'] 0 + 1) str)
        have h2 := Nat.min_le_right npos (List.drop (find_first_of str [':'] 0 + 1) str).length
        have h3 := List.length_pos.mpr hne
        simp only [List.length_drop] at h1 h2
        omega
    · simp at h

/-- Fuel beyond the length of the string does not change the result of the
loop of `parsePath`. -/
theorem parsePathAux_fuel : ∀ (f g : Nat) (dirs : List (List Char)) (str : List Char),
    str.length < f → str.length < g → parsePathAux f dirs str = parsePathAux g dirs str
  | 0, _, _, _, hf, _ => absurd hf (Nat.not_lt_zero _)
  | _ + 1, 0, _, _, _, hg => absurd hg (Nat.not_lt_zero _)
  | f + 1, g + 1, dirs, str, hf, hg => by
    unfold parsePathAux
    by_cases he : str.isEmpty = true
    · simp only [he, if_true]
    · simp only [he, Bool.false_eq_true, if_false]
      cases hs : splitDir str with
      | error e => rfl
      | ok p =>
        obtain ⟨dir, rest⟩ := p
        simp only
        have hne : str ≠ [] := by
          intro h
          exact he (by simp [h])
        have := splitDir_shorter str dir rest hne hs
        split
        · rfl
        · exact parsePathAux_fuel f g _ rest (by omega) (by omega)

theorem normalizeDir_eq (e : List Char) :
    (if e.getLast? ≠ some '/' then e ++ ['/'] else e) = normalizeDir e := by
  unfold normalizeDir
  by_cases h : e.getLast? = some '/' <;> simp [h]

theorem entryOK_iff (e : List Char) :
    entryOK e = true ↔ ¬ (e.length < 2 ∨ e.head? ≠ some '/') := by
  simp [entryOK]

theorem pathText_length_cons (e : List Char) (es : List (List Char)) (last : Option (List Char)) :
    (pathText (e :: es) last).length = e.length + 1 + (pathText es last).length := by
  simp [pathText]
  omega

/-- The loop of `parsePath` over a path list, entry by entry. -/
theorem parsePathAux_pathText : ∀ (es : List (List Char)) (last : Option (List Char))
    (dirs : List (List Char)) (fuel : Nat),
    pathWf es last = true → (pathText es last).length < npos →
    (pathText es last).length < fuel →
    parsePathAux fuel dirs (pathText es last)
      = .ok ((pathEntries es last).all entryOK,
          dirs ++ ((pathEntries es last).takeWhile entryOK).map normalizeDir)
  | [], none, dirs, fuel, _, _, hfuel => by
    obtain ⟨f, rfl⟩ : ∃ f, fuel = f + 1 := ⟨fuel - 1, by omega⟩
    simp [parsePathAux, pathText, pathEntries]
  | [], some l, dirs, fuel, hwf, _, hfuel => by
    simp only [pathWf, List.all_nil, Bool.true_and, Bool.and_eq_true, Bool.not_eq_true',
      List.contains_eq_any_beq, List.any_eq_false, beq_iff_eq, List.isEmpty_eq_false] at hwf
    obtain ⟨hc, hne⟩ := hwf
    have hc2 : ':' ∉ l := fun h => hc ':' h rfl
    have hl : 0 < l.length := List.length_pos.mpr (by simpa using hne)
    simp only [pathText, Option.getD_some] at hfuel ⊢
    obtain ⟨f, rfl⟩ : ∃ f, fuel = f + 2 := ⟨fuel - 2, by omega⟩
    have hemp : l.isEmpty = false := by
      cases l with
      | nil => simp at hl
      | cons a t => rfl
    unfold parsePathAux
    simp only [hemp, Bool.false_eq_true, if_false, splitDir_last l hc2]
    by_cases hok : entryOK l = true
    · have := (entryOK_iff l).mp hok
      simp only [this, if_false, normalizeDir_eq]
      simp [parsePathAux, pathEntries, hok]
    · have := (not_congr (entryOK_iff l)).mp hok
      simp only [not_not] at this
      simp only [this, if_true]
      simp [pathEntries, hok]
  | e :: es, last, dirs, fuel, hwf, hlen, hfuel => by
    have hwf2 : pathWf es last = true ∧ ':' ∉ e := by
      simp only [pathWf, List.all_cons, Bool.and_eq_true, Bool.not_eq_true'] at hwf ⊢
      refine ⟨⟨hwf.1.2, hwf.2⟩, ?_⟩
      have := hwf.1.1
      simpa using this
    obtain ⟨hwf3, hc⟩ := hwf2
    rw [pathText_length_cons] at hlen hfuel
    obtain ⟨f, rfl⟩ : ∃ f, fuel = f + 1 := ⟨fuel - 1, by omega⟩
    have hemp : (pathText (e :: es) last).isEmpty = false := by
      cases e <;> rfl
    unfold parsePathAux
    have hsplit : splitDir (pathText (e :: es) last) = .ok (e, pathText es last) := by
      apply splitDir_entry e _ hc
      simp only [List.length_append, List.length_cons]
      omega
    simp only [hemp, Bool.false_eq_true, if_false, hsplit]
    by_cases hok : entryOK e = true
    · have := (entryOK_iff e).mp hok
      simp only [this, if_false, normalizeDir_eq]
      rw [parsePathAux_pathText es last _ f hwf3 (by omega) (by omega)]
      simp [pathEntries, hok]
    · have := (not_congr (entryOK_iff e)).mp hok
      simp only [not_not] at this
      simp only [this, if_true]
      simp [pathEntries, hok]

/-- Every string is the text of a proper path list. -/
theorem pathText_exists : ∀ s : List Char,
    ∃ es last, pathWf es last = true ∧ s = pathText es last
  | [] => ⟨[], none, rfl, rfl⟩
  | c :: s => by
    obtain ⟨es, last, hwf, hs⟩ := pathText_exists s
    by_cases hc : c = ':'
    · refine ⟨[] :: es, last, ?_, ?_⟩
      · simpa [pathWf] using hwf
      · simp [pathText, hc, hs]
    · cases es with
      | nil =>
        refine ⟨[], some (c :: last.getD []), ?_, ?_⟩
        · cases last with
          | none => simpa [pathWf] using Ne.symm hc
          | some l =>
            simp only [pathWf, List.all_nil, Bool.true_and, Bool.and_eq_true,
              Bool.not_eq_true'] at hwf
            simp only [pathWf, List.all_nil, Option.getD_some, Bool.true_and, Bool.and_eq_true,
              Bool.not_eq_true', List.isEmpty_cons]
            refine ⟨?_, trivial⟩
            have := hwf.1
            simp only [List.contains_eq_any_beq, List.any_eq_false, beq_iff_eq] at this ⊢
            intro x hx
            rcases List.mem_cons.mp hx with rfl | hx
            · exact Ne.symm hc
            · exact this x hx
        · simp [pathText, hs]
      | cons e es =>
        refine ⟨(c :: e) :: es, last, ?_, ?_⟩
        · simp only [pathWf, List.all_cons, Bool.and_eq_true, Bool.not_eq_true'] at hwf ⊢
          refine ⟨⟨?_, hwf.1.2⟩, hwf.2⟩
          have := hwf.1.1
          simp only [List.contains_eq_any_beq, List.any_eq_false, beq_iff_eq] at this ⊢
          intro x hx
          rcases List.mem_cons.mp hx with rfl | hx
          · exact Ne.symm hc
          · exact this x hx
        · simp [pathText, hs]

/-- C16. `parsePath` on a path list (entries separated by `':'`, the text
shorter than `npos`) returns true exactly when every entry is at least two
characters long and begins with `'/'`, and it has then appended every entry
to `dirs`, each with a `'/'` added unless it ends with one; when it returns
false it has appended the entries before the first bad one. The same
function is in the collector and in the forwarder. -/
theorem parsePath_entries (dirs es : List (List Char)) (last : Option (List Char))
    (hwf : pathWf es last = true) (hlen : (pathText es last).length < npos) :
    parsePath dirs (pathText es last)
      = .ok ((pathEntries es last).all entryOK,
          dirs ++ ((pathEntries es last).takeWhile entryOK).map normalizeDir)
    ∧ ((pathEntries es last).all entryOK = true →
        parsePath dirs (pathText es last)
          = .ok (true, dirs ++ (pathEntries es last).map normalizeDir)) := by
  have h := parsePathAux_pathText es last dirs ((pathText es last).length + 1) hwf hlen
    (Nat.lt_succ_self _)
  refine ⟨h, ?_⟩
  intro hall
  have htw : (pathEntries es last).takeWhile entryOK = pathEntries es last := by
    rw [List.takeWhile_eq_self_iff]
    intro x hx
    exact List.all_eq_true.mp hall x hx
  unfold parsePath
  rw [h, hall, htw]

theorem parsePath_entries_witness :
    parsePath [] "/var/log/audit:/opt/data/".toList
      = .ok (true, ["/var/log/audit/".toList, "/opt/data/".toList])
    ∧ parsePath [] "/var/log:relative:/opt".toList = .ok (false, ["/var/log/".toList])
    ∧ parsePath [] ":".toList = .ok (false, []) := by
  refine ⟨?_, ?_, ?_⟩
  · have := (parsePath_entries [] ["/var/log/audit".toList] (some "/opt/data/".toList)
      (by decide) (by decide)).1
    simpa [pathText, pathEntries, entryOK, normalizeDir] using this
  · have := (parsePath_entries [] ["/var/log".toList, "relative".toList] (some "/opt".toList)
      (by decide) (by decide)).1
    simpa [pathText, pathEntries, entryOK, normalizeDir] using this
  · exact (parsePath_entries [] [[]] none (by decide) (by decide)).1

/-! ## C17: the queue settings -/

/-- One `if (config.HasKey(k)) x = config.Get(k);` gives a result when the
accessor returns for a key that is present. -/
theorem override_some {α S : Type} (p : Bool) (g : Option α) (f : α → S) (s : S)
    (h : p = true → g.isSome = true) :
    ∃ s1, (if p = true then g.map f else some s) = some s1 := by
  cases p with
  | false => exact ⟨s, by simp⟩
  | true =>
    obtain ⟨v, hv⟩ := Option.isSome_iff_exists.mp (h rfl)
    exact ⟨f v, by simp [hv]⟩

theorem override_eq {α S : Type} {p : Bool} {g : Option α} {f : α → S} {s s1 : S}
    (h : (if p = true then g.map f else some s) = some s1) :
    (p = false ∧ s1 = s) ∨ (p = true ∧ ∃ v, g = some v ∧ s1 = f v) := by
  cases p with
  | false =>
    left
    simpa using h.symm
  | true =>
    right
    simp only [if_true, Option.map_eq_some'] at h
    obtain ⟨v, hv, hf⟩ := h
    exact ⟨rfl, v, hv, hf.symm⟩

/-- C17. With none of the seven queue keys in the configuration the
collector opens the queue with 8 priorities, 1048576 bytes of file data, 128
unsaved files, 134217728 bytes, 10 percent, 5 percent, and runs the saver
with a delay of 250; the settings are reached exactly when no accessor of a
key that is present throws; and then every parameter whose key is absent has
its default, while a parameter whose key is present has the value its
accessor returned. -/
theorem queueSettings_defaults {D : Type} [NatCast D] (config : Config D) :
    ((∀ k ∈ queueKeys, config.HasKey k = false) →
      queueSettings config
        = some ⟨8, 1048576, 128, 134217728, ((10 : Nat) : D), ((5 : Nat) : D), 250⟩)
    ∧ ((queueSettings config).isSome = true ↔
        (∀ k ∈ ["queue_num_priorities", "queue_max_file_data_size",
            "queue_max_unsaved_files", "queue_max_fs_bytes", "queue_save_delay"],
          config.HasKey k = true → (config.GetUint64 k).isSome = true)
        ∧ (∀ k ∈ ["queue_max_fs_pct", "queue_min_fs_free_pct"],
          config.HasKey k = true → (config.GetDouble k).isSome = true))
    ∧ (∀ s, queueSettings config = some s →
        (if config.HasKey "queue_num_priorities"
          then ∃ v, config.GetUint64 "queue_num_priorities" = some v
            ∧ s.num_priorities = to_int v
          else s.num_priorities = 8)
        ∧ (if config.HasKey "queue_max_file_data_size"
          then ∃ v, config.GetUint64 "queue_max_file_data_size" = some v
            ∧ s.max_file_data_size = to_size_t v
          else s.max_file_data_size = 1048576)
        ∧ (if config.HasKey "queue_max_unsaved_files"
          then ∃ v, config.GetUint64 "queue_max_unsaved_files" = some v
            ∧ s.max_unsaved_files = to_size_t v
          else s.max_unsaved_files = 128)
        ∧ (if config.HasKey "queue_max_fs_bytes"
          then ∃ v, config.GetUint64 "queue_max_fs_bytes" = some v
            ∧ s.max_fs_bytes = to_size_t v
          else s.max_fs_bytes = 134217728)
        ∧ (if config.HasKey "queue_max_fs_pct"
          then config.GetDouble "queue_max_fs_pct" = some s.max_fs_pct
          else s.max_fs_pct = ((10 : Nat) : D))
        ∧ (if config.HasKey "queue_min_fs_free_pct"
          then config.GetDouble "queue_min_fs_free_pct" = some s.min_fs_free_pct
          else s.min_fs_free_pct = ((5 : Nat) : D))
        ∧ (if config.HasKey "queue_save_delay"
          then ∃ v, config.GetUint64 "queue_save_delay" = some v
            ∧ s.save_delay = to_long v
          else s.save_delay = 250)) := by
  refine ⟨?_, ?_, ?_⟩
  · intro h
    simp only [queueKeys, List.mem_cons, List.mem_singleton, List.not_mem_nil, or_false,
      forall_eq_or_imp, forall_eq] at h
    obtain ⟨h1, h2, h3, h4, h5, h6, h7⟩ := h
    simp [queueSettings, queueDefaults, h1, h2, h3, h4, h5, h6, h7]
  · simp only [List.mem_cons, List.mem_singleton, List.not_mem_nil, or_false,
      forall_eq_or_imp, forall_eq]
    constructor
    · intro hs
      obtain ⟨s, hs⟩ := Option.isSome_iff_exists.mp hs
      unfold queueSettings at hs
      simp only [Option.bind_eq_some] at hs
      obtain ⟨s1, e1, s2, e2, s3, e3, s4, e4, s5, e5, s6, e6, e7⟩ := hs
      refine ⟨⟨?_, ?_, ?_, ?_, ?_⟩, ?_, ?_⟩
      · intro hk
        rcases override_eq e1 with ⟨h, _⟩ | ⟨_, v, hv, _⟩
        · simp [hk] at h
        · simp [hv]
      · intro hk
        rcases override_eq e2 with ⟨h, _⟩ | ⟨_, v, hv, _⟩
        · simp [hk] at h
        · simp [hv]
      · intro hk
        rcases override_eq e3 with ⟨h, _⟩ | ⟨_, v, hv, _⟩
        · simp [hk] at h
        · simp [hv]
      · intro hk
        rcases override_eq e4 with ⟨h, _⟩ | ⟨_, v, hv, _⟩
        · simp [hk] at h
        · simp [hv]
      · intro hk
        rcases override_eq e7 with ⟨h, _⟩ | ⟨_, v, hv, _⟩
        · simp [hk] at h
        · simp [hv]
      · intro hk
        rcases override_eq e5 with ⟨h, _⟩ | ⟨_, v, hv, _⟩
        · simp [hk] at h
        · simp [hv]
      · intro hk
        rcases override_eq e6 with ⟨h, _⟩ | ⟨_, v, hv, _⟩
        · simp [hk] at h
        · simp [hv]
    · rintro ⟨⟨h1, h2, h3, h4, h7⟩, h5, h6⟩
      rw [Option.isSome_iff_exists]
      unfold queueSettings
      simp only [Option.bind_eq_some]
      obtain ⟨s1, e1⟩ := override_some (config.HasKey "queue_num_priorities")
        (config.GetUint64 "queue_num_priorities")
        (fun v => { queueDefaults D with num_priorities := to_int v }) (queueDefaults D) h1
      obtain ⟨s2, e2⟩ := override_some (config.HasKey "queue_max_file_data_size")
        (config.GetUint64 "queue_max_file_data_size")
        (fun v => { s1 with max_file_data_size := to_size_t v }) s1 h2
      obtain ⟨s3, e3⟩ := override_some (config.HasKey "queue_max_unsaved_files")
        (config.GetUint64 "queue_max_unsaved_files")
        (fun v => { s2 with max_unsaved_files := to_size_t v }) s2 h3
      obtain ⟨s4, e4⟩ := override_some (config.HasKey "queue_max_fs_bytes")
        (config.GetUint64 "queue_max_fs_bytes")
        (fun v => { s3 with max_fs_bytes := to_size_t v }) s3 h4
      obtain ⟨s5, e5⟩ := override_some (config.HasKey "queue_max_fs_pct")
        (config.GetDouble "queue_max_fs_pct")
        (fun v => { s4 with max_fs_pct := v }) s4 h5
      obtain ⟨s6, e6⟩ := override_some (config.HasKey "queue_min_fs_free_pct")
        (config.GetDouble "queue_min_fs_free_pct")
        (fun v => { s5 with min_fs_free_pct := v }) s5 h6
      obtain ⟨s7, e7⟩ := override_some (config.HasKey "queue_save_delay")
        (config.GetUint64 "queue_save_delay")
        (fun v => { s6 with save_delay := to_long v }) s6 h7
      exact ⟨s7, s1, e1, s2, e2, s3, e3, s4, e4, s5, e5, s6, e6, e7⟩
  · intro s hs
    unfold queueSettings at hs
    simp only [Option.bind_eq_some] at hs
    obtain ⟨s1, e1, s2, e2, s3, e3, s4, e4, s5, e5, s6, e6, e7⟩ := hs
    rcases override_eq e1 with ⟨h1, rfl⟩ | ⟨h1, v1, g1, rfl⟩ <;>
    rcases override_eq e2 with ⟨h2, rfl⟩ | ⟨h2, v2, g2, rfl⟩ <;>
    rcases override_eq e3 with ⟨h3, rfl⟩ | ⟨h3, v3, g3, rfl⟩ <;>
    rcases override_eq e4 with ⟨h4, rfl⟩ | ⟨h4, v4, g4, rfl⟩ <;>
    rcases override_eq e5 with ⟨h5, rfl⟩ | ⟨h5, v5, g5, rfl⟩ <;>
    rcases override_eq e6 with ⟨h6, rfl⟩ | ⟨h6, v6, g6, rfl⟩ <;>
    rcases override_eq e7 with ⟨h7, rfl⟩ | ⟨h7, v7, g7, rfl⟩ <;>
    simp [h1, h2, h3, h4, h5, h6, h7, queueDefaults, *]

/-! ## C18: the session field -/

/-- C18 (the code does otherwise). For every field of type SESSION whose
interpreted value is `unset` or `4294967295`, `process_field` adds the
interpreted field twice, both times with the original interpreted value, and
then the raw field; the value `-1` is not what it writes for the interpreted
field. The condition joins the
two comparisons with `&&`, so it never holds, and the `case` has no `break`,
so the `default` statement runs as well. -/
theorem process_field_session (config : TransformerConfig) (unescape : List Char → List Char)
    (json_buffer : List (List Char × List Char)) (field : EventRecordField)
    (hty : field.FieldType = FieldType.SESSION)
    (hv : field.InterpValue = "unset".toList ∨ field.InterpValue = "4294967295".toList) :
    process_field config unescape json_buffer field
      = json_buffer ++ [((fieldNames config field).2, field.InterpValue),
          ((fieldNames config field).2, field.InterpValue),
          ((fieldNames config field).1, field.RawValue)]
    ∧ field.InterpValue ≠ "-1".toList := by
  have hne : ¬ (field.InterpValue = "unset".toList ∧ field.InterpValue = "4294967295".toList) := by
    rintro ⟨h1, h2⟩
    rw [h1] at h2
    revert h2
    decide
  have hlen : field.InterpValue.length > 0 := by
    rcases hv with h | h <;> rw [h] <;> decide
  have hcalls : process_field config unescape json_buffer field
      = json_buffer ++ [((fieldNames config field).2, field.InterpValue),
          ((fieldNames config field).2, field.InterpValue),
          ((fieldNames config field).1, field.RawValue)] := by
    unfold process_field
    simp only [hty, hne, hlen, if_true, if_false, reduceCtorEq, or_self, List.append_assoc,
      List.singleton_append, List.cons_append, List.nil_append]
  refine ⟨hcalls, ?_⟩
  rcases hv with h | h <;> rw [h] <;> decide

theorem process_field_session_witness :
    process_field plainConfig id [] unsetSession
      = [("ses".toList, "unset".toList), ("ses".toList, "unset".toList),
          ("ses_r".toList, "4294967295".toList)]
    ∧ unsetSession.InterpValue ≠ "-1".toList :=
  process_field_session plainConfig id [] unsetSession rfl (Or.inl rfl)

/-! ## C19: the `msg='...'` block -/

/-- The first `next()` on a text that opens with `msg='`: the five opening
bytes are skipped and the token after them is returned. -/
theorem next_msg_block (tok rest : List Char) (hne : tok ≠ []) (hsep : ∀ c ∈ tok, c ∉ SEP)
    (hmsg : tok.take 5 ≠ MSG_QUOTE) (hrest : ∀ c ∈ rest.head?, c ∈ SEP)
    (hlen : (MSG_QUOTE ++ tok ++ rest).length < npos) :
    (RecordFieldIterator.mk0 (MSG_QUOTE ++ tok ++ rest)).next
      = .ok (true, atTok (MSG_QUOTE ++ tok ++ rest) MSG_QUOTE tok) := by
  have hl : (MSG_QUOTE ++ tok ++ rest).length = 5 + tok.length + rest.length := by
    simp [MSG_QUOTE]
    omega
  have hc : ¬ (0 = npos ∨ 0 ≥ (MSG_QUOTE ++ tok ++ rest).length) := by
    rw [hl]
    unfold npos
    omega
  have hq : ∀ c ∈ MSG_QUOTE, c ∉ SEP := by decide
  have hsep2 : ∀ c ∈ MSG_QUOTE ++ tok, c ∉ SEP := by
    intro c hcm
    rcases List.mem_append.mp hcm with h | h
    · exact hq c h
    · exact hsep c h
  have hend := token_end [] (MSG_QUOTE ++ tok) rest hsep2 hrest (by simpa using hlen)
  simp only [List.nil_append, List.length_nil, Nat.zero_add] at hend
  have hval : substr (MSG_QUOTE ++ tok ++ rest) 0 ((MSG_QUOTE ++ tok).length - 0)
      = .ok (MSG_QUOTE ++ tok) := by
    rw [substr_ok _ (Nat.zero_le _)]
    simp only [List.drop_zero, Nat.sub_zero, List.take_left]
  have hpre : substr (MSG_QUOTE ++ tok) 0 5 = .ok MSG_QUOTE := by
    rw [substr_ok _ (Nat.zero_le _)]
    simp [MSG_QUOTE]
  have hnext := next_plain MSG_QUOTE tok rest (MSG_QUOTE ++ tok) hne hsep hmsg hrest hlen
  unfold RecordFieldIterator.next at hnext ⊢
  simp only at hnext
  unfold RecordFieldIterator.nextAux
  simp only [RecordFieldIterator.mk0, hc, if_false, hend, hval, hpre, if_true]
  rw [nextAux_fuel _ ((MSG_QUOTE ++ tok ++ rest).length + 1) _ (by simp only; rw [hl]; omega)
    (by simp only; omega)]
  rw [show (0 : Nat) + 5 = MSG_QUOTE.length from rfl, hnext]
  rfl

theorem intercalate_fieldsText : ∀ (r : List Char) (rs : List (List Char)),
    List.intercalate [' '] (r :: rs) = r ++ fieldsText (rs.map (fun x => ([' '], x)))
  | r, [] => by simp [List.intercalate, fieldsText]
  | r, r2 :: rs => by
    have ih := intercalate_fieldsText r2 rs
    have h : List.intercalate [' '] (r :: r2 :: rs)
        = r ++ ' ' :: List.intercalate [' '] (r2 :: rs) := by
      simp [List.intercalate, List.intersperse]
    rw [h, ih]
    simp [fieldsText]

theorem closeLast_intercalate : ∀ (ts : List (List Char)), ts ≠ [] →
    List.intercalate [' '] ts ++ ['\''] = List.intercalate [' '] (closeLast ts)
  | [], h => absurd rfl h
  | [t], _ => by simp [closeLast, List.intercalate]
  | t :: t2 :: ts, _ => by
    have ih := closeLast_intercalate (t2 :: ts) (by simp)
    rw [closeLast, intercalate_fieldsText, intercalate_fieldsText]
    rw [intercalate_fieldsText] at ih
    cases hcl : closeLast (t2 :: ts) with
    | nil => cases ts <;> simp [closeLast] at hcl
    | cons c cs =>
      rw [hcl, intercalate_fieldsText] at ih
      simp only [List.map_cons, fieldsText, List.append_assoc] at ih ⊢
      rw [ih]

theorem blockTok_iff {t : List Char} :
    blockTok t = true ↔ t ≠ [] ∧ (∀ c ∈ t, c ∉ SEP) ∧ '\'' ∉ t := by
  simp only [blockTok, SEP, Bool.and_eq_true, Bool.not_eq_true', List.isEmpty_eq_false,
    List.all_eq_true, bne_iff_ne, ne_eq, List.mem_cons, List.mem_singleton, List.not_mem_nil,
    or_false, not_or]
  constructor
  · rintro ⟨h1, h2⟩
    exact ⟨h1, fun c hc => ⟨(h2 c hc).1.1, (h2 c hc).1.2⟩, fun hq => (h2 _ hq).2 rfl⟩
  · rintro ⟨h1, h2, h3⟩
    refine ⟨h1, fun c hc => ⟨⟨(h2 c hc).1, (h2 c hc).2⟩, ?_⟩⟩
    rintro rfl
    exact h3 hc

theorem blockTok_plain {t : List Char} (h : blockTok t = true) : plainTok t = true := by
  obtain ⟨hne, hs, hq⟩ := blockTok_iff.mp h
  rw [plainTok_iff]
  refine ⟨hne, hs, ?_⟩
  intro h5
  apply hq
  have : '\'' ∈ t.take 5 := by
    rw [h5]
    decide
  exact List.mem_of_mem_take this

theorem blockTok_closed_plain {t : List Char} (h : blockTok t = true)
    (hm : t ≠ ['m', 's', 'g', '=']) : plainTok (t ++ ['\'']) = true := by
  obtain ⟨hne, hs, hq⟩ := blockTok_iff.mp h
  rw [plainTok_iff]
  refine ⟨by simp, ?_, ?_⟩
  · intro c hc
    rcases List.mem_append.mp hc with h1 | h1
    · exact hs c h1
    · simp only [List.mem_singleton] at h1
      subst h1
      decide
  · intro h5
    rcases t with _ | ⟨a, _ | ⟨b, _ | ⟨c, _ | ⟨d, _ | ⟨e, tl⟩⟩⟩⟩⟩ <;>
      simp [MSG_QUOTE] at h5 hm hq
    · exact hm h5.1 h5.2.1 h5.2.2.1 h5.2.2.2
    · exact hq.2.2.2.2.1 h5.2.2.2.2.symm

theorem closeLast_plain : ∀ (ts : List (List Char)), ts.all blockTok = true →
    ts.getLast? ≠ some ['m', 's', 'g', '='] → ∀ r ∈ closeLast ts, plainTok r = true
  | [], _, _ => by simp [closeLast]
  | [t], h, hl => by
    simp only [List.all_cons, List.all_nil, Bool.and_true] at h
    simp only [List.getLast?_singleton, ne_eq, Option.some.injEq] at hl
    simp only [closeLast, List.mem_singleton, forall_eq]
    exact blockTok_closed_plain h hl
  | t :: t2 :: ts, h, hl => by
    simp only [List.all_cons, Bool.and_eq_true] at h
    have ih := closeLast_plain (t2 :: ts) (by simp [h.2.1, h.2.2])
      (by simpa [List.getLast?_cons_cons] using hl)
    intro r hr
    rw [closeLast] at hr
    rcases List.mem_cons.mp hr with rfl | hr
    · exact blockTok_plain h.1
    · exact ih r hr

theorem closeLast_stripQuote : ∀ (ts : List (List Char)), ts.all blockTok = true →
    (closeLast ts).map stripQuote = ts
  | [], _ => rfl
  | [t], _ => by
    simp [closeLast, stripQuote]
  | t :: t2 :: ts, h => by
    simp only [List.all_cons, Bool.and_eq_true] at h
    have ih := closeLast_stripQuote (t2 :: ts) (by simp [h.2.1, h.2.2])
    rw [closeLast, List.map_cons, ih]
    obtain ⟨htne, _, hq⟩ := blockTok_iff.mp h.1
    rw [stripQuote_of_not_quote]
    intro hlast
    rw [List.getLast?_eq_getLast _ htne] at hlast
    have hmem := List.getLast_mem htne
    rw [Option.some.inj hlast] at hmem
    exact hq hmem

/-- C19 as it was stated fails when the last token is `msg=`: over the text
`msg='msg='` the iterator yields nothing, although the token `msg=` is not
empty, has no SP, LF or single quote, and does not begin with `msg='`. -/
theorem msgBlock_counterexample :
    blockTok "msg=".toList = true
    ∧ "msg=".toList.take 5 ≠ MSG_QUOTE
    ∧ msgBlock ["msg=".toList] = "msg='msg='".toList
    ∧ (RecordFieldIterator.mk0 (msgBlock ["msg=".toList])).next
        = .ok (false, ⟨"msg='msg='".toList, "msg='".toList, 10⟩)
    ∧ collectFields 11 (RecordFieldIterator.mk0 (msgBlock ["msg=".toList])) [] = .ok [] := by
  decide

/-- C19, amended. For every n >= 1 and all non-empty tokens t1..tn without
SP, LF or single quote, the last of which is not `msg=`, iterating over the
text `msg='t1 t2 ... tn'` yields exactly t1, ..., tn in order and then
`next()` returns false: the loop `while (itr.next())` collects t1..tn with
any number of rounds allowed beyond the length of the text. -/
theorem msgBlock_tokens (ts : List (List Char)) (fuel : Nat) (hne : ts ≠ [])
    (hts : ts.all blockTok = true) (hlast : ts.getLast? ≠ some ['m', 's', 'g', '='])
    (hlen : (msgBlock ts).length < npos) (hfuel : (msgBlock ts).length < fuel) :
    collectFields fuel (RecordFieldIterator.mk0 (msgBlock ts)) [] = .ok ts := by
  have htext : msgBlock ts = MSG_QUOTE ++ List.intercalate [' '] (closeLast ts) := by
    rw [← closeLast_intercalate ts hne]
    simp [msgBlock]
  have hplain := closeLast_plain ts hts hlast
  have hstrip := closeLast_stripQuote ts hts
  cases hcl : closeLast ts with
  | nil =>
    rcases ts with _ | ⟨a, _ | ⟨b, l⟩⟩
    · exact absurd rfl hne
    · simp [closeLast] at hcl
    · simp [closeLast] at hcl
  | cons r rs =>
    rw [hcl] at htext hplain hstrip
    rw [intercalate_fieldsText] at htext
    rw [htext] at hlen hfuel ⊢
    have hr : plainTok r = true := hplain r (by simp)
    have hfs : fieldsOK (rs.map (fun x => ([' '], x))) = true := by
      simp only [fieldsOK, List.all_eq_true, List.mem_map, Bool.and_eq_true]
      rintro _ ⟨x, hx, rfl⟩
      exact ⟨rfl, hplain x (List.mem_cons_of_mem _ hx)⟩
    obtain ⟨hrne, hrs, hrm⟩ := plainTok_iff.mp hr
    obtain ⟨f, rfl⟩ : ∃ f, fuel = f + 1 := ⟨fuel - 1, by omega⟩
    have hstart := fieldsText_startsSep (rs.map (fun x => ([' '], x))) [] hfs rfl
    rw [List.append_nil] at hstart
    unfold collectFields
    rw [← List.append_assoc] at hlen hfuel ⊢
    rw [next_msg_block r _ hrne hrs hrm (startsSep_iff.mp hstart) hlen]
    simp only
    rw [collectFields_fieldsText (rs.map (fun x => ([' '], x))) _ MSG_QUOTE r [] _ f
      (by simp) hfs rfl hlen
      (by
        have h5 : MSG_QUOTE.length = 5 := rfl
        simp only [List.length_append] at hfuel
        omega)]
    simp only [atTok, RecordFieldIterator.value, List.nil_append, List.map_map]
    rw [← hstrip]
    simp [Function.comp]

theorem msgBlock_tokens_witness :
    msgBlock ["op=login".toList, "acct=root".toList, "res=success".toList]
      = "msg='op=login acct=root res=success'".toList
    ∧ collectFields 37
        (RecordFieldIterator.mk0
          (msgBlock ["op=login".toList, "acct=root".toList, "res=success".toList])) []
      = .ok ["op=login".toList, "acct=root".toList, "res=success".toList] :=
  ⟨by decide,
   msgBlock_tokens ["op=login".toList, "acct=root".toList, "res=success".toList] 37
    (by decide) (by decide) (by decide) (by decide) (by decide)⟩

/-! ## C20: a header value below four -/

/-- C20 (the code does otherwise). For every buffer size `buf_size >= 4`
and every header value `n < 4` that the header read delivers, `ReadEvent`
does not return `FAILED` before the payload read: it asks the reader for
`2^64 - (4 - n)` payload bytes, `event_size - sizeof(uint32_t)` having
wrapped around, which is more than the `buf_size - 4` bytes left in any
buffer. -/
theorem ReadEvent_small_header {σ : Type} (io : IOCodes) (rd : IReader σ) (buf : List Nat)
    (buf_size n : Nat) (s s1 : σ)
    (hb : 4 ≤ buf_size) (hsz : buf_size < 2 ^ 64) (hn : n < 4)
    (hhdr : rd.ReadAll s 4 = (io.OK, storeLE 4 n, s1)) :
    (ReadEvent io rd buf buf_size s).payload_request = some (2 ^ 64 - (4 - n))
      ∧ buf_size - 4 < 2 ^ 64 - (4 - n) := by
  have hload : loadLE (storeLE 4 n) % 2 ^ 32 = n := by
    rw [loadLE_storeLE]
    have : n % 256 ^ 4 = n := Nat.mod_eq_of_lt (by omega)
    rw [this]
    exact Nat.mod_eq_of_lt (by omega)
  have hreq : size_sub n 4 = 2 ^ 64 - (4 - n) := by
    unfold size_sub
    omega
  have hlt : ¬ buf_size < 4 := by omega
  have hle : ¬ n > buf_size := by omega
  refine ⟨?_, by omega⟩
  unfold ReadEvent
  simp only [hlt, if_false, hhdr, ne_eq, not_true_eq_false, hload, hle, hreq]
  split <;> rfl

theorem ReadEvent_small_header_witness :
    (ReadEvent sampleIO (listReader sampleIO) (List.replicate 8 0) 8
        [0, 0, 0, 0, 1, 2, 3, 4]).payload_request = some (2 ^ 64 - (4 - 0))
      ∧ 8 - 4 < 2 ^ 64 - (4 - 0) :=
  ReadEvent_small_header sampleIO (listReader sampleIO) (List.replicate 8 0) 8 0
    [0, 0, 0, 0, 1, 2, 3, 4] [1, 2, 3, 4] (by decide) (by decide) (by decide) (by decide)

/-! ## C21: the declared field count -/

/-- With every builder call succeeding, `AddRecord` returns 1 and the calls it
makes are `BeginRecord`, the `node` field if any, one `AddField` per token
with `'='`, and `EndRecord`. -/
theorem AddRecord_all_calls (self : RawEventRecord) (b : EventBuilder) (toks : List FieldTok)
    (hf : self._record_fields = toks.map FieldTok.render) (hwf : ∀ t ∈ toks, t.wf = true)
    (hall : b.allSucceed) :
    ∃ b1, self.AddRecord b = .ok (1, b1)
      ∧ b1.calls = b.calls ++ self.beginCall ::
          (syntheticNodeCalls self ++ expectedFieldCalls toks ++ [.EndRecord]) := by
  unfold RawEventRecord.AddRecord
  simp only [EventBuilder.call, hall _ _, ne_eq, not_true_eq_false, if_false]
  by_cases hn : self._node = []
  · have he : self._node.isEmpty = true := (isEmpty_eq_true_iff _).mpr hn
    simp only [he, not_true_eq_false, if_false, syntheticNodeCalls, hn, if_true, List.nil_append]
    rw [hf]
    obtain ⟨ret, b3, rest, h1, h2, _, h4⟩ := AddRecord_after_node toks
      { b with calls := b.calls ++ [self.beginCall] } hwf
    obtain ⟨rfl, rfl⟩ := h4 hall
    refine ⟨b3, h1, ?_⟩
    rw [h2]
    simp
  · have he : ¬ self._node.isEmpty = true := fun h => hn ((isEmpty_eq_true_iff _).mp h)
    simp only [he, Bool.false_eq_true, not_false_eq_true, if_true, syntheticNodeCalls, hn,
      if_false, hall _ _, not_true_eq_false]
    rw [hf]
    obtain ⟨ret, b3, rest, h1, h2, _, h4⟩ := AddRecord_after_node toks
      { b with calls := b.calls ++ [self.beginCall, .AddField NODE_NAME self._node] } hwf
    obtain ⟨rfl, rfl⟩ := h4 hall
    refine ⟨b3, ?_, ?_⟩
    · simpa using h1
    · rw [h2]
      simp

theorem addFieldCount_expected (toks : List FieldTok) :
    addFieldCount (expectedFieldCalls toks) + bareCount toks = toks.length := by
  induction toks with
  | nil => rfl
  | cons t ts ih =>
    cases t with
    | bare x =>
      simp only [expectedFieldCalls, List.filterMap_cons, bareCount, List.filter_cons, if_true,
        List.length_cons] at ih ⊢
      omega
    | named n v =>
      simp only [expectedFieldCalls, List.filterMap_cons, bareCount, List.filter_cons,
        addFieldCount, if_true, List.length_cons, Bool.false_eq_true, if_false] at ih ⊢
      omega

theorem declaredFields_expected (toks : List FieldTok) :
    declaredFields (expectedFieldCalls toks) = [] := by
  induction toks with
  | nil => rfl
  | cons t ts ih =>
    cases t with
    | bare x => simpa [expectedFieldCalls] using ih
    | named n v =>
      simp only [expectedFieldCalls, List.filterMap_cons, declaredFields] at ih ⊢
      exact ih

theorem declaredFields_append (xs ys : List BuilderCall) :
    declaredFields (xs ++ ys) = declaredFields xs ++ declaredFields ys := by
  simp [declaredFields]

theorem addFieldCount_append (xs ys : List BuilderCall) :
    addFieldCount (xs ++ ys) = addFieldCount xs + addFieldCount ys := by
  simp [addFieldCount]

/-- C21 (defect in the code). For every parsed record of fewer than 65535
field tokens, handed to a fresh builder whose calls all succeed, `AddRecord`
returns 1 and the field count it has declared to `BeginRecord` is the number
of `AddField` calls it has made (node field included) plus the number of
field tokens without `'='`: with one such token the count declared is not the
number of fields added. -/
theorem AddRecord_declared_count (self : RawEventRecord) (b : EventBuilder)
    (toks : List FieldTok)
    (hf : self._record_fields = toks.map FieldTok.render) (hwf : ∀ t ∈ toks, t.wf = true)
    (hall : b.allSucceed) (hnew : b.calls = []) (hsmall : toks.length + 1 < 2 ^ 16) :
    ∃ b1, self.AddRecord b = .ok (1, b1)
      ∧ declaredFields b1.calls = [addFieldCount b1.calls + bareCount toks]
      ∧ (0 < bareCount toks → declaredFields b1.calls ≠ [addFieldCount b1.calls]) := by
  obtain ⟨b1, h1, h2⟩ := AddRecord_all_calls self b toks hf hwf hall
  have hcount := addFieldCount_expected toks
  have hlen : self._record_fields.length = toks.length := by rw [hf, List.length_map]
  have key : declaredFields b1.calls = [addFieldCount b1.calls + bareCount toks] := by
    rw [h2, hnew, List.nil_append]
    by_cases hn : self._node = []
    · have he : self._node.isEmpty = true := (isEmpty_eq_true_iff _).mpr hn
      have hnum : self.num_fields = toks.length := by
        simp only [RawEventRecord.num_fields, he, not_true_eq_false, if_false, to_uint16, hlen]
        exact Nat.mod_eq_of_lt (by omega)
      simp only [syntheticNodeCalls, hn, if_true, List.nil_append]
      have hd : declaredFields (self.beginCall :: (expectedFieldCalls toks ++ [.EndRecord]))
          = [self.num_fields] := by
        have := declaredFields_append (expectedFieldCalls toks) [.EndRecord]
        rw [declaredFields_expected] at this
        simp only [declaredFields, RawEventRecord.beginCall, List.filterMap_cons] at this ⊢
        rw [this]
        rfl
      have ha : addFieldCount (self.beginCall :: (expectedFieldCalls toks ++ [.EndRecord]))
          = addFieldCount (expectedFieldCalls toks) := by
        have := addFieldCount_append (expectedFieldCalls toks) [.EndRecord]
        simp only [addFieldCount, RawEventRecord.beginCall, List.filter_cons] at this ⊢
        simp
      rw [hd, ha, hnum]
      congr 1
      omega
    · have he : ¬ self._node.isEmpty = true := fun h => hn ((isEmpty_eq_true_iff _).mp h)
      have hnum : self.num_fields = toks.length + 1 := by
        simp only [RawEventRecord.num_fields, he, not_false_eq_true, if_true, to_uint16, hlen]
        rw [Nat.mod_eq_of_lt (show toks.length < 2 ^ 16 by omega)]
        exact Nat.mod_eq_of_lt hsmall
      simp only [syntheticNodeCalls, hn, if_false, List.singleton_append, List.cons_append,
        List.nil_append]
      have hd : declaredFields (self.beginCall ::
          BuilderCall.AddField NODE_NAME self._node :: (expectedFieldCalls toks ++ [.EndRecord]))
          = [self.num_fields] := by
        have := declaredFields_append (expectedFieldCalls toks) [.EndRecord]
        rw [declaredFields_expected] at this
        simp only [declaredFields, RawEventRecord.beginCall, List.filterMap_cons] at this ⊢
        rw [this]
        rfl
      have ha : addFieldCount (self.beginCall ::
          BuilderCall.AddField NODE_NAME self._node :: (expectedFieldCalls toks ++ [.EndRecord]))
          = addFieldCount (expectedFieldCalls toks) + 1 := by
        have := addFieldCount_append (expectedFieldCalls toks) [.EndRecord]
        simp only [addFieldCount, RawEventRecord.beginCall, List.filter_cons] at this ⊢
        simp
      rw [hd, ha, hnum]
      congr 1
      omega
  refine ⟨b1, h1, key, ?_⟩
  intro hb heq
  rw [key] at heq
  simp only [List.cons.injEq, and_true] at heq
  omega

/-- C21, witness: from the tokens `bare`, `a=` and `k=v=w`, three fields are
declared and two are added. -/
theorem AddRecord_declared_count_witness :
    ∃ b1, mixedRecord.AddRecord okBuilder = .ok (1, b1)
      ∧ declaredFields b1.calls
          = [addFieldCount b1.calls
              + bareCount [.bare "bare".toList, .named "a".toList [],
                  .named "k".toList "v=w".toList]]
      ∧ (0 < bareCount [.bare "bare".toList, .named "a".toList [],
                  .named "k".toList "v=w".toList]
          → declaredFields b1.calls ≠ [addFieldCount b1.calls]) :=
  AddRecord_declared_count mixedRecord okBuilder
    [.bare "bare".toList, .named "a".toList [], .named "k".toList "v=w".toList]
    (by decide) (by decide) (fun _ _ => rfl) rfl (by decide)

/-! ## C22, C24: the entries `process_field` adds -/

/-- The entries `process_field` adds: those for the interpreted value, under
`_interp_name`, then one for the raw value, under `_raw_name`. -/
theorem process_field_entries (config : TransformerConfig) (unescape : List Char → List Char)
    (json_buffer : List (List Char × List Char)) (field : EventRecordField) :
    process_field config unescape json_buffer field
      = json_buffer
        ++ (if field.FieldType = .ESCAPED ∨ field.FieldType = .PROCTITLE then
              [((fieldNames config field).2, unescape field.RawValue)]
            else if field.InterpValue.length > 0 then
              (if field.FieldType = .SESSION then
                [((fieldNames config field).2, field.InterpValue),
                 ((fieldNames config field).2, field.InterpValue)]
               else [((fieldNames config field).2, field.InterpValue)])
            else [])
        ++ [((fieldNames config field).1, field.RawValue)] := by
  have hne : ∀ v : List Char, ¬ (v = "unset".toList ∧ v = "4294967295".toList) := by
    rintro v ⟨h1, h2⟩
    rw [h1] at h2
    revert h2
    decide
  unfold process_field
  by_cases hl : field.InterpValue.length > 0
  · cases hty : field.FieldType with
    | SESSION =>
      simp only [hne, hl, if_true, if_false, reduceCtorEq, or_self, List.append_assoc,
        List.singleton_append, List.cons_append, List.nil_append]
    | ESCAPED => simp [hl]
    | PROCTITLE => simp [hl]
    | other code => simp [hl]
  · cases hty : field.FieldType <;>
      simp [hl]

theorem suffixed_ne (r i s : List Char) (h : s ≠ []) :
    (if r = i then r ++ s else r) ≠ i := by
  split
  · rename_i heq
    intro h2
    have hlen := congrArg List.length h2
    rw [List.length_append, heq] at hlen
    have : 0 < s.length := List.length_pos.mpr h
    omega
  · rename_i hneq
    exact hneq

theorem fieldNames_ne (config : TransformerConfig) (field : EventRecordField)
    (h : config.FieldSuffix ≠ []) : (fieldNames config field).1 ≠ (fieldNames config field).2 := by
  unfold fieldNames
  exact suffixed_ne _ _ _ h

/-- The entries `process_field` adds, by name and number. -/
theorem process_field_shape (config : TransformerConfig)
    (unescape : List Char → List Char) (json_buffer : List (List Char × List Char))
    (field : EventRecordField) :
    ∃ es, process_field config unescape json_buffer field
        = json_buffer ++ es ++ [((fieldNames config field).1, field.RawValue)]
      ∧ (∀ e ∈ es, e.1 = (fieldNames config field).2)
      ∧ es.length
        = (if field.FieldType = .ESCAPED ∨ field.FieldType = .PROCTITLE then 1
           else if field.InterpValue.length > 0 then
             (if field.FieldType = .SESSION then 2 else 1)
           else 0) := by
  refine ⟨_, process_field_entries config unescape json_buffer field, ?_, ?_⟩
  · intro e he
    split at he
    · simp only [List.mem_singleton] at he
      rw [he]
    · split at he
      · split at he
        · simp only [List.mem_cons, List.mem_singleton, List.not_mem_nil, or_false,
            or_self] at he
          rw [he]
        · simp only [List.mem_singleton] at he
          rw [he]
      · simp at he
  · split
    · rfl
    · split
      · split <;> rfl
      · rfl

/-- C22 (defect in the code). For every field, `process_field` adds one
entry for the raw value, after the entries for the interpreted value, which
all carry the interpreted name; these are one for a field of type ESCAPED or
PROCTITLE, none for another field without interpreted value, one for another
field with an interpreted value - and two, under the same name, for every
field of type SESSION with an interpreted value: for `ses=3` the entry
`ses` is added twice. -/
theorem process_field_entry_count (config : TransformerConfig)
    (unescape : List Char → List Char) (json_buffer : List (List Char × List Char))
    (field : EventRecordField) :
    (∃ es, process_field config unescape json_buffer field
        = json_buffer ++ es ++ [((fieldNames config field).1, field.RawValue)]
      ∧ (∀ e ∈ es, e.1 = (fieldNames config field).2)
      ∧ es.length
        = (if field.FieldType = .ESCAPED ∨ field.FieldType = .PROCTITLE then 1
           else if field.InterpValue.length > 0 then
             (if field.FieldType = .SESSION then 2 else 1)
           else 0))
    ∧ process_field plainConfig id [] sessionThree
        = [("ses".toList, "3".toList), ("ses".toList, "3".toList),
           ("ses_r".toList, "3".toList)] :=
  ⟨process_field_shape config unescape json_buffer field, by decide⟩

/-- C24. When `FieldSuffix` is not empty, for every field and every content
of the two name maps, `process_field` adds the raw value last, under a name
that differs from the name of every entry it adds for the interpreted
value. -/
theorem process_field_names_differ (config : TransformerConfig)
    (unescape : List Char → List Char) (json_buffer : List (List Char × List Char))
    (field : EventRecordField) (hsuffix : config.FieldSuffix ≠ []) :
    ∃ es, process_field config unescape json_buffer field
        = json_buffer ++ es ++ [((fieldNames config field).1, field.RawValue)]
      ∧ (∀ e ∈ es, e.1 = (fieldNames config field).2)
      ∧ (∀ e ∈ es, e.1 ≠ (fieldNames config field).1)
      ∧ (fieldNames config field).1 ≠ (fieldNames config field).2 := by
  obtain ⟨es, h1, h2, _⟩ := process_field_shape config unescape json_buffer field
  have hne := fieldNames_ne config field hsuffix
  refine ⟨es, h1, h2, ?_, hne⟩
  intro e he
  rw [h2 e he]
  exact fun h => hne h.symm

/-- C24, witness: both maps name `uid` `user`; the raw value goes under
`user_r`. -/
theorem process_field_names_differ_witness :
    fieldNames clashConfig rootUid = ("user_r".toList, "user".toList)
    ∧ ∃ es, process_field clashConfig id [] rootUid
        = [] ++ es ++ [((fieldNames clashConfig rootUid).1, rootUid.RawValue)]
      ∧ (∀ e ∈ es, e.1 = (fieldNames clashConfig rootUid).2)
      ∧ (∀ e ∈ es, e.1 ≠ (fieldNames clashConfig rootUid).1)
      ∧ (fieldNames clashConfig rootUid).1 ≠ (fieldNames clashConfig rootUid).2 :=
  ⟨by decide, process_field_names_differ clashConfig id [] rootUid (by decide)⟩

/-! ## C23: what the iterator yields for a token -/

/-- One `next()` on a token that opens with `msg='`: the five opening bytes
are skipped and the token after them is returned. -/
theorem next_opened (pre tok rest v : List Char) (hne : tok ≠ []) (hsep : ∀ c ∈ tok, c ∉ SEP)
    (hmsg : tok.take 5 ≠ MSG_QUOTE) (hrest : ∀ c ∈ rest.head?, c ∈ SEP)
    (hlen : (pre ++ MSG_QUOTE ++ tok ++ rest).length < npos) :
    RecordFieldIterator.next ⟨pre ++ MSG_QUOTE ++ tok ++ rest, v, pre.length⟩
      = .ok (true, atTok (pre ++ MSG_QUOTE ++ tok ++ rest) (pre ++ MSG_QUOTE) tok) := by
  have hT : pre ++ MSG_QUOTE ++ tok = pre ++ (MSG_QUOTE ++ tok) := List.append_assoc _ _ _
  have hl : (pre ++ MSG_QUOTE ++ tok ++ rest).length
      = pre.length + 5 + tok.length + rest.length := by
    simp [MSG_QUOTE]
    omega
  have hc : ¬ (pre.length = npos ∨ pre.length ≥ (pre ++ MSG_QUOTE ++ tok ++ rest).length) := by
    rw [hl] at hlen ⊢
    omega
  have hq : ∀ c ∈ MSG_QUOTE, c ∉ SEP := by decide
  have hsep2 : ∀ c ∈ MSG_QUOTE ++ tok, c ∉ SEP := by
    intro c hcm
    rcases List.mem_append.mp hcm with h | h
    · exact hq c h
    · exact hsep c h
  have hend := token_end pre (MSG_QUOTE ++ tok) rest hsep2 hrest (by rw [← hT]; exact hlen)
  rw [← hT] at hend
  have hval : substr (pre ++ MSG_QUOTE ++ tok ++ rest) pre.length
      (pre.length + (MSG_QUOTE ++ tok).length - pre.length) = .ok (MSG_QUOTE ++ tok) := by
    rw [substr_ok _ (by rw [hl]; omega), hT, List.append_assoc pre, List.drop_left,
      Nat.add_sub_cancel_left, List.take_left]
  have hpre : substr (MSG_QUOTE ++ tok) 0 5 = .ok MSG_QUOTE := by
    rw [substr_ok _ (Nat.zero_le _)]
    simp [MSG_QUOTE]
  have hnext := next_plain (pre ++ MSG_QUOTE) tok rest (MSG_QUOTE ++ tok) hne hsep hmsg hrest hlen
  unfold RecordFieldIterator.next at hnext ⊢
  simp only at hnext
  unfold RecordFieldIterator.nextAux
  simp only [hc, if_false, hend, hval, hpre, if_true]
  rw [nextAux_fuel _ ((pre ++ MSG_QUOTE ++ tok ++ rest).length + 1) _
    (by simp only; rw [hl]; omega) (by simp only; omega)]
  rw [show pre.length + 5 = (pre ++ MSG_QUOTE).length by simp [MSG_QUOTE], hnext]
  rfl

/-- One `next()` on a token, opened by `msg='` or not. -/
theorem next_entry (pre tok rest v : List Char) (o : Bool) (htok : plainTok tok = true)
    (hrest : startsSep rest = true) (hlen : (pre ++ opener o ++ tok ++ rest).length < npos) :
    RecordFieldIterator.next ⟨pre ++ opener o ++ tok ++ rest, v, pre.length⟩
      = .ok (true, atTok (pre ++ opener o ++ tok ++ rest) (pre ++ opener o) tok) := by
  obtain ⟨hne, hs, hm⟩ := plainTok_iff.mp htok
  cases o with
  | true => exact next_opened pre tok rest v hne hs hm (startsSep_iff.mp hrest) hlen
  | false =>
    simp only [opener, Bool.false_eq_true, if_false, List.append_nil] at hlen ⊢
    exact next_plain pre tok rest v hne hs hm (startsSep_iff.mp hrest) hlen

theorem opener_head (o : Bool) {t : List Char} (rest : List Char) (h : plainTok t = true) :
    opener o ++ t ++ rest ≠ [] ∧ ∀ c ∈ (opener o ++ t ++ rest).head?, c ∉ SEP := by
  obtain ⟨hne, _, _⟩ := plainTok_iff.mp h
  cases o with
  | true =>
    refine ⟨by simp [opener, MSG_QUOTE], ?_⟩
    intro c hc
    simp only [opener, if_true, MSG_QUOTE, List.cons_append, List.head?_cons,
      Option.mem_def, Option.some.injEq] at hc
    subst hc
    decide
  | false =>
    simp only [opener, Bool.false_eq_true, if_false, List.nil_append]
    exact ⟨by simp [hne], plainTok_head h⟩

/-- From one token to the next, opened by `msg='` or not. -/
theorem next_advance_entry (text pre tok seps tok2 rest : List Char) (o : Bool)
    (htext : text = pre ++ tok ++ seps ++ opener o ++ tok2 ++ rest)
    (hseps : isSepRun seps = true) (htok2 : plainTok tok2 = true)
    (hrest : startsSep rest = true) (hlen : text.length < npos) :
    (atTok text pre tok).next
      = .ok (true, atTok text (pre ++ tok ++ seps ++ opener o) tok2) := by
  obtain ⟨_, hss⟩ := isSepRun_iff.mp hseps
  obtain ⟨hne2, hhead⟩ := opener_head o rest htok2
  have hidx : find_first_not_of text SEP (pre.length + tok.length)
      = (pre ++ tok ++ seps).length := by
    have := find_first_not_of_run (pre ++ tok) seps (opener o ++ tok2 ++ rest) hss hhead
    simp only [hne2, if_false, List.length_append] at this
    rw [List.length_append, List.length_append, ← this, htext]
    simp [List.append_assoc]
  have h := next_entry (pre ++ tok ++ seps) tok2 rest (stripQuote tok) o htok2 hrest
    (by rw [← htext]; exact hlen)
  rw [← htext] at h
  simp only [atTok, hidx]
  exact h

theorem tokensText_startsSep (ts : List (List Char × Bool × List Char)) (trailing : List Char)
    (hts : tokensOK ts = true) (htr : allSep trailing = true) :
    startsSep (tokensText ts ++ trailing) = true := by
  cases ts with
  | nil => simpa [tokensText] using allSep_startsSep htr
  | cons p rest =>
    obtain ⟨seps, o, t⟩ := p
    simp only [tokensOK, List.all_cons, Bool.and_eq_true] at hts
    obtain ⟨hne, hs⟩ := isSepRun_iff.mp hts.1.1
    cases seps with
    | nil => exact absurd rfl hne
    | cons c s =>
      simp only [tokensText, List.cons_append, startsSep]
      simpa using hs c (by simp)

/-- The loop `while (itr.next())` over tokens with and without `msg='` in
front: each is yielded without its opening `msg='` and without one trailing
single quote. -/
theorem collectFields_tokensText : ∀ (ts : List (List Char × Bool × List Char))
    (text pre tok trailing : List Char) (acc : List (List Char)) (fuel : Nat),
    text = pre ++ tok ++ tokensText ts ++ trailing → tokensOK ts = true →
    allSep trailing = true → text.length < npos → (tokensText ts).length < fuel →
    collectFields fuel (atTok text pre tok) acc
      = .ok (acc ++ ts.map (fun p => stripQuote p.2.2))
  | [], text, pre, tok, trailing, acc, fuel, htext, _, htr, _, hfuel => by
    obtain ⟨f, rfl⟩ : ∃ f, fuel = f + 1 := ⟨fuel - 1, by omega⟩
    unfold collectFields
    rw [next_last text pre tok trailing (by simpa [tokensText] using htext) (allSep_iff.mp htr)]
    simp
  | (seps, o, t) :: ts, text, pre, tok, trailing, acc, fuel, htext, hts, htr, hlen, hfuel => by
    obtain ⟨f, rfl⟩ : ∃ f, fuel = f + 1 := ⟨fuel - 1, by omega⟩
    have hts2 := hts
    simp only [tokensOK, List.all_cons, Bool.and_eq_true] at hts2
    obtain ⟨⟨hs, ht⟩, hrest⟩ := hts2
    unfold collectFields
    rw [next_advance_entry text pre tok seps t (tokensText ts ++ trailing) o
      (by simp [htext, tokensText, List.append_assoc]) hs ht
      (tokensText_startsSep ts trailing hrest htr) hlen]
    simp only
    rw [collectFields_tokensText ts text (pre ++ tok ++ seps ++ opener o) t trailing _ f
      (by simp [htext, tokensText, List.append_assoc]) hrest htr hlen
      (by
        have : 0 < seps.length := List.length_pos.mpr (isSepRun_iff.mp hs).1
        simp only [tokensText, List.length_append] at hfuel
        omega)]
    simp [atTok, RecordFieldIterator.value]

theorem stripQuote_eq_iff (t : List Char) : stripQuote t = t ↔ t.getLast? ≠ some '\'' := by
  constructor
  · intro h hq
    unfold stripQuote at h
    rw [if_pos hq] at h
    have hlen := congrArg List.length h
    rw [List.length_dropLast] at hlen
    cases t with
    | nil => simp at hq
    | cons a l =>
      simp only [List.length_cons] at hlen
      omega
  · exact stripQuote_of_not_quote

/-- C23 as it was stated fails on `a='x' b`: no token begins with `msg='`,
and yet the first token is yielded without its last byte, the single quote. -/
theorem iterator_quote_counterexample :
    collectFields 8 (RecordFieldIterator.mk0 "a='x' b".toList) []
      = .ok ["a='x".toList, "b".toList] := by
  decide

/-- C23, amended. For every text that begins with a token, whose tokens are
separated by non-empty runs of SP or LF and are each, after an opening
`msg='` if the token has one, non-empty and not opened by `msg='` again: the
iterator yields, in order, every token without its opening `msg='` and
without one trailing single quote if it ends with one, and then `next()`
returns false. A token is yielded byte for byte unchanged exactly when it
neither opens with `msg='` nor ends with a single quote; the quote is
removed whether or not a block was opened before. -/
theorem iterator_yields (o0 : Bool) (t0 : List Char) (ts : List (List Char × Bool × List Char))
    (trailing : List Char) (fuel : Nat)
    (h0 : plainTok t0 = true) (hts : tokensOK ts = true) (htr : allSep trailing = true)
    (hlen : (opener o0 ++ t0 ++ tokensText ts ++ trailing).length < npos)
    (hfuel : (opener o0 ++ t0 ++ tokensText ts ++ trailing).length < fuel) :
    collectFields fuel
        (RecordFieldIterator.mk0 (opener o0 ++ t0 ++ tokensText ts ++ trailing)) []
      = .ok (stripQuote t0 :: ts.map (fun p => stripQuote p.2.2))
    ∧ ∀ t, (stripQuote t = t ↔ t.getLast? ≠ some '\'')
        ∧ (t.getLast? = some '\'' → stripQuote t = t.dropLast) := by
  refine ⟨?_, fun t => ⟨stripQuote_eq_iff t, fun h => by simp [stripQuote, h]⟩⟩
  obtain ⟨f, rfl⟩ : ∃ f, fuel = f + 1 := ⟨fuel - 1, by omega⟩
  have hstart := tokensText_startsSep ts trailing hts htr
  have hnext := next_entry [] t0 (tokensText ts ++ trailing) [] o0 h0 hstart
    (by simpa [List.append_assoc] using hlen)
  simp only [List.nil_append, List.length_nil, ← List.append_assoc] at hnext
  unfold collectFields
  simp only [RecordFieldIterator.mk0]
  rw [hnext]
  simp only
  rw [collectFields_tokensText ts _ (opener o0) t0 trailing _ f rfl hts htr hlen
    (by
      simp only [List.length_append] at hfuel
      have := List.length_pos.mpr (plainTok_iff.mp h0).1
      omega)]
  simp [atTok, RecordFieldIterator.value]

/-- C23, witness: the text `pid=10 msg='cmd=ls cwd=/tmp' k='v'`. -/
theorem iterator_yields_witness :
    opener false ++ "pid=10".toList
        ++ tokensText [(" ".toList, true, "cmd=ls".toList), (" ".toList, false, "cwd=/tmp'".toList),
            (" ".toList, false, "k='v'".toList)] ++ []
      = "pid=10 msg='cmd=ls cwd=/tmp' k='v'".toList
    ∧ collectFields 35
        (RecordFieldIterator.mk0 (opener false ++ "pid=10".toList
          ++ tokensText [(" ".toList, true, "cmd=ls".toList),
              (" ".toList, false, "cwd=/tmp'".toList),
              (" ".toList, false, "k='v'".toList)] ++ [])) []
      = .ok ["pid=10".toList, "cmd=ls".toList, "cwd=/tmp".toList, "k='v".toList] :=
  ⟨by decide,
   (iterator_yields false "pid=10".toList
    [(" ".toList, true, "cmd=ls".toList), (" ".toList, false, "cwd=/tmp'".toList),
     (" ".toList, false, "k='v'".toList)] [] 35
    (by decide) (by decide) (by decide) (by decide) (by decide)).1⟩

/-! ## C25: a queue size below the minimum -/

/-- C25 (defect in the code). When the configured `queue_size` is smaller
than `Queue::MIN_QUEUE_SIZE`, `auomsforward` logs the warning that ends with
"Using minimum" and then calls `exit(1)`: it does not go on with the queue
size set to the minimum. -/
theorem forwardQueueSize_exits {D : Type} (config : Config D) (MIN_QUEUE_SIZE v : Nat)
    (hkey : config.HasKey "queue_size" = true)
    (hval : config.GetUint64 "queue_size" = some v) (hv : v < 2 ^ 64)
    (hsmall : v < MIN_QUEUE_SIZE) :
    forwardQueueSize config MIN_QUEUE_SIZE
        = .exited 1 [.WarnUsingMinimum v MIN_QUEUE_SIZE]
      ∧ ∀ log, forwardQueueSize config MIN_QUEUE_SIZE ≠ .proceeds MIN_QUEUE_SIZE log := by
  have hsz : to_size_t v = v := Nat.mod_eq_of_lt hv
  have h : forwardQueueSize config MIN_QUEUE_SIZE
      = .exited 1 [.WarnUsingMinimum v MIN_QUEUE_SIZE] := by
    simp [forwardQueueSize, hkey, hval, hsz, hsmall]
  refine ⟨h, ?_⟩
  intro log
  rw [h]
  simp

/-- C25, witness: `queue_size` 1024 with a minimum of 262144. -/
theorem forwardQueueSize_exits_witness :
    forwardQueueSize smallQueueConfig 262144 = .exited 1 [.WarnUsingMinimum 1024 262144]
      ∧ ∀ log, forwardQueueSize smallQueueConfig 262144 ≠ .proceeds 262144 log :=
  forwardQueueSize_exits smallQueueConfig 262144 1024 rfl rfl (by decide) (by decide)

end Auoms
